import Mathlib
set_option linter.unusedSectionVars false

/-!
# Transducer decoding in `SimpleOutputWriter`

A shallow embedding of the greedy decoder (`WriteOutput_greedy`) and of the
beam-search decoder (`WriteOutput_beam`) of
`Source/SGDLib/SimpleOutputWriter.h.guoye_comment.h`, with the helper
functions they call, followed by theorems about them.

Conventions of the embedding:

* `ElemType` (float or double) is a linearly ordered field `α`; rounding and
  NaN are outside the model.
* `size_t` values are natural numbers; none of the counters below can reach
  `2 ^ 64` before memory is exhausted.
* The network is a record of pure functions (`Network`): the value the
  decoder returns for a label history and the vector the joiner returns for
  a frame and a decoder output.
* An operation that is undefined in C++ (dereferencing `end()`, indexing
  outside a vector or matrix) yields `none`/`Run.ub`; the unbounded
  `while (true)` loop runs on fuel and yields `Run.timeout` when it is used
  up.
* `std::nth_element` leaves the arrangement inside its two parts open.
  `nth_element` fixes one arrangement; `NthElement` is any implementation,
  and the functions whose names end in `By` are the beam search run with it.
-/

namespace SimpleOutputWriter

/-- One hypothesis of the search (`struct Sequence`). -/
structure Sequence (α D : Type) where
  labelseq : List Nat
  logP : α
  length : Nat
  processlength : Nat
  lengthwithblank : Nat
  decodeoutput : D
deriving DecidableEq

/-- Result of running a piece of the decoder: a value, undefined behaviour,
or fuel exhausted inside `while (true)`. -/
inductive Run (σ : Type) where
  | done (s : σ)
  | ub
  | timeout
deriving DecidableEq

section Algorithms

variable {α D : Type} [LinearOrderedField α]

/-- Loop of `std::max_element`: `largest` is the position of the greatest
element seen so far, `lp` its `logP`, `i` the position of the head of the
remaining range.  `operator<` of `Sequence` compares `logP`. -/
def max_elementLoop (largest : Nat) (lp : α) (i : Nat) : List (Sequence α D) → Nat
  | [] => largest
  | x :: xs =>
    if lp < x.logP then max_elementLoop i x.logP (i + 1) xs
    else max_elementLoop largest lp (i + 1) xs

/-- `std::max_element(v.begin(), v.end())`: position of the first greatest
element; `none` stands for `end()`, returned on an empty vector. -/
def max_element : List (Sequence α D) → Option Nat
  | [] => none
  | x :: xs => some (max_elementLoop 0 x.logP 1 xs)

/-- `std::sort(v.begin(), v.end())` with `operator<` on `logP`: ascending
order.  The order among hypotheses of equal `logP` is unspecified in C++;
the model takes the one of insertion sort. -/
def sort (v : List (Sequence α D)) : List (Sequence α D) :=
  v.insertionSort (fun a b => a.logP ≤ b.logP)

/-- The loop `for (iseq = size; iseq > beamSize; iseq--) pop_back()`. -/
def popBackLoop {σ : Type} (beamSize : Nat) : Nat → List σ → List σ
  | 0, v => v
  | iseq + 1, v =>
    if iseq + 1 > beamSize then popBackLoop beamSize iseq v.dropLast else v

/-- The hypotheses released by `deleteSeq(nextSequences[n])` for
`n = beamSize .. size - 1` (lines 604-610), taken after sort and reverse. -/
def released (nextSequences : List (Sequence α D)) (beamSize : Nat) :
    List (Sequence α D) :=
  (sort nextSequences).reverse.drop beamSize

/-- The prune step at the end of a frame (lines 602-612): sort, reverse,
then pop the back until at most `beamSize` hypotheses are left. -/
def prune (nextSequences : List (Sequence α D)) (beamSize : Nat) :
    List (Sequence α D) :=
  let v := (sort nextSequences).reverse
  popBackLoop beamSize v.length v

/-- The network as the decoders see it.  `vocabSize` is `bm.GetNumRows()`,
`numFrames` is `encodeOutput.GetNumCols()`.  `decoder h` is the decoder
network's output after the label history `h` has been fed to it;
`joint t d r` is row `r` of the log-softmax of the joiner's projection for
encoder frame `t` and decoder output `d` (`forwardmerged`).  `LogAdd` is
`Matrix::LogAdd`, and `fresh` the content of a newly allocated
`numRow x 1` matrix; neither is in the source file. -/
structure Network (α D : Type) where
  vocabSize : Nat
  numFrames : Nat
  decoder : List Nat → D
  joint : Nat → D → Nat → α
  LogAdd : α → α → α
  fresh : D

/-- `newSeq(numRow, numCol, deviceId)`: the empty hypothesis. -/
def newSeq (net : Network α D) : Sequence α D :=
  { labelseq := [], logP := 0, length := 0, processlength := 0, lengthwithblank := 0,
    decodeoutput := net.fresh }

/-- `newSeq(Sequence a)`: a field-by-field copy with its own decoder output. -/
def newSeqCopy (a : Sequence α D) : Sequence α D :=
  { labelseq := a.labelseq, logP := a.logP, length := a.length,
    processlength := a.processlength, lengthwithblank := a.lengthwithblank,
    decodeoutput := a.decodeoutput }

/-- `extendSeq(insequence, labelId, logP)`. -/
def extendSeq (insequence : Sequence α D) (labelId : Nat) (logP : α) : Sequence α D :=
  { insequence with
    labelseq := insequence.labelseq ++ [labelId]
    logP := logP
    length := insequence.length + 1
    lengthwithblank := insequence.lengthwithblank + 1 }

/-- A column of `vocabSize` rows holding `1` in row `id` and `0` elsewhere. -/
def oneHotCol (vocabSize id : Nat) : List α :=
  (List.range vocabSize).map (fun r => if r = id then (1 : α) else 0)

/-- The column built by `lmin.Resize(vocabSize, 1); lmin.SetValue(0.0);
lmin(id, 0) = 1`: the one-hot vector of `id`.  Writing row `id` of a matrix
of `vocabSize` rows is out of range unless `id < vocabSize`. -/
def oneHot (vocabSize id : Nat) : Option (List α) :=
  if id < vocabSize then some (oneHotCol vocabSize id) else none

/-- `forward_decode(oneSeq, ..., vocabSize, plength)`.  Returns the updated
hypothesis and the number of `ForwardProp` calls made on the decoder
network.  With `plength != processlength` the first `plength` labels are
written as one-hot columns (each read `labelseq[n]` and each write
`lmin(labelseq[n], n)` must be in range), the decoder is evaluated on them
and column `plength - 1` of its output is cached (which does not exist for
`plength = 0`). -/
def forward_decode (net : Network α D) (oneSeq : Sequence α D) (vocabSize plength : Nat) :
    Option (Sequence α D × Nat) :=
  if plength ≠ oneSeq.processlength then
    if plength = 0 ∨ oneSeq.labelseq.length < plength
        ∨ ¬ (∀ l ∈ oneSeq.labelseq.take plength, l < vocabSize) then none
    else
      some ({ oneSeq with
                decodeoutput := net.decoder (oneSeq.labelseq.take plength)
                processlength := plength }, 1)
  else some (oneSeq, 0)

/-- `forwardmerged(a, t, ...)`: the content of `decodeOutput` afterwards, the
log-probability of every vocabulary row for frame `t` and the cached
decoder output of `a`. -/
def forwardmerged (net : Network α D) (a : Sequence α D) (t : Nat) : List α :=
  (List.range net.vocabSize).map (net.joint t a.decodeoutput)

/-- `std::nth_element(begin, begin + N, end, comp)` with
`comp x y = y.second < x.second`.  `begin + N` past `end` is undefined;
`begin + N == end` leaves the range as it is; otherwise the first `N`
entries are `N` greatest ones.  C++ leaves the order inside the two parts
open; the model takes the arrangement in descending order that keeps the
earlier of two equal entries first.  What depends on the arrangement is
stated with `NthElement` below, for every implementation. -/
def nth_element (datapair : List (Nat × α)) (N : Nat) : Option (List (Nat × α)) :=
  if datapair.length < N then none
  else if N = datapair.length then some datapair
  else some (datapair.insertionSort (fun x y => y.2 ≤ x.2))

/-- `getTopN(prob, N)`: pairs every row with its value, then `nth_element`. -/
def getTopN (prob : List α) (N : Nat) : Option (List (Nat × α)) :=
  nth_element prob.enum N

/-- The search state of one frame of `WriteOutput_beam`. -/
structure BeamState (α D : Type) where
  CurSequences : List (Sequence α D)
  nextSequences : List (Sequence α D)
deriving DecidableEq

/-- The loop over `nextSequences` of lines 569-580: the first hypothesis
whose `labelseq` equals that of `seqK` gets `LogAdd(seqK.logP, itseq->logP)`
as its score.  `none` means `existseq` stayed false. -/
def mergeBlank (LogAdd : α → α → α) (seqK : Sequence α D) :
    List (Sequence α D) → Option (List (Sequence α D))
  | [] => none
  | itseq :: rest =>
    if seqK.labelseq = itseq.labelseq then
      some ({ itseq with logP := LogAdd seqK.logP itseq.logP } :: rest)
    else (mergeBlank LogAdd seqK rest).map (fun r => itseq :: r)

/-- One pass of the loop over `iLabel` (lines 561-589) for the candidate
`topN[iLabel] = c`. -/
def expandCandidate (net : Network α D) (blankId : Nat) (tempSeq : Sequence α D)
    (st : BeamState α D) (c : Nat × α) : BeamState α D :=
  let seqK := newSeqCopy tempSeq
  let newlogP := c.2 + tempSeq.logP
  let seqK := { seqK with logP := newlogP }
  if c.1 = blankId then
    match mergeBlank net.LogAdd seqK st.nextSequences with
    | some merged => { st with nextSequences := merged }
    | none => { st with nextSequences := st.nextSequences ++ [seqK] }
  else
    { st with CurSequences := st.CurSequences ++ [extendSeq seqK c.1 newlogP] }

/-- The `logP` of `*std::max_element(v.begin(), v.end())`; `none` when the
vector is empty and the iterator may not be dereferenced. -/
def maxLogP (v : List (Sequence α D)) : Option α :=
  (max_element v).bind (fun i => (v.get? i).map (fun s => s.logP))

/-- The stop test at the end of the loop body (lines 595-600): `true` for
`break`. -/
def stopTest (beamSize : Nat) (st : BeamState α D) : Option Bool :=
  if st.CurSequences.length = 0 then some true
  else if st.nextSequences.length > beamSize then
    (maxLogP st.CurSequences).bind (fun ya =>
      (maxLogP st.nextSequences).map (fun yb => decide (yb > ya)))
  else some false

/-- The body of `while (true)` (lines 545-600): pop the best hypothesis of
`CurSequences`, bring its decoder output up to date, score frame `t`, take
the top `expandBeam` candidates and process each; the Boolean is the stop
test. -/
def expandBody (net : Network α D) (beamSize expandBeam blankId t : Nat)
    (st : BeamState α D) : Option (BeamState α D × Bool) :=
  (max_element st.CurSequences).bind fun i =>
  (st.CurSequences.get? i).bind fun maxSeq =>
  (forward_decode net (newSeqCopy maxSeq) net.vocabSize maxSeq.labelseq.length).bind fun fd =>
  (getTopN (forwardmerged net fd.1 t) expandBeam).bind fun topN =>
  let st1 : BeamState α D :=
    (topN.take expandBeam).foldl (expandCandidate net blankId fd.1)
      { CurSequences := st.CurSequences.eraseIdx i, nextSequences := st.nextSequences }
  (stopTest beamSize st1).map fun stop => (st1, stop)

/-- The loop `while (true)` of one frame, run for at most `fuel` passes. -/
def expandLoop (net : Network α D) (beamSize expandBeam blankId t : Nat) :
    Nat → BeamState α D → Run (BeamState α D)
  | 0, _ => Run.timeout
  | fuel + 1, st =>
    match expandBody net beamSize expandBeam blankId t st with
    | none => Run.ub
    | some (st1, true) => Run.done st1
    | some (st1, false) => expandLoop net beamSize expandBeam blankId t fuel st1

/-- One frame `t` of `WriteOutput_beam` (lines 534-612): the survivors of
the previous frame become `CurSequences`, `nextSequences` is emptied, the
expansion loop runs and `nextSequences` is pruned.  The result is
`nextSequences` after the frame. -/
def beamFrame (net : Network α D) (beamSize expandBeam blankId fuel : Nat)
    (nextSequences : List (Sequence α D)) (t : Nat) : Run (List (Sequence α D)) :=
  match expandLoop net beamSize expandBeam blankId t fuel
      { CurSequences := nextSequences, nextSequences := [] } with
  | Run.done st => Run.done (prune st.nextSequences beamSize)
  | Run.ub => Run.ub
  | Run.timeout => Run.timeout

/-- The loop over the frames `t` (line 532), each frame's expansion loop
having `fuel` passes at its disposal. -/
def beamFrames (net : Network α D) (beamSize expandBeam blankId fuel : Nat) :
    List Nat → List (Sequence α D) → Run (List (Sequence α D))
  | [], nextSequences => Run.done nextSequences
  | t :: ts, nextSequences =>
    match beamFrame net beamSize expandBeam blankId fuel nextSequences t with
    | Run.done next1 => beamFrames net beamSize expandBeam blankId fuel ts next1
    | Run.ub => Run.ub
    | Run.timeout => Run.timeout

/-- The n-best loop of lines 617-620: every survivor's `logP` is divided by
`labelseq.size() - 1`.  (Division by zero is `0` in a field; IEEE arithmetic
gives an infinity or NaN there.  What is stated of the output step is
stated for any score the division may leave.) -/
def normalize (nextSequences : List (Sequence α D)) : List (Sequence α D) :=
  nextSequences.map (fun s => { s with logP := s.logP / ((s.labelseq.length - 1 : Nat) : α) })

/-- The loop of lines 625-628 for the column indices `ns`: column `n` of
`greedyOutput` becomes the one-hot vector of `labelseq[n + 1]`.  The read
`labelseq[n + 1]` and the write `greedyOutput(labelseq[n + 1], n)` must be
in range. -/
def setColumns (vocabSize : Nat) (labelseq : List Nat) : List Nat → Option (List (List α))
  | [] => some []
  | n :: ns =>
    (labelseq.get? (n + 1)).bind fun id =>
    (oneHot vocabSize id).bind fun col =>
    (setColumns vocabSize labelseq ns).map fun cols => col :: cols

/-- The output step for the 1-best hypothesis `yb` (lines 622-640 and the
`SaveData` call of line 652): the matrix written, as its list of columns,
and the frame count `lmt`.  `yb->length - 1` wraps for `length = 0`, a size
no matrix can have. -/
def writeBest (vocabSize blankId : Nat) (yb : Sequence α D) : Option (List (List α) × Nat) :=
  if yb.length = 0 then none
  else
    let lmt := yb.length - 1
    (setColumns vocabSize yb.labelseq (List.range lmt)).bind fun greedyOutput =>
    if lmt = 0 then
      (oneHot vocabSize blankId).map (fun lmin => ([lmin], 1))
    else some (greedyOutput, lmt)

/-- The start of an utterance in `WriteOutput_beam` (lines 524-529). -/
def beamInit (net : Network α D) (blankId : Nat) : List (Sequence α D) :=
  [extendSeq (newSeq net) blankId 0]

/-- `WriteOutput_beam` for one utterance: what is handed to
`dataWriter.SaveData`. -/
def WriteOutput_beam (net : Network α D) (beamSize expandBeam fuel : Nat) :
    Run (List (List α) × Nat) :=
  let blankId := net.vocabSize - 1
  match beamFrames net beamSize expandBeam blankId fuel (List.range net.numFrames)
      (beamInit net blankId) with
  | Run.done nextSequences =>
    let nbest := normalize nextSequences
    match (max_element nbest).bind (fun i => nbest.get? i) with
    | none => Run.ub
    | some yb =>
      match writeBest net.vocabSize blankId yb with
      | none => Run.ub
      | some out => Run.done out
  | Run.ub => Run.ub
  | Run.timeout => Run.timeout

/-- Loop of `VectorMax`: position of the first greatest entry. -/
def VectorMaxLoop (best : Nat) (bv : α) (i : Nat) : List α → Nat
  | [] => best
  | x :: xs =>
    if bv < x then VectorMaxLoop i x (i + 1) xs else VectorMaxLoop best bv (i + 1) xs

/-- Modelled from the spec: `Matrix::VectorMax` and `Get00Element`, which
the source file calls but does not contain.  The spec says the decoder
takes the arg-max vocabulary id of the joiner output; of several greatest
entries the first is taken.  An empty vector has no arg-max. -/
def VectorMax : List α → Option Nat
  | [] => none
  | x :: xs => some (VectorMaxLoop 0 x 1 xs)

/-- The variables of `WriteOutput_greedy` that change from frame to frame:
`fed` is the label history fed to the decoder network so far (its current
output is `decoder fed`), `greedyOutputMax` the columns `0 .. lmt - 1`
written into the 2000-column buffer. -/
structure GreedyState (α : Type) where
  fed : List Nat
  greedyOutputMax : List (List α)
  lmt : Nat
deriving DecidableEq

/-- One pass of the frame loop of `WriteOutput_greedy` (lines 222-263).
The arg-max is taken in the source before the log-softmax, which subtracts
the same number from every row and so leaves the arg-max where it is. -/
def greedyFrame (net : Network α D) (blankId : Nat) (st : GreedyState α) (t : Nat) :
    Option (GreedyState α) :=
  (VectorMax ((List.range net.vocabSize).map (net.joint t (net.decoder st.fed)))).bind
    fun maxId =>
  if maxId ≠ blankId then
    (oneHot net.vocabSize maxId).bind fun lmin =>
    if st.lmt < 2000 then
      some { fed := st.fed ++ [maxId]
             greedyOutputMax := st.greedyOutputMax ++ [lmin]
             lmt := st.lmt + 1 }
    else none
  else some st

/-- The frame loop of `WriteOutput_greedy` (line 220). -/
def greedyFrames (net : Network α D) (blankId : Nat) :
    List Nat → GreedyState α → Option (GreedyState α)
  | [], st => some st
  | t :: ts, st => (greedyFrame net blankId st t).bind (greedyFrames net blankId ts)

/-- `WriteOutput_greedy` for one utterance: what is handed to
`dataWriter.SaveData`, the matrix as its list of columns and the frame
count.  The decoder is first fed the blank (lines 206-216). -/
def WriteOutput_greedy (net : Network α D) : Option (List (List α) × Nat) :=
  let blankId := net.vocabSize - 1
  (oneHot net.vocabSize blankId : Option (List α)).bind fun blank =>
  (greedyFrames net blankId (List.range net.numFrames)
      { fed := [blankId], greedyOutputMax := [], lmt := 0 }).bind fun st =>
  if st.lmt = 0 then some ([blank], 1)
  else some (st.greedyOutputMax, st.lmt)

/-- The greedy decoder in the words of the specification, as the list of
arg-max ids of its successive joiner queries, one query for each entry of
the frame list: every query uses the decoder output for the blank followed
by the labels `emitted` so far, and an arg-max other than the blank is
emitted. -/
def argmaxTrace (net : Network α D) (blankId : Nat) : List Nat → List Nat → Option (List Nat)
  | [], _ => some []
  | t :: ts, emitted =>
    (VectorMax ((List.range net.vocabSize).map
        (net.joint t (net.decoder (blankId :: emitted))))).bind fun id =>
    (argmaxTrace net blankId ts (if id ≠ blankId then emitted ++ [id] else emitted)).map
      fun rest => id :: rest

/-- A hypothesis whose labels can be fed to the decoder and written out:
at least one label, every label a row of the vocabulary, and `length`
counting the labels. -/
def InRange (vocabSize : Nat) (s : Sequence α D) : Prop :=
  s.labelseq ≠ [] ∧ (∀ l ∈ s.labelseq, l < vocabSize) ∧ s.length = s.labelseq.length

/-- Every hypothesis of `CurSequences` and of `nextSequences` satisfies `P`. -/
def AllSeq (P : Sequence α D → Prop) (st : BeamState α D) : Prop :=
  (∀ s ∈ st.CurSequences, P s) ∧ (∀ s ∈ st.nextSequences, P s)

/-- A hypothesis in range whose cache, when it claims to be up to date
(`processlength` equal to the number of labels), holds the decoder output
for its labels; `processlength` never runs ahead of the labels. -/
def Coherent (net : Network α D) (s : Sequence α D) : Prop :=
  InRange net.vocabSize s ∧ s.processlength ≤ s.labelseq.length ∧
    (s.processlength = s.labelseq.length → s.decodeoutput = net.decoder s.labelseq)

/-- The first greatest pair of a list of (index, value) pairs. -/
def firstMax : List (Nat × α) → Option (Nat × α)
  | [] => none
  | x :: xs =>
    match firstMax xs with
    | none => some x
    | some m => if m.2 ≤ x.2 then some x else some m

/-- The hypothesis `s` after `forward_decode` has brought its cache up to
date. -/
def refresh (net : Network α D) (s : Sequence α D) : Sequence α D :=
  { s with decodeoutput := net.decoder s.labelseq, processlength := s.labelseq.length }

/-- Termination measure of the expansion loop when hypotheses of `L` or more
labels are not extended: every hypothesis of `CurSequences` counts one
more than the labels it may still gain. -/
def slack (L : Nat) (v : List (Sequence α D)) : Nat :=
  (v.map (fun s => L - s.labelseq.length + 1)).sum

/-- The state at the head of `while (true)` after `n` passes of its body
none of which left the loop; `none` when one of these passes was undefined
or left the loop. -/
def expandPasses (net : Network α D) (beamSize expandBeam blankId t : Nat) :
    Nat → BeamState α D → Option (BeamState α D)
  | 0, st => some st
  | n + 1, st =>
    match expandBody net beamSize expandBeam blankId t st with
    | some (st1, false) => expandPasses net beamSize expandBeam blankId t n st1
    | _ => none

/-- `nextSequences.clear()` (line 524). -/
def clear {σ : Type} (_v : List σ) : List σ := []

/-- The start of an utterance in `WriteOutput_beam` (lines 524-529) as a
function of what `nextSequences` held when the utterance begins: the vector
is cleared and the initial hypothesis is pushed. -/
def startUtterance (net : Network α D) (blankId : Nat)
    (nextSequences : List (Sequence α D)) : List (Sequence α D) :=
  clear nextSequences ++ [extendSeq (newSeq net) blankId 0]

/-- Shape of a hypothesis of the beam search: both counters equal the
number of labels, the first label is the blank and no later one is. -/
def Shaped (blankId : Nat) (s : Sequence α D) : Prop :=
  s.length = s.labelseq.length ∧ s.lengthwithblank = s.labelseq.length ∧
    1 ≤ s.labelseq.length ∧ s.labelseq.head? = some blankId ∧ blankId ∉ s.labelseq.tail

/-- Neither hypothesis has labels that are a prefix of the labels of the
other; in particular their labels differ. -/
def Unrelated (a b : Sequence α D) : Prop :=
  ¬ a.labelseq <+: b.labelseq ∧ ¬ b.labelseq <+: a.labelseq

/-- The loop of `isPrefix` (lines 401-405) over the indices `ns`: `false` at
the first `n` with `a.labelseq[n] != b.labelseq[n]`, `true` when the indices
are used up.  Both reads must be in range. -/
def isPrefixLoop (a b : Sequence α D) : List Nat → Option Bool
  | [] => some true
  | n :: ns =>
    (a.labelseq.get? n).bind fun x =>
    (b.labelseq.get? n).bind fun y =>
    if x ≠ y then some false else isPrefixLoop a b ns

/-- `isPrefix(a, b)` (lines 397-407): "check whether a is the prefix of b". -/
def isPrefix (a b : Sequence α D) : Option Bool :=
  if a.labelseq = b.labelseq ∨ a.labelseq.length ≥ b.labelseq.length then some false
  else isPrefixLoop a b (List.range a.labelseq.length)

/-- The loop of `comparekeyword` (lines 413-417) over the indices `ns`. -/
def comparekeywordLoop (a : Sequence α D) (keyword : List Nat) : List Nat → Option Bool
  | [] => some true
  | n :: ns =>
    (a.labelseq.get? n).bind fun x =>
    (keyword.get? n).bind fun y =>
    if x ≠ y then some false else comparekeywordLoop a keyword ns

/-- `comparekeyword(a, keyword)` (lines 409-419). -/
def comparekeyword (a : Sequence α D) (keyword : List Nat) : Option Bool :=
  if a.labelseq = keyword ∨ a.labelseq.length ≥ keyword.length then some false
  else comparekeywordLoop a keyword (List.range a.labelseq.length)

/-- An implementation of `std::nth_element` for the comparison object of
`getTopN`, `comp x y = y.second < x.second`: `arrange dp N` is the content
of the range after `nth_element(begin, begin + N, end, comp)`.  The C++
standard leaves the arrangement open; it is a rearrangement of the range
in which no entry at a position from `N` on is greater than an entry at a
position before `N`. -/
structure NthElement (α : Type) [LinearOrderedField α] where
  arrange : List (Nat × α) → Nat → List (Nat × α)
  perm : ∀ dp N, (arrange dp N).Perm dp
  top : ∀ dp N, ∀ c ∈ (arrange dp N).take N, ∀ d ∈ (arrange dp N).drop N, d.2 ≤ c.2

/-- The implementation that `nth_element` above models: the range is left
as it is for `begin + N == end` and put in descending order otherwise. -/
def sortedNth : NthElement α where
  arrange dp N := if N = dp.length then dp else dp.insertionSort (fun x y => y.2 ≤ x.2)
  perm dp N := by
    dsimp only
    split
    · exact List.Perm.refl _
    · exact List.perm_insertionSort _ _
  top dp N := by
    dsimp only
    split
    · rename_i hN
      intro c _ d hd
      rw [hN, List.drop_length] at hd
      simp at hd
    · haveI : IsTotal (Nat × α) (fun x y => y.2 ≤ x.2) := ⟨fun a b => le_total b.2 a.2⟩
      haveI : IsTrans (Nat × α) (fun x y => y.2 ≤ x.2) :=
        ⟨fun a b c hab hbc => le_trans hbc hab⟩
      have hs : (dp.insertionSort (fun x y => y.2 ≤ x.2)).Pairwise (fun x y => y.2 ≤ x.2) :=
        List.sorted_insertionSort _ dp
      rw [← List.take_append_drop N (dp.insertionSort (fun x y => y.2 ≤ x.2))] at hs
      exact (List.pairwise_append.mp hs).2.2

/-- `std::nth_element(begin, begin + N, end, comp)` as the implementation
`impl` carries it out; `begin + N` past `end` is undefined. -/
def nth_elementBy (impl : NthElement α) (datapair : List (Nat × α)) (N : Nat) :
    Option (List (Nat × α)) :=
  if datapair.length < N then none else some (impl.arrange datapair N)

/-- `getTopN(prob, N)` with the implementation `impl` of `nth_element`. -/
def getTopNBy (impl : NthElement α) (prob : List α) (N : Nat) : Option (List (Nat × α)) :=
  nth_elementBy impl prob.enum N

/-- The body of `while (true)` (lines 545-600) with the implementation
`impl` of `nth_element` inside `getTopN`. -/
def expandBodyBy (impl : NthElement α) (net : Network α D)
    (beamSize expandBeam blankId t : Nat) (st : BeamState α D) :
    Option (BeamState α D × Bool) :=
  (max_element st.CurSequences).bind fun i =>
  (st.CurSequences.get? i).bind fun maxSeq =>
  (forward_decode net (newSeqCopy maxSeq) net.vocabSize maxSeq.labelseq.length).bind fun fd =>
  (getTopNBy impl (forwardmerged net fd.1 t) expandBeam).bind fun topN =>
  let st1 : BeamState α D :=
    (topN.take expandBeam).foldl (expandCandidate net blankId fd.1)
      { CurSequences := st.CurSequences.eraseIdx i, nextSequences := st.nextSequences }
  (stopTest beamSize st1).map fun stop => (st1, stop)

/-- The loop `while (true)` of one frame with the implementation `impl` of
`nth_element`, run for at most `fuel` passes. -/
def expandLoopBy (impl : NthElement α) (net : Network α D)
    (beamSize expandBeam blankId t : Nat) : Nat → BeamState α D → Run (BeamState α D)
  | 0, _ => Run.timeout
  | fuel + 1, st =>
    match expandBodyBy impl net beamSize expandBeam blankId t st with
    | none => Run.ub
    | some (st1, true) => Run.done st1
    | some (st1, false) => expandLoopBy impl net beamSize expandBeam blankId t fuel st1

/-- One frame `t` of `WriteOutput_beam` (lines 534-612) with the
implementation `impl` of `nth_element`. -/
def beamFrameBy (impl : NthElement α) (net : Network α D)
    (beamSize expandBeam blankId fuel : Nat)
    (nextSequences : List (Sequence α D)) (t : Nat) : Run (List (Sequence α D)) :=
  match expandLoopBy impl net beamSize expandBeam blankId t fuel
      { CurSequences := nextSequences, nextSequences := [] } with
  | Run.done st => Run.done (prune st.nextSequences beamSize)
  | Run.ub => Run.ub
  | Run.timeout => Run.timeout

/-- The loop over the frames `t` (line 532) with the implementation `impl`
of `nth_element`. -/
def beamFramesBy (impl : NthElement α) (net : Network α D)
    (beamSize expandBeam blankId fuel : Nat) :
    List Nat → List (Sequence α D) → Run (List (Sequence α D))
  | [], nextSequences => Run.done nextSequences
  | t :: ts, nextSequences =>
    match beamFrameBy impl net beamSize expandBeam blankId fuel nextSequences t with
    | Run.done next1 => beamFramesBy impl net beamSize expandBeam blankId fuel ts next1
    | Run.ub => Run.ub
    | Run.timeout => Run.timeout

/-- `WriteOutput_beam` for one utterance with the implementation `impl` of
`nth_element`. -/
def WriteOutput_beamBy (impl : NthElement α) (net : Network α D)
    (beamSize expandBeam fuel : Nat) : Run (List (List α) × Nat) :=
  let blankId := net.vocabSize - 1
  match beamFramesBy impl net beamSize expandBeam blankId fuel (List.range net.numFrames)
      (beamInit net blankId) with
  | Run.done nextSequences =>
    let nbest := normalize nextSequences
    match (max_element nbest).bind (fun i => nbest.get? i) with
    | none => Run.ub
    | some yb =>
      match writeBest net.vocabSize blankId yb with
      | none => Run.ub
      | some out => Run.done out
  | Run.ub => Run.ub
  | Run.timeout => Run.timeout

/-- The candidates that a pass of the expansion loop processes for the
popped hypothesis `x` at frame `t`: the first `expandBeam` pairs of `getTopN`
on the scores computed from the decoder output for the labels of `x`. -/
def candidatesBy (impl : NthElement α) (net : Network α D) (expandBeam t : Nat)
    (x : Sequence α D) : List (Nat × α) :=
  (impl.arrange (forwardmerged net (refresh net x) t).enum expandBeam).take expandBeam

/-- The state after the candidate loop of a pass that popped position `i`
of `CurSequences`. -/
def passBy (impl : NthElement α) (net : Network α D) (expandBeam blankId t : Nat)
    (st : BeamState α D) (i : Nat) (x : Sequence α D) : BeamState α D :=
  (candidatesBy impl net expandBeam t x).foldl (expandCandidate net blankId (refresh net x))
    { CurSequences := st.CurSequences.eraseIdx i, nextSequences := st.nextSequences }

/-- The number of hypotheses of `v` whose labels begin with the labels `p`. -/
def extensionsOf (v : List (Sequence α D)) (p : List Nat) : Nat :=
  v.countP (fun y => decide (p <+: y.labelseq))

/-- No hypothesis of `v` has a score above that of `x`. -/
def dominates (v : List (Sequence α D)) (x : Sequence α D) : Bool :=
  v.all (fun y => decide (y.logP ≤ x.logP))

/-- Weight of a hypothesis in the termination measures of the expansion
loop: a bound on the number of hypotheses of fewer than `L` labels among it
and its extensions, plus one. -/
def shortWeight (expandBeam L : Nat) (x : Sequence α D) : Nat :=
  (expandBeam + 1) ^ (L - x.labelseq.length)

/-- Termination measure of the expansion loop while `nextSequences` holds
at most `beamSize` hypotheses. -/
def fillMeasure (expandBeam L : Nat) (st : BeamState α D) : Nat :=
  (st.CurSequences.map (fun x =>
    extensionsOf st.nextSequences x.labelseq + (shortWeight expandBeam L x - 1))).sum

/-- Termination measure of the expansion loop once `nextSequences` holds
more than `beamSize` hypotheses. -/
def leadMeasure (expandBeam L : Nat) (st : BeamState α D) : Nat :=
  (st.CurSequences.map (fun x =>
    if dominates st.nextSequences x then shortWeight expandBeam L x else 0)).sum

/-- The labels of `nextSequences` are pairwise distinct. -/
def NextDistinct (st : BeamState α D) : Prop :=
  (st.nextSequences.map (fun s => s.labelseq)).Nodup

end Algorithms

section Examples

/-- Modelled from the spec: `Matrix::LogAdd`, called at line 576 but absent
from the source file.  The spec gives the merged score as
`combined = log(exp(a) + exp(b))`. -/
noncomputable def LogAdd (a b : ℝ) : ℝ := Real.log (Real.exp a + Real.exp b)

/-- A network for concrete runs: the vocabulary is label `0` and the blank
`1`, the decoder output is the label history itself, every frame scores the
label `-2` and the blank `-1`.  Log-sum-exp does not stay inside the
rationals; `max` stands in for it. -/
def demoNet : Network ℚ (List Nat) :=
  { vocabSize := 2, numFrames := 2, decoder := fun h => h,
    joint := fun _ _ r => if r = 0 then -2 else -1,
    LogAdd := fun a b => max a b, fresh := [] }

/-- A network over the reals whose `LogAdd` is the log-sum-exp of the spec. -/
noncomputable def realNet : Network ℝ Unit :=
  { vocabSize := 2, numFrames := 1, decoder := fun _ => (),
    joint := fun _ _ r => if r = 0 then -2 else -1,
    LogAdd := LogAdd, fresh := () }

/-- Scenario A of the specification: three frames, a vocabulary of five
entries with the blank `4`, and the blank scored highest at every query. -/
def scenarioA : Network ℚ (List Nat) :=
  { vocabSize := 5, numFrames := 3, decoder := fun h => h,
    joint := fun _ _ r => if r = 4 then 0 else -100,
    LogAdd := fun a b => max a b, fresh := [] }

/-- Scenario B of the specification: two frames; frame 0 scores label `2`
highest, frame 1 scores the blank `4` highest. -/
def scenarioB : Network ℚ (List Nat) :=
  { vocabSize := 5, numFrames := 2, decoder := fun h => h,
    joint := fun t _ r =>
      if t = 0 then (if r = 2 then -1 else -5) else (if r = 4 then -1 else -5),
    LogAdd := fun a b => max a b, fresh := [] }

/-- A one-frame utterance over label `0` and blank `1` on which the joiner
prefers label `0` as long as fewer than two labels have been emitted and
the blank afterwards. -/
def twoLabelNet : Network ℚ (List Nat) :=
  { vocabSize := 2, numFrames := 1, decoder := fun h => h,
    joint := fun _ d r =>
      if d.length ≤ 2 then (if r = 0 then -1 else -2) else (if r = 0 then -2 else -1),
    LogAdd := fun a b => max a b, fresh := [] }

/-- A one-frame utterance over label `0` and blank `1` on which the joiner
scores label `0` above the blank whatever the label history. -/
def chattyNet : Network ℚ (List Nat) :=
  { vocabSize := 2, numFrames := 1, decoder := fun h => h,
    joint := fun _ _ r => if r = 0 then -1 else -2,
    LogAdd := fun a b => max a b, fresh := [] }

/-- A two-frame utterance over label `0` and blank `1` on which the joiner
prefers label `0` exactly when the label history (blank included) has
`t + 1` entries at frame `t`: one label is due in every frame. -/
def stepNet : Network ℚ (List Nat) :=
  { vocabSize := 2, numFrames := 2, decoder := fun h => h,
    joint := fun t d r =>
      if d.length = t + 1 then (if r = 0 then -1 else -2) else (if r = 0 then -2 else -1),
    LogAdd := fun a b => max a b, fresh := [] }

/-- An utterance of 2001 frames over label `0` and blank `1` on which the
joiner scores label `0` above the blank at every frame. -/
def longChattyNet : Network ℚ (List Nat) :=
  { vocabSize := 2, numFrames := 2001, decoder := fun h => h,
    joint := fun _ _ r => if r = 0 then -1 else -2,
    LogAdd := fun a b => max a b, fresh := [] }

/-- A one-frame utterance over label `0` and blank `1` whose joiner looks at
the number of entries of the label history (blank included): with two
entries the blank costs `-3`, with four entries it costs `-2` and the label
`-10`, otherwise the label costs `-1` and the blank `-10`. -/
def lengthNet : Network ℚ (List Nat) :=
  { vocabSize := 2, numFrames := 1, decoder := fun h => h,
    joint := fun _ d r =>
      if d.length = 2 then (if r = 0 then -1 else -3)
      else if d.length = 4 then (if r = 0 then -10 else -2)
      else (if r = 0 then -1 else -10),
    LogAdd := fun a b => max a b, fresh := [] }

end Examples

section PruneLemmas

variable {α D : Type} [LinearOrderedField α]

theorem popBackLoop_eq_take {σ : Type} (beamSize : Nat) :
    ∀ (n : Nat) (v : List σ), v.length = n →
      popBackLoop beamSize n v = v.take beamSize := by
  intro n
  induction n with
  | zero =>
    intro v hv
    have : v = [] := List.length_eq_zero.mp hv
    subst this
    simp [popBackLoop]
  | succ n ih =>
    intro v hv
    unfold popBackLoop
    split
    · rename_i h
      rw [ih v.dropLast (by simp [hv])]
      rw [List.dropLast_eq_take, List.take_take]
      congr 1
      omega
    · rename_i h
      rw [List.take_of_length_le (by omega)]

theorem prune_eq_take (v : List (Sequence α D)) (beamSize : Nat) :
    prune v beamSize = (sort v).reverse.take beamSize := by
  unfold prune
  exact popBackLoop_eq_take beamSize _ _ rfl

theorem sort_perm (v : List (Sequence α D)) : (sort v).Perm v :=
  List.perm_insertionSort _ v

theorem sort_sorted (v : List (Sequence α D)) :
    (sort v).Sorted (fun a b => a.logP ≤ b.logP) := by
  haveI : IsTotal (Sequence α D) (fun a b => a.logP ≤ b.logP) :=
    ⟨fun a b => le_total a.logP b.logP⟩
  haveI : IsTrans (Sequence α D) (fun a b => a.logP ≤ b.logP) :=
    ⟨fun a b c hab hbc => le_trans hab hbc⟩
  exact List.sorted_insertionSort _ v

theorem sort_reverse_sorted (v : List (Sequence α D)) :
    (sort v).reverse.Sorted (fun a b => b.logP ≤ a.logP) := by
  unfold List.Sorted
  rw [List.pairwise_reverse]
  exact sort_sorted v

theorem prune_append_released (v : List (Sequence α D)) (beamSize : Nat) :
    prune v beamSize ++ released v beamSize = (sort v).reverse := by
  rw [prune_eq_take]
  exact List.take_append_drop _ _

/-- C2: the prune step (sort, reverse, pop_back) keeps exactly
`min beamSize n` hypotheses, in non-increasing order of `logP`; kept and
released hypotheses together are a rearrangement of the input, and no
released hypothesis scores above a kept one. -/
theorem prune_keeps_best (nextSequences : List (Sequence α D)) (beamSize : Nat) :
    (prune nextSequences beamSize).length = min beamSize nextSequences.length ∧
    (prune nextSequences beamSize).Sorted (fun a b => b.logP ≤ a.logP) ∧
    (prune nextSequences beamSize ++ released nextSequences beamSize).Perm nextSequences ∧
    ∀ k ∈ prune nextSequences beamSize, ∀ d ∈ released nextSequences beamSize,
      d.logP ≤ k.logP := by
  have hs := sort_reverse_sorted nextSequences
  have hsplit := prune_append_released nextSequences beamSize
  refine ⟨?_, ?_, ?_, ?_⟩
  · rw [prune_eq_take, List.length_take, List.length_reverse, (sort_perm nextSequences).length_eq]
  · rw [prune_eq_take]
    exact List.Pairwise.sublist (List.take_sublist _ _) hs
  · rw [hsplit]
    exact (List.reverse_perm _).trans (sort_perm nextSequences)
  · intro k hk d hd
    have hp : ((prune nextSequences beamSize) ++ released nextSequences beamSize).Pairwise
        (fun a b => b.logP ≤ a.logP) := by
      rw [hsplit]
      exact hs
    exact (List.pairwise_append.mp hp).2.2 k hk d hd

/-- C2, the scenario of the specification: `[1,2]` with score -0.1 and
`[2,1]` with score -0.3; `beamSize = 2` keeps both, best first, and
`beamSize = 1` keeps only `[1,2]`, whichever order they arrive in. -/
theorem prune_scenario :
    prune [(⟨[1, 2], -1/10, 2, 0, 2, ()⟩ : Sequence ℚ Unit), ⟨[2, 1], -3/10, 2, 0, 2, ()⟩] 2
      = [⟨[1, 2], -1/10, 2, 0, 2, ()⟩, ⟨[2, 1], -3/10, 2, 0, 2, ()⟩] ∧
    prune [(⟨[2, 1], -3/10, 2, 0, 2, ()⟩ : Sequence ℚ Unit), ⟨[1, 2], -1/10, 2, 0, 2, ()⟩] 2
      = [⟨[1, 2], -1/10, 2, 0, 2, ()⟩, ⟨[2, 1], -3/10, 2, 0, 2, ()⟩] ∧
    prune [(⟨[1, 2], -1/10, 2, 0, 2, ()⟩ : Sequence ℚ Unit), ⟨[2, 1], -3/10, 2, 0, 2, ()⟩] 1
      = [⟨[1, 2], -1/10, 2, 0, 2, ()⟩] ∧
    prune [(⟨[2, 1], -3/10, 2, 0, 2, ()⟩ : Sequence ℚ Unit), ⟨[1, 2], -1/10, 2, 0, 2, ()⟩] 1
      = [⟨[1, 2], -1/10, 2, 0, 2, ()⟩] := by
  decide!

end PruneLemmas

section MergeInvariant

variable {α D : Type} [LinearOrderedField α]

theorem mergeBlank_labels (LogAdd : α → α → α) (seqK : Sequence α D) :
    ∀ (v merged : List (Sequence α D)), mergeBlank LogAdd seqK v = some merged →
      merged.map (fun s => s.labelseq) = v.map (fun s => s.labelseq) := by
  intro v
  induction v with
  | nil => intro merged h; simp [mergeBlank] at h
  | cons x xs ih =>
    intro merged h
    unfold mergeBlank at h
    split at h
    · injection h with h
      subst h
      simp
    · cases hr : mergeBlank LogAdd seqK xs with
      | none => simp [hr] at h
      | some r =>
        simp [hr] at h
        subst h
        simp [ih r hr]

theorem mergeBlank_none (LogAdd : α → α → α) (seqK : Sequence α D) :
    ∀ (v : List (Sequence α D)), mergeBlank LogAdd seqK v = none →
      seqK.labelseq ∉ v.map (fun s => s.labelseq) := by
  intro v
  induction v with
  | nil => intro _; simp
  | cons x xs ih =>
    intro h
    unfold mergeBlank at h
    split at h
    · simp at h
    · rename_i hne
      cases hr : mergeBlank LogAdd seqK xs with
      | none =>
        have := ih hr
        simp only [List.map_cons, List.mem_cons, not_or]
        exact ⟨hne, this⟩
      | some r => simp [hr] at h

theorem expandCandidate_distinct (net : Network α D) (blankId : Nat)
    (tempSeq : Sequence α D) (st : BeamState α D) (c : Nat × α)
    (h : NextDistinct st) : NextDistinct (expandCandidate net blankId tempSeq st c) := by
  unfold expandCandidate
  simp only
  split
  · split
    · rename_i merged hm
      unfold NextDistinct
      simp only
      rw [mergeBlank_labels _ _ _ _ hm]
      exact h
    · rename_i hm
      have hnot := mergeBlank_none _ _ _ hm
      unfold NextDistinct
      simp only [List.map_append, List.map_cons, List.map_nil]
      refine List.Nodup.append h (List.nodup_singleton _) ?_
      intro l hl hl2
      simp only [List.mem_singleton] at hl2
      subst hl2
      exact hnot hl
  · exact h

theorem foldl_expandCandidate_distinct (net : Network α D) (blankId : Nat)
    (tempSeq : Sequence α D) :
    ∀ (cs : List (Nat × α)) (st : BeamState α D), NextDistinct st →
      NextDistinct (cs.foldl (expandCandidate net blankId tempSeq) st) := by
  intro cs
  induction cs with
  | nil => intro st h; exact h
  | cons c cs ih =>
    intro st h
    exact ih _ (expandCandidate_distinct net blankId tempSeq st c h)

theorem expandBody_distinct (net : Network α D) (beamSize expandBeam blankId t : Nat)
    (st st1 : BeamState α D) (stop : Bool) (h : NextDistinct st)
    (hb : expandBody net beamSize expandBeam blankId t st = some (st1, stop)) :
    NextDistinct st1 := by
  unfold expandBody at hb
  simp only [Option.bind_eq_some, Option.map_eq_some'] at hb
  obtain ⟨i, _, maxSeq, _, fd, _, topN, _, b, _, hst⟩ := hb
  injection hst with hst _
  subst hst
  exact foldl_expandCandidate_distinct net blankId fd.1 _ _ h

theorem expandLoop_distinct (net : Network α D) (beamSize expandBeam blankId t : Nat) :
    ∀ (fuel : Nat) (st st1 : BeamState α D), NextDistinct st →
      expandLoop net beamSize expandBeam blankId t fuel st = Run.done st1 →
      NextDistinct st1 := by
  intro fuel
  induction fuel with
  | zero => intro st st1 _ h; simp [expandLoop] at h
  | succ n ih =>
    intro st st1 hd h
    unfold expandLoop at h
    split at h
    · simp at h
    · rename_i s hb
      injection h with h
      subst h
      exact expandBody_distinct net beamSize expandBeam blankId t st _ true hd hb
    · rename_i s hb
      exact ih _ _ (expandBody_distinct net beamSize expandBeam blankId t st _ false hd hb) h

theorem prune_distinct (v : List (Sequence α D)) (beamSize : Nat)
    (h : (v.map (fun s => s.labelseq)).Nodup) :
    ((prune v beamSize).map (fun s => s.labelseq)).Nodup := by
  rw [prune_eq_take]
  have hp : ((sort v).reverse.map (fun s => s.labelseq)).Perm (v.map (fun s => s.labelseq)) :=
    ((List.reverse_perm _).trans (sort_perm v)).map _
  have hn := hp.nodup_iff.mpr h
  exact List.Nodup.sublist ((List.take_sublist _ _).map _) hn

/-- C1: whatever the network, `beamSize`, `expandBeam`, the frame and the
hypotheses carried into it, when the expansion loop and the pruning of the
frame have completed no two hypotheses of `nextSequences` have the same
`labelseq`. -/
theorem beamFrame_labels_distinct (net : Network α D)
    (beamSize expandBeam blankId fuel : Nat) (carried : List (Sequence α D)) (t : Nat)
    (nextSequences : List (Sequence α D))
    (h : beamFrame net beamSize expandBeam blankId fuel carried t = Run.done nextSequences) :
    (nextSequences.map (fun s => s.labelseq)).Nodup := by
  unfold beamFrame at h
  split at h
  · rename_i st hl
    injection h with h
    subst h
    apply prune_distinct
    have h0 : NextDistinct ({ CurSequences := carried, nextSequences := [] } : BeamState α D) := by
      simp [NextDistinct]
    exact expandLoop_distinct net beamSize expandBeam blankId t fuel _ st h0 hl
  · simp at h
  · simp at h

/-- C1, a concrete frame: the hypotheses `[1]` and `[1,0]` enter frame 1 of
`demoNet`; the blank candidate of the extension of `[1]` meets `[1,0]` in
`nextSequences` and is merged into it. -/
theorem beamFrame_labels_distinct_witness :
    beamFrame demoNet 2 2 1 10
        [⟨[1], 0, 1, 0, 1, []⟩, ⟨[1, 0], -1, 2, 0, 2, []⟩] 1
      = Run.done [⟨[1], -1, 1, 1, 1, [1]⟩, ⟨[1, 0], -2, 2, 2, 2, [1, 0]⟩] ∧
    (([⟨[1], -1, 1, 1, 1, [1]⟩, ⟨[1, 0], -2, 2, 2, 2, [1, 0]⟩] :
        List (Sequence ℚ (List Nat))).map (fun s => s.labelseq)).Nodup :=
  ⟨by decide!,
   beamFrame_labels_distinct demoNet 2 2 1 10
     [⟨[1], 0, 1, 0, 1, []⟩, ⟨[1, 0], -1, 2, 0, 2, []⟩] 1 _ (by decide!)⟩

theorem mergeBlank_first_match (LogAdd : α → α → α) (seqK itseq : Sequence α D)
    (post : List (Sequence α D)) (hit : seqK.labelseq = itseq.labelseq) :
    ∀ (pre : List (Sequence α D)), (∀ s ∈ pre, seqK.labelseq ≠ s.labelseq) →
      mergeBlank LogAdd seqK (pre ++ itseq :: post)
        = some (pre ++ { itseq with logP := LogAdd seqK.logP itseq.logP } :: post) := by
  intro pre
  induction pre with
  | nil => intro _; simp [mergeBlank, hit]
  | cons x xs ih =>
    intro hpre
    have hx : seqK.labelseq ≠ x.labelseq := hpre x (List.mem_cons_self _ _)
    have hxs : ∀ s ∈ xs, seqK.labelseq ≠ s.labelseq :=
      fun s hs => hpre s (List.mem_cons_of_mem _ hs)
    simp [mergeBlank, hx, ih hxs]

theorem exp_LogAdd (a b : ℝ) : Real.exp (LogAdd a b) = Real.exp a + Real.exp b := by
  unfold LogAdd
  exact Real.exp_log (add_pos (Real.exp_pos a) (Real.exp_pos b))

/-- C4: a blank candidate of new score `a = c.2 + tempSeq.logP` whose labels
are those of the hypothesis `itseq` of `nextSequences` (the first with these
labels) replaces the score `b` of `itseq` by a `combined` with
`exp combined = exp a + exp b`; nothing is inserted, all other hypotheses of
`nextSequences` and all of `CurSequences` stay as they are. -/
theorem blank_merge_logsumexp {D : Type} (net : Network ℝ D) (hL : net.LogAdd = LogAdd)
    (blankId : Nat) (tempSeq : Sequence ℝ D) (st : BeamState ℝ D) (c : Nat × ℝ)
    (pre post : List (Sequence ℝ D)) (itseq : Sequence ℝ D)
    (hc : c.1 = blankId)
    (hnext : st.nextSequences = pre ++ itseq :: post)
    (hpre : ∀ s ∈ pre, tempSeq.labelseq ≠ s.labelseq)
    (hit : tempSeq.labelseq = itseq.labelseq) :
    ∃ combined : ℝ,
      Real.exp combined = Real.exp (c.2 + tempSeq.logP) + Real.exp itseq.logP ∧
      expandCandidate net blankId tempSeq st c =
        { CurSequences := st.CurSequences
          nextSequences := pre ++ { itseq with logP := combined } :: post } := by
  refine ⟨LogAdd (c.2 + tempSeq.logP) itseq.logP, exp_LogAdd _ _, ?_⟩
  unfold expandCandidate
  simp only [hc, if_true]
  rw [hnext, hL]
  rw [mergeBlank_first_match LogAdd _ itseq post (by simpa [newSeqCopy] using hit) pre
    (by simpa [newSeqCopy] using hpre)]

/-- C4 at a concrete state: the candidate has the labels `[1, 0]` of the
second hypothesis of `nextSequences`. -/
theorem blank_merge_logsumexp_witness :
    ∃ combined : ℝ,
      Real.exp combined = Real.exp ((-1 : ℝ) + (-3)) + Real.exp (-2) ∧
      expandCandidate realNet 1 ⟨[1, 0], -3, 2, 2, 2, ()⟩
          { CurSequences := [], nextSequences := [⟨[1], -1, 1, 1, 1, ()⟩, ⟨[1, 0], -2, 2, 2, 2, ()⟩] }
          (1, -1) =
        { CurSequences := []
          nextSequences := [⟨[1], -1, 1, 1, 1, ()⟩, ⟨[1, 0], combined, 2, 2, 2, ()⟩] } :=
  blank_merge_logsumexp realNet rfl 1 ⟨[1, 0], -3, 2, 2, 2, ()⟩
    { CurSequences := [], nextSequences := [⟨[1], -1, 1, 1, 1, ()⟩, ⟨[1, 0], -2, 2, 2, 2, ()⟩] }
    (1, -1) [⟨[1], -1, 1, 1, 1, ()⟩] [] ⟨[1, 0], -2, 2, 2, 2, ()⟩ rfl rfl
    (by simp) rfl

/-- C5: when a call of `forward_decode` with prefix length `plength` has
returned the hypothesis `s1`, a second call with the same `plength` returns
`s1` unchanged and evaluates the decoder network zero times. -/
theorem forward_decode_idempotent (net : Network α D) (oneSeq s1 : Sequence α D)
    (vocabSize plength k : Nat)
    (h : forward_decode net oneSeq vocabSize plength = some (s1, k)) :
    forward_decode net s1 vocabSize plength = some (s1, 0) := by
  have hp : plength = s1.processlength := by
    unfold forward_decode at h
    split at h
    · split at h
      · simp at h
      · injection h with h
        injection h with h _
        subst h
        rfl
    · rename_i hne
      injection h with h
      injection h with h _
      subst h
      simpa using hne
  unfold forward_decode
  simp [hp]

/-- C5 on a hypothesis whose cache is stale: the first call evaluates the
decoder once, the second not at all. -/
theorem forward_decode_idempotent_witness :
    forward_decode demoNet ⟨[1, 0], -2, 2, 1, 2, [1]⟩ 2 2
      = some (⟨[1, 0], -2, 2, 2, 2, [1, 0]⟩, 1) ∧
    forward_decode demoNet ⟨[1, 0], -2, 2, 2, 2, [1, 0]⟩ 2 2
      = some (⟨[1, 0], -2, 2, 2, 2, [1, 0]⟩, 0) :=
  ⟨by decide!,
   forward_decode_idempotent demoNet ⟨[1, 0], -2, 2, 1, 2, [1]⟩ _ 2 2 1 (by decide!)⟩

end MergeInvariant

section BeamBasics
variable {α D : Type} [LinearOrderedField α]

theorem max_elementLoop_lt (xs : List (Sequence α D)) :
    ∀ (largest : Nat) (lp : α) (i : Nat), largest < i →
      max_elementLoop largest lp i xs < i + xs.length := by
  induction xs with
  | nil => intro largest lp i h; simpa [max_elementLoop] using h
  | cons x xs ih =>
    intro largest lp i h
    unfold max_elementLoop
    split
    · have := ih i x.logP (i + 1) (by omega)
      simp only [List.length_cons]; omega
    · have := ih largest lp (i + 1) (by omega)
      simp only [List.length_cons]; omega

theorem max_element_lt (v : List (Sequence α D)) (i : Nat) (h : max_element v = some i) :
    i < v.length := by
  cases v with
  | nil => simp [max_element] at h
  | cons x xs =>
    simp only [max_element, Option.some.injEq] at h
    subst h
    have := max_elementLoop_lt xs 0 x.logP 1 (by omega)
    simp only [List.length_cons]; omega

theorem max_element_isSome (v : List (Sequence α D)) (h : v ≠ []) :
    ∃ i, max_element v = some i ∧ i < v.length := by
  cases v with
  | nil => exact absurd rfl h
  | cons x xs => exact ⟨_, rfl, max_element_lt _ _ rfl⟩

theorem maxLogP_isSome (v : List (Sequence α D)) (h : v ≠ []) : ∃ a, maxLogP v = some a := by
  obtain ⟨i, hi, hlt⟩ := max_element_isSome v h
  refine ⟨(v.get ⟨i, hlt⟩).logP, ?_⟩
  simp only [maxLogP, hi, Option.some_bind, List.get?_eq_get hlt, Option.map_some']

theorem nth_element_perm (dp r : List (Nat × α)) (N : Nat) (h : nth_element dp N = some r) :
    r.Perm dp ∧ N ≤ dp.length := by
  unfold nth_element at h
  split at h
  · simp at h
  · split at h
    · injection h with h
      subst h
      exact ⟨List.Perm.refl _, by omega⟩
    · injection h with h
      subst h
      exact ⟨List.perm_insertionSort _ _, by omega⟩

theorem getTopN_spec (prob : List α) (N : Nat) (topN : List (Nat × α))
    (h : getTopN prob N = some topN) :
    N ≤ prob.length ∧ topN.length = prob.length ∧ ∀ c ∈ topN, c.1 < prob.length := by
  unfold getTopN at h
  obtain ⟨hp, hN⟩ := nth_element_perm _ _ _ h
  have hl : prob.enum.length = prob.length := List.enum_length
  refine ⟨by omega, by rw [hp.length_eq, hl], ?_⟩
  intro c hc
  exact List.fst_lt_of_mem_enum (hp.mem_iff.mp hc)

theorem getTopN_isSome (prob : List α) (N : Nat) (h : N ≤ prob.length) :
    ∃ topN, getTopN prob N = some topN := by
  unfold getTopN nth_element
  have hl : prob.enum.length = prob.length := List.enum_length
  rw [hl]
  split
  · omega
  · split
    · exact ⟨_, rfl⟩
    · exact ⟨_, rfl⟩

theorem forward_decode_spec (net : Network α D) (s : Sequence α D) (V : Nat)
    (h : InRange V s) :
    ∃ fd, forward_decode net (newSeqCopy s) V s.labelseq.length = some fd ∧
      fd.1.labelseq = s.labelseq ∧ fd.1.logP = s.logP ∧ fd.1.length = s.length ∧
      fd.1.lengthwithblank = s.lengthwithblank ∧
      (s.processlength ≠ s.labelseq.length → fd.1.decodeoutput = net.decoder s.labelseq) ∧
      (s.processlength = s.labelseq.length → fd.1.decodeoutput = s.decodeoutput) := by
  obtain ⟨hne, hlab, _⟩ := h
  have hpos : s.labelseq.length ≠ 0 := by
    intro h0; exact hne (List.length_eq_zero.mp h0)
  by_cases hp : s.labelseq.length = s.processlength
  · refine ⟨(newSeqCopy s, 0), ?_, rfl, rfl, rfl, rfl, ?_, ?_⟩
    · simp [forward_decode, newSeqCopy, hp]
    · intro h; exact absurd hp.symm h
    · intro _; rfl
  · have key : forward_decode net (newSeqCopy s) V s.labelseq.length
        = some ({ newSeqCopy s with
                    decodeoutput := net.decoder s.labelseq
                    processlength := s.labelseq.length }, 1) := by
      have hcond : ¬ (s.labelseq.length = 0 ∨ (newSeqCopy s).labelseq.length < s.labelseq.length
          ∨ ¬ (∀ l ∈ (newSeqCopy s).labelseq.take s.labelseq.length, l < V)) := by
        simp only [newSeqCopy, List.take_length, not_or, not_not, lt_irrefl, not_false_eq_true,
          true_and]
        exact ⟨hpos, hlab⟩
      have hp2 : s.labelseq.length ≠ (newSeqCopy s).processlength := hp
      unfold forward_decode
      rw [if_pos hp2, if_neg hcond]
      simp [newSeqCopy]
    refine ⟨_, key, rfl, rfl, rfl, rfl, ?_, ?_⟩
    · intro _; rfl
    · intro h; exact absurd h.symm hp

theorem forward_decode_fields (net : Network α D) (s : Sequence α D) (V p : Nat)
    (fd : Sequence α D × Nat) (h : forward_decode net s V p = some fd) :
    fd.1.labelseq = s.labelseq ∧ fd.1.logP = s.logP ∧ fd.1.length = s.length ∧
      fd.1.lengthwithblank = s.lengthwithblank := by
  unfold forward_decode at h
  split at h
  · split at h
    · simp at h
    · injection h with h
      subst h
      exact ⟨rfl, rfl, rfl, rfl⟩
  · injection h with h
    subst h
    exact ⟨rfl, rfl, rfl, rfl⟩

theorem mergeBlank_mem (LogAdd : α → α → α) (seqK : Sequence α D) :
    ∀ (v merged : List (Sequence α D)), mergeBlank LogAdd seqK v = some merged →
      ∀ s ∈ merged, s ∈ v ∨ ∃ s0 ∈ v, ∃ x, s = { s0 with logP := x } := by
  intro v
  induction v with
  | nil => intro merged h; simp [mergeBlank] at h
  | cons x xs ih =>
    intro merged h s hs
    unfold mergeBlank at h
    split at h
    · injection h with h
      subst h
      rcases List.mem_cons.mp hs with h1 | h1
      · exact Or.inr ⟨x, List.mem_cons_self _ _, _, h1⟩
      · exact Or.inl (List.mem_cons_of_mem _ h1)
    · cases hr : mergeBlank LogAdd seqK xs with
      | none => simp [hr] at h
      | some r =>
        simp only [hr, Option.map_some', Option.some.injEq] at h
        subst h
        rcases List.mem_cons.mp hs with h1 | h1
        · exact Or.inl (by rw [h1]; exact List.mem_cons_self _ _)
        · rcases ih r hr s h1 with h2 | ⟨s0, hs0, y, h2⟩
          · exact Or.inl (List.mem_cons_of_mem _ h2)
          · exact Or.inr ⟨s0, List.mem_cons_of_mem _ hs0, y, h2⟩

theorem expandCandidate_preserves (net : Network α D) (P : Sequence α D → Prop)
    (hlogP : ∀ s x, P s → P { s with logP := x })
    (hext : ∀ s id x, P s → s.processlength = s.labelseq.length → id < net.vocabSize →
      P (extendSeq s id x))
    (blankId : Nat) (tempSeq : Sequence α D) (st : BeamState α D) (c : Nat × α)
    (ht : P tempSeq) (hpl : tempSeq.processlength = tempSeq.labelseq.length)
    (hc : c.1 < net.vocabSize) (h : AllSeq P st) :
    AllSeq P (expandCandidate net blankId tempSeq st c) := by
  obtain ⟨hcur, hnext⟩ := h
  have hK : P { newSeqCopy tempSeq with logP := c.2 + tempSeq.logP } :=
    hlogP tempSeq _ ht
  unfold expandCandidate
  simp only
  split
  · split
    · rename_i merged hm
      refine ⟨hcur, ?_⟩
      intro s hs
      rcases mergeBlank_mem _ _ _ _ hm s hs with h1 | ⟨s0, hs0, x, h1⟩
      · exact hnext s h1
      · rw [h1]
        exact hlogP s0 x (hnext s0 hs0)
    · refine ⟨hcur, ?_⟩
      intro s hs
      rcases List.mem_append.mp hs with h1 | h1
      · exact hnext s h1
      · simp only [List.mem_singleton] at h1
        rw [h1]
        exact hK
  · refine ⟨?_, hnext⟩
    intro s hs
    rcases List.mem_append.mp hs with h1 | h1
    · exact hcur s h1
    · simp only [List.mem_singleton] at h1
      rw [h1]
      exact hext _ c.1 _ hK hpl hc

theorem foldl_expandCandidate_preserves (net : Network α D) (P : Sequence α D → Prop)
    (hlogP : ∀ s x, P s → P { s with logP := x })
    (hext : ∀ s id x, P s → s.processlength = s.labelseq.length → id < net.vocabSize →
      P (extendSeq s id x))
    (blankId : Nat) (tempSeq : Sequence α D) (ht : P tempSeq)
    (hpl : tempSeq.processlength = tempSeq.labelseq.length) :
    ∀ (cs : List (Nat × α)) (st : BeamState α D), (∀ c ∈ cs, c.1 < net.vocabSize) →
      AllSeq P st → AllSeq P (cs.foldl (expandCandidate net blankId tempSeq) st) := by
  intro cs
  induction cs with
  | nil => intro st _ h; exact h
  | cons c cs ih =>
    intro st hc h
    exact ih _ (fun c1 h1 => hc c1 (List.mem_cons_of_mem _ h1))
      (expandCandidate_preserves net P hlogP hext blankId tempSeq st c ht hpl
        (hc c (List.mem_cons_self _ _)) h)

theorem forwardmerged_length (net : Network α D) (a : Sequence α D) (t : Nat) :
    (forwardmerged net a t).length = net.vocabSize := by
  simp [forwardmerged]

theorem forward_decode_processlength (net : Network α D) (s : Sequence α D) (V p : Nat)
    (fd : Sequence α D × Nat) (h : forward_decode net s V p = some fd) :
    fd.1.processlength = p := by
  unfold forward_decode at h
  split at h
  · split at h
    · simp at h
    · injection h with h
      subst h
      rfl
  · rename_i hne
    injection h with h
    subst h
    simp only [ne_eq, not_not] at hne
    exact hne.symm

theorem expandBody_preserves (net : Network α D) (P : Sequence α D → Prop)
    (hlogP : ∀ s x, P s → P { s with logP := x })
    (hfd : ∀ s fd, P s →
      forward_decode net (newSeqCopy s) net.vocabSize s.labelseq.length = some fd → P fd.1)
    (hext : ∀ s id x, P s → s.processlength = s.labelseq.length → id < net.vocabSize →
      P (extendSeq s id x))
    (beamSize expandBeam blankId t : Nat)
    (st st1 : BeamState α D) (stop : Bool) (h : AllSeq P st)
    (hb : expandBody net beamSize expandBeam blankId t st = some (st1, stop)) :
    AllSeq P st1 := by
  unfold expandBody at hb
  simp only [Option.bind_eq_some, Option.map_eq_some'] at hb
  obtain ⟨i, _, maxSeq, hget, fd, hfd1, topN, htop, b, _, hst⟩ := hb
  injection hst with hst _
  subst hst
  have hmem : maxSeq ∈ st.CurSequences := List.get?_mem hget
  obtain ⟨f1, _, _, _⟩ := forward_decode_fields net _ _ _ fd hfd1
  have hpl : fd.1.processlength = fd.1.labelseq.length := by
    rw [forward_decode_processlength net _ _ _ fd hfd1, f1]
    rfl
  obtain ⟨_, _, hids⟩ := getTopN_spec _ _ _ htop
  rw [forwardmerged_length] at hids
  apply foldl_expandCandidate_preserves net P hlogP hext blankId fd.1
    (hfd maxSeq fd (h.1 maxSeq hmem) hfd1) hpl
  · intro c hc
    exact hids c (List.mem_of_mem_take hc)
  · exact ⟨fun s hs => h.1 s ((List.eraseIdx_sublist _ _).subset hs), h.2⟩

theorem expandLoop_preserves (net : Network α D) (P : Sequence α D → Prop)
    (hlogP : ∀ s x, P s → P { s with logP := x })
    (hfd : ∀ s fd, P s →
      forward_decode net (newSeqCopy s) net.vocabSize s.labelseq.length = some fd → P fd.1)
    (hext : ∀ s id x, P s → s.processlength = s.labelseq.length → id < net.vocabSize →
      P (extendSeq s id x))
    (beamSize expandBeam blankId t : Nat) :
    ∀ (fuel : Nat) (st st1 : BeamState α D), AllSeq P st →
      expandLoop net beamSize expandBeam blankId t fuel st = Run.done st1 →
      AllSeq P st1 := by
  intro fuel
  induction fuel with
  | zero => intro st st1 _ h; simp [expandLoop] at h
  | succ n ih =>
    intro st st1 hd h
    unfold expandLoop at h
    split at h
    · simp at h
    · rename_i s hb
      injection h with h
      subst h
      exact expandBody_preserves net P hlogP hfd hext beamSize expandBeam blankId t st _ true hd hb
    · rename_i s hb
      exact ih _ _
        (expandBody_preserves net P hlogP hfd hext beamSize expandBeam blankId t st _ false hd hb) h

theorem mem_prune (v : List (Sequence α D)) (beamSize : Nat) (s : Sequence α D)
    (h : s ∈ prune v beamSize) : s ∈ v := by
  rw [prune_eq_take] at h
  have h1 := List.mem_of_mem_take h
  exact (sort_perm v).mem_iff.mp (List.mem_reverse.mp h1)

theorem beamFrame_preserves (net : Network α D) (P : Sequence α D → Prop)
    (hlogP : ∀ s x, P s → P { s with logP := x })
    (hfd : ∀ s fd, P s →
      forward_decode net (newSeqCopy s) net.vocabSize s.labelseq.length = some fd → P fd.1)
    (hext : ∀ s id x, P s → s.processlength = s.labelseq.length → id < net.vocabSize →
      P (extendSeq s id x))
    (beamSize expandBeam blankId fuel : Nat)
    (carried next1 : List (Sequence α D)) (t : Nat)
    (hc : ∀ s ∈ carried, P s)
    (h : beamFrame net beamSize expandBeam blankId fuel carried t = Run.done next1) :
    ∀ s ∈ next1, P s := by
  unfold beamFrame at h
  split at h
  · rename_i st hl
    injection h with h
    subst h
    have h0 : AllSeq P ({ CurSequences := carried, nextSequences := [] } : BeamState α D) :=
      ⟨hc, by simp⟩
    have h1 := expandLoop_preserves net P hlogP hfd hext beamSize expandBeam blankId t fuel _ st h0 hl
    intro s hs
    exact h1.2 s (mem_prune _ _ s hs)
  · simp at h
  · simp at h

theorem beamFrames_preserves (net : Network α D) (P : Sequence α D → Prop)
    (hlogP : ∀ s x, P s → P { s with logP := x })
    (hfd : ∀ s fd, P s →
      forward_decode net (newSeqCopy s) net.vocabSize s.labelseq.length = some fd → P fd.1)
    (hext : ∀ s id x, P s → s.processlength = s.labelseq.length → id < net.vocabSize →
      P (extendSeq s id x))
    (beamSize expandBeam blankId fuel : Nat) :
    ∀ (ts : List Nat) (carried final : List (Sequence α D)),
      (∀ s ∈ carried, P s) →
      beamFrames net beamSize expandBeam blankId fuel ts carried = Run.done final →
      ∀ s ∈ final, P s := by
  intro ts
  induction ts with
  | nil =>
    intro carried final hc h
    simp only [beamFrames, Run.done.injEq] at h
    subst h
    exact hc
  | cons t ts ih =>
    intro carried final hc h
    unfold beamFrames at h
    split at h
    · rename_i next1 hf
      exact ih next1 final
        (beamFrame_preserves net P hlogP hfd hext beamSize expandBeam blankId fuel _ _ t hc hf) h
    · simp at h
    · simp at h

theorem InRange_congr (V : Nat) (s s0 : Sequence α D) (h1 : s.labelseq = s0.labelseq)
    (h2 : s.length = s0.length) (h : InRange V s0) : InRange V s := by
  unfold InRange at *
  rw [h1, h2]
  exact h

theorem InRange_logP (V : Nat) (s : Sequence α D) (x : α) (h : InRange V s) :
    InRange V { s with logP := x } :=
  InRange_congr V _ s rfl rfl h

theorem InRange_forward_decode (net : Network α D) (V : Nat) (s : Sequence α D)
    (fd : Sequence α D × Nat) (h : InRange V s)
    (hfd : forward_decode net (newSeqCopy s) net.vocabSize s.labelseq.length = some fd) :
    InRange V fd.1 := by
  obtain ⟨f1, _, f3, _⟩ := forward_decode_fields net _ _ _ fd hfd
  exact InRange_congr V _ s f1 f3 h

theorem InRange_extendSeq (V : Nat) (s : Sequence α D) (id : Nat) (x : α)
    (h : InRange V s) (hid : id < V) : InRange V (extendSeq s id x) := by
  obtain ⟨_, h2, h3⟩ := h
  refine ⟨by simp [extendSeq], ?_, by simp [extendSeq, h3]⟩
  intro l hl
  simp only [extendSeq, List.mem_append, List.mem_singleton] at hl
  rcases hl with hl | hl
  · exact h2 l hl
  · rw [hl]; exact hid

theorem beamFrames_inRange (net : Network α D) (beamSize expandBeam blankId fuel : Nat)
    (ts : List Nat) (carried final : List (Sequence α D))
    (hc : ∀ s ∈ carried, InRange net.vocabSize s)
    (h : beamFrames net beamSize expandBeam blankId fuel ts carried = Run.done final) :
    ∀ s ∈ final, InRange net.vocabSize s :=
  beamFrames_preserves net (InRange net.vocabSize)
    (fun s x hs => InRange_logP _ s x hs)
    (fun s fd hs hfd => InRange_forward_decode net _ s fd hs hfd)
    (fun s id x hs _ hid => InRange_extendSeq _ s id x hs hid)
    beamSize expandBeam blankId fuel ts carried final hc h

theorem beamInit_inRange (net : Network α D) (h0 : 0 < net.vocabSize) :
    ∀ s ∈ beamInit net (net.vocabSize - 1), InRange net.vocabSize s := by
  intro s hs
  simp only [beamInit, List.mem_singleton] at hs
  subst hs
  refine ⟨by simp [extendSeq, newSeq], ?_, by simp [extendSeq, newSeq]⟩
  intro l hl
  simp only [extendSeq, newSeq, List.nil_append, List.mem_singleton] at hl
  omega

theorem setColumns_spec (V : Nat) (labelseq : List Nat) (hlab : ∀ l ∈ labelseq, l < V) :
    ∀ (ns : List Nat), (∀ n ∈ ns, n + 1 < labelseq.length) →
      (setColumns V labelseq ns : Option (List (List α)))
        = some (ns.map (fun n => oneHotCol V (labelseq.getD (n + 1) 0))) := by
  intro ns
  induction ns with
  | nil => intro _; rfl
  | cons n ns ih =>
    intro h
    have hn := h n (List.mem_cons_self _ _)
    have hget : labelseq.get? (n + 1) = some (labelseq.getD (n + 1) 0) := by
      rw [List.getD_eq_getElem?_getD, List.get?_eq_getElem?, List.getElem?_eq_getElem hn]
      simp
    have hid : labelseq.getD (n + 1) 0 < V := by
      apply hlab
      rw [List.getD_eq_getElem?_getD, List.getElem?_eq_getElem hn]
      simp
    simp only [setColumns, hget, Option.some_bind, oneHot, hid, if_true,
      ih (fun m hm => h m (List.mem_cons_of_mem _ hm)), Option.map_some', List.map_cons]

theorem writeBest_spec (V blankId : Nat) (yb : Sequence α D) (hb : blankId < V)
    (h : InRange V yb) :
    ∃ out, writeBest V blankId yb = some out ∧ 1 ≤ out.2 ∧
      (yb.length - 1 = 0 → out = ([oneHotCol V blankId], 1)) ∧
      (yb.length - 1 ≠ 0 → out.2 = yb.length - 1 ∧ out.1.length = yb.length - 1 ∧
        ∀ n, n < yb.length - 1 →
          ∃ id, yb.labelseq.get? (n + 1) = some id ∧ out.1.get? n = some (oneHotCol V id)) := by
  obtain ⟨hne, hlab, hlen⟩ := h
  have hpos : yb.labelseq.length ≠ 0 := by
    intro h0; exact hne (List.length_eq_zero.mp h0)
  have hcols := setColumns_spec (α := α) V yb.labelseq hlab (List.range (yb.length - 1))
    (by intro n hn; have := List.mem_range.mp hn; omega)
  have hyl : yb.length ≠ 0 := by omega
  unfold writeBest
  rw [if_neg hyl]
  simp only [hcols, Option.some_bind]
  by_cases hz : yb.length - 1 = 0
  · refine ⟨([oneHotCol V blankId], 1), ?_, le_refl _, fun _ => rfl, fun h => absurd hz h⟩
    simp [hz, oneHot, hb]
  · refine ⟨_, by rw [if_neg hz], ?_, fun h => absurd h hz, fun _ => ⟨rfl, by simp, ?_⟩⟩
    · simp only; omega
    · intro n hn
      have hn1 : n + 1 < yb.labelseq.length := by omega
      refine ⟨yb.labelseq.getD (n + 1) 0, ?_, ?_⟩
      · rw [List.getD_eq_getElem?_getD, List.get?_eq_getElem?, List.getElem?_eq_getElem hn1]
        simp
      · simp [List.getElem?_range hn, hn]

theorem normalize_inRange (V : Nat) (v : List (Sequence α D))
    (h : ∀ s ∈ v, InRange V s) : ∀ s ∈ normalize v, InRange V s := by
  intro s hs
  simp only [normalize, List.mem_map] at hs
  obtain ⟨s0, hs0, heq⟩ := hs
  rw [← heq]
  exact InRange_congr _ _ s0 rfl rfl (h s0 hs0)

/-- The run of `WriteOutput_beam` with the quotients of `normalize` (a zero
divisor gives 0 there): when the frames have left the non-empty list
`nextSequences`, a hypothesis `yb` is selected and an output is written.
If `yb` emitted no real label (`length - 1 = 0`) the output is the single
one-hot column of the blank with frame count 1; otherwise it has
`length - 1` columns, column `n` being the one-hot vector of
`yb.labelseq[n + 1]`.  The frame count is at least 1 in both cases. -/
theorem beam_output_of_best (net : Network α D) (beamSize expandBeam fuel : Nat)
    (nextSequences : List (Sequence α D)) (h0 : 0 < net.vocabSize)
    (hrun : beamFrames net beamSize expandBeam (net.vocabSize - 1) fuel
        (List.range net.numFrames) (beamInit net (net.vocabSize - 1)) = Run.done nextSequences)
    (hne : nextSequences ≠ []) :
    ∃ yb out,
      (max_element (normalize nextSequences)).bind
          (fun i => (normalize nextSequences).get? i) = some yb ∧
      WriteOutput_beam net beamSize expandBeam fuel = Run.done out ∧
      1 ≤ out.2 ∧
      (yb.length - 1 = 0 → out = ([oneHotCol net.vocabSize (net.vocabSize - 1)], 1)) ∧
      (yb.length - 1 ≠ 0 → out.2 = yb.length - 1 ∧ out.1.length = yb.length - 1 ∧
        ∀ n, n < yb.length - 1 →
          ∃ id, yb.labelseq.get? (n + 1) = some id ∧
            out.1.get? n = some (oneHotCol net.vocabSize id)) := by
  have hin := beamFrames_inRange net beamSize expandBeam _ fuel _ _ _
    (beamInit_inRange net h0) hrun
  have hnn : normalize nextSequences ≠ [] := by
    simpa [normalize] using hne
  obtain ⟨i, hi, hlt⟩ := max_element_isSome _ hnn
  have hget : (normalize nextSequences).get? i = some ((normalize nextSequences).get ⟨i, hlt⟩) :=
    List.get?_eq_get hlt
  have hmem : (normalize nextSequences).get ⟨i, hlt⟩ ∈ normalize nextSequences :=
    List.get_mem _ _ _
  have hyb : InRange net.vocabSize ((normalize nextSequences).get ⟨i, hlt⟩) :=
    normalize_inRange _ _ hin _ hmem
  obtain ⟨out, hout, h1, h2, h3⟩ :=
    writeBest_spec net.vocabSize (net.vocabSize - 1) _ (by omega) hyb
  refine ⟨_, out, by rw [hi, Option.some_bind, hget], ?_, h1, h2, h3⟩
  unfold WriteOutput_beam
  simp only [hrun, hi, Option.some_bind, hget, hout]

/-- The run on `twoLabelNet` with `beamSize = expandBeam = 1`: the survivor has
the labels `[1, 0, 0]`, and the two columns written are the one-hot vectors
of `labelseq[1]` and `labelseq[2]`. -/
theorem beam_output_of_best_witness :
    beamFrames twoLabelNet 1 1 (twoLabelNet.vocabSize - 1) 5
        (List.range twoLabelNet.numFrames) (beamInit twoLabelNet (twoLabelNet.vocabSize - 1))
      = Run.done [⟨[1, 0, 0], -3, 3, 3, 3, [1, 0, 0]⟩] ∧
    WriteOutput_beam twoLabelNet 1 1 5 = Run.done ([[1, 0], [1, 0]], 2) ∧
    ∃ yb out,
      (max_element (normalize [(⟨[1, 0, 0], -3, 3, 3, 3, [1, 0, 0]⟩ : Sequence ℚ (List Nat))])).bind
          (fun i => (normalize [(⟨[1, 0, 0], -3, 3, 3, 3, [1, 0, 0]⟩ :
            Sequence ℚ (List Nat))]).get? i) = some yb ∧
      WriteOutput_beam twoLabelNet 1 1 5 = Run.done out ∧
      1 ≤ out.2 ∧
      (yb.length - 1 = 0 →
        out = ([oneHotCol twoLabelNet.vocabSize (twoLabelNet.vocabSize - 1)], 1)) ∧
      (yb.length - 1 ≠ 0 → out.2 = yb.length - 1 ∧ out.1.length = yb.length - 1 ∧
        ∀ n, n < yb.length - 1 →
          ∃ id, yb.labelseq.get? (n + 1) = some id ∧
            out.1.get? n = some (oneHotCol twoLabelNet.vocabSize id)) :=
  ⟨by decide!, by decide!,
   beam_output_of_best twoLabelNet 1 1 5 _ (by decide) (by decide!) (by decide)⟩

end BeamBasics

section TopOne
variable {α D : Type} [LinearOrderedField α]

theorem head_insertionSort_desc (l : List (Nat × α)) :
    (l.insertionSort (fun x y => y.2 ≤ x.2)).head? = firstMax l := by
  induction l with
  | nil => rfl
  | cons x xs ih =>
    simp only [List.insertionSort, firstMax]
    rw [← ih]
    cases hs : List.insertionSort (fun x y => y.2 ≤ x.2) xs with
    | nil => simp [List.orderedInsert]
    | cons b l =>
      simp only [List.orderedInsert, List.head?_cons]
      split <;> simp

theorem VectorMaxLoop_firstMax (xs : List α) :
    ∀ (best : Nat) (bv : α) (i : Nat),
      VectorMaxLoop best bv i xs =
        match firstMax (List.enumFrom i xs) with
        | none => best
        | some m => if bv < m.2 then m.1 else best := by
  induction xs with
  | nil => intro best bv i; rfl
  | cons x xs ih =>
    intro best bv i
    simp only [VectorMaxLoop, List.enumFrom_cons, firstMax]
    cases hm : firstMax (List.enumFrom (i + 1) xs) with
    | none =>
      have h1 := ih i x (i + 1)
      have h2 := ih best bv (i + 1)
      rw [hm] at h1 h2
      simp only at h1 h2
      rw [h1, h2]
    | some m =>
      have h1 := ih i x (i + 1)
      have h2 := ih best bv (i + 1)
      rw [hm] at h1 h2
      simp only at h1 h2
      rw [h1, h2]
      by_cases hbx : bv < x
      · by_cases hmx : m.2 ≤ x
        · simp [hbx, hmx, not_lt.mpr hmx]
        · have hxm : x < m.2 := not_le.mp hmx
          simp [hbx, hmx, hxm, lt_trans hbx hxm]
      · by_cases hmx : m.2 ≤ x
        · have : ¬ bv < m.2 := not_lt.mpr (le_trans hmx (not_lt.mp hbx))
          simp [hbx, hmx, this]
        · simp [hbx, hmx]

theorem VectorMax_firstMax (prob : List α) :
    VectorMax prob = (firstMax prob.enum).map (fun m => m.1) := by
  cases prob with
  | nil => rfl
  | cons x xs =>
    simp only [VectorMax, List.enum, List.enumFrom_cons, firstMax]
    rw [VectorMaxLoop_firstMax]
    cases hm : firstMax (List.enumFrom (0 + 1) xs) with
    | none => simp [hm]
    | some m =>
      simp only [zero_add] at hm
      simp only [hm]
      by_cases hmx : m.2 ≤ x
      · simp [hmx, not_lt.mpr hmx]
      · simp [hmx, not_le.mp hmx]

theorem getTopN_one (prob : List α) (h : 0 < prob.length) :
    ∃ topN c, getTopN prob 1 = some topN ∧ topN.take 1 = [c] ∧ VectorMax prob = some c.1 := by
  cases prob with
  | nil => simp at h
  | cons x xs =>
    cases xs with
    | nil =>
      refine ⟨[(0, x)], (0, x), ?_, rfl, rfl⟩
      simp [getTopN, nth_element, List.enum, List.enumFrom]
    | cons y ys =>
      have hlen : (x :: y :: ys).enum.length = ys.length + 2 := by simp [List.enum_length]
      have hsort : getTopN (x :: y :: ys) 1
          = some ((x :: y :: ys).enum.insertionSort (fun a b => b.2 ≤ a.2)) := by
        unfold getTopN nth_element
        rw [hlen]
        rw [if_neg (by omega), if_neg (by omega)]
      have hhead := head_insertionSort_desc (x :: y :: ys).enum
      have hvm := VectorMax_firstMax (x :: y :: ys)
      cases hs : (x :: y :: ys).enum.insertionSort (fun a b => b.2 ≤ a.2) with
      | nil =>
        have := congrArg List.length hs
        rw [List.length_insertionSort, hlen] at this
        simp at this
      | cons c l =>
        rw [hs] at hhead
        simp only [List.head?_cons] at hhead
        rw [← hhead] at hvm
        exact ⟨c :: l, c, by rw [hsort, hs], rfl, by simpa using hvm⟩

theorem forward_decode_coherent (net : Network α D) (s : Sequence α D)
    (h : Coherent net s) :
    ∃ k, forward_decode net (newSeqCopy s) net.vocabSize s.labelseq.length
      = some (refresh net s, k) := by
  obtain ⟨hin, _, hcache⟩ := h
  obtain ⟨fd, hfd, f1, f2, f3, f4, f5, f6⟩ := forward_decode_spec net s net.vocabSize hin
  have f7 := forward_decode_processlength net _ _ _ fd hfd
  refine ⟨fd.2, ?_⟩
  rw [hfd]
  congr 1
  have : fd.1 = refresh net s := by
    obtain ⟨⟨a1, a2, a3, a4, a5, a6⟩, k⟩ := fd
    simp only at f1 f2 f3 f4 f5 f6 f7
    subst f1 f2 f3 f4 f7
    simp only [refresh]
    congr 1
    by_cases hp : s.processlength = s.labelseq.length
    · rw [f6 hp, hcache hp]
    · exact f5 hp
  rw [← this]

theorem Coherent_refresh (net : Network α D) (s : Sequence α D) (h : Coherent net s) :
    Coherent net (refresh net s) :=
  ⟨InRange_congr _ _ s rfl rfl h.1, le_refl _, fun _ => rfl⟩

theorem Coherent_logP (net : Network α D) (s : Sequence α D) (x : α) (h : Coherent net s) :
    Coherent net { s with logP := x } :=
  ⟨InRange_logP _ s x h.1, h.2.1, h.2.2⟩

theorem Coherent_forward_decode (net : Network α D) (s : Sequence α D)
    (fd : Sequence α D × Nat) (h : Coherent net s)
    (hfd : forward_decode net (newSeqCopy s) net.vocabSize s.labelseq.length = some fd) :
    Coherent net fd.1 := by
  obtain ⟨k, hk⟩ := forward_decode_coherent net s h
  rw [hk] at hfd
  injection hfd with hfd
  rw [← hfd]
  exact Coherent_refresh net s h

theorem Coherent_extendSeq (net : Network α D) (s : Sequence α D) (id : Nat) (x : α)
    (h : Coherent net s) (hpl : s.processlength = s.labelseq.length)
    (hid : id < net.vocabSize) : Coherent net (extendSeq s id x) := by
  refine ⟨InRange_extendSeq _ s id x h.1 hid, ?_, ?_⟩
  · simp only [extendSeq, List.length_append, List.length_singleton]
    omega
  · intro hp
    simp only [extendSeq, List.length_append, List.length_singleton] at hp
    omega

theorem stopTest_isSome (beamSize : Nat) (st : BeamState α D) :
    ∃ b, stopTest beamSize st = some b ∧ (b = false → st.CurSequences ≠ []) ∧
      (b = true → st.CurSequences = [] ∨ beamSize < st.nextSequences.length) := by
  unfold stopTest
  by_cases h0 : st.CurSequences.length = 0
  · exact ⟨true, by simp [h0], by simp, fun _ => Or.inl (List.length_eq_zero.mp h0)⟩
  · have hne : st.CurSequences ≠ [] := fun h => h0 (by rw [h]; rfl)
    rw [if_neg h0]
    by_cases h1 : st.nextSequences.length > beamSize
    · rw [if_pos h1]
      have hnn : st.nextSequences ≠ [] := by
        intro h; rw [h] at h1; simp at h1
      obtain ⟨ya, hya⟩ := maxLogP_isSome _ hne
      obtain ⟨yb, hyb⟩ := maxLogP_isSome _ hnn
      refine ⟨decide (yb > ya), by simp [hya, hyb], fun _ => hne, fun _ => Or.inr h1⟩
    · rw [if_neg h1]
      exact ⟨false, rfl, fun _ => hne, by simp⟩

theorem expandBody_one (net : Network α D) (beamSize blankId t : Nat) (st : BeamState α D)
    (h0 : 0 < net.vocabSize) (hall : AllSeq (Coherent net) st) (hne : st.CurSequences ≠ []) :
    ∃ i maxSeq c stop,
      max_element st.CurSequences = some i ∧ i < st.CurSequences.length ∧
      st.CurSequences.get? i = some maxSeq ∧
      VectorMax ((List.range net.vocabSize).map (net.joint t (net.decoder maxSeq.labelseq)))
        = some c.1 ∧
      stopTest beamSize (expandCandidate net blankId (refresh net maxSeq)
          { CurSequences := st.CurSequences.eraseIdx i, nextSequences := st.nextSequences } c)
        = some stop ∧
      expandBody net beamSize 1 blankId t st
        = some (expandCandidate net blankId (refresh net maxSeq)
            { CurSequences := st.CurSequences.eraseIdx i, nextSequences := st.nextSequences } c,
          stop) := by
  obtain ⟨i, hi, hlt⟩ := max_element_isSome _ hne
  have hget : st.CurSequences.get? i = some (st.CurSequences.get ⟨i, hlt⟩) :=
    List.get?_eq_get hlt
  have hmem : st.CurSequences.get ⟨i, hlt⟩ ∈ st.CurSequences := List.get_mem _ _ _
  obtain ⟨k, hfd⟩ := forward_decode_coherent net _ (hall.1 _ hmem)
  have hlen : 0 < (forwardmerged net (refresh net (st.CurSequences.get ⟨i, hlt⟩)) t).length := by
    rw [forwardmerged_length]; exact h0
  obtain ⟨topN, c, htop, htake, hvm⟩ := getTopN_one _ hlen
  obtain ⟨stop, hstop, _⟩ := stopTest_isSome beamSize
    (expandCandidate net blankId (refresh net (st.CurSequences.get ⟨i, hlt⟩))
      { CurSequences := st.CurSequences.eraseIdx i, nextSequences := st.nextSequences } c)
  refine ⟨i, _, c, stop, hi, hlt, hget, hvm, hstop, ?_⟩
  unfold expandBody
  simp only [hi, Option.some_bind, hget, hfd, htop, htake, List.foldl_cons, List.foldl_nil,
    hstop, Option.map_some']

theorem slack_eraseIdx (L : Nat) :
    ∀ (v : List (Sequence α D)) (i : Nat) (h : i < v.length),
      slack L (v.eraseIdx i) + (L - (v.get ⟨i, h⟩).labelseq.length + 1) = slack L v := by
  intro v
  induction v with
  | nil => intro i h; simp at h
  | cons x xs ih =>
    intro i h
    cases i with
    | zero => simp [slack]; omega
    | succ j =>
      have hj : j < xs.length := by simpa using h
      have := ih j hj
      simp only [slack, List.eraseIdx_cons_succ, List.map_cons, List.sum_cons,
        List.get_cons_succ] at this ⊢
      omega

theorem slack_pos (L : Nat) (v : List (Sequence α D)) (h : v ≠ []) : 0 < slack L v := by
  cases v with
  | nil => exact absurd rfl h
  | cons x xs => simp [slack]

theorem slack_append_singleton (L : Nat) (v : List (Sequence α D)) (s : Sequence α D) :
    slack L (v ++ [s]) = slack L v + (L - s.labelseq.length + 1) := by
  simp [slack]

theorem expandCandidate_blank (net : Network α D) (blankId : Nat) (tempSeq : Sequence α D)
    (st : BeamState α D) (c : Nat × α) (hc : c.1 = blankId) :
    (expandCandidate net blankId tempSeq st c).CurSequences = st.CurSequences ∧
    (expandCandidate net blankId tempSeq st c).nextSequences ≠ [] := by
  unfold expandCandidate
  simp only [hc, if_true]
  split
  · rename_i merged hm
    refine ⟨rfl, ?_⟩
    intro h
    simp only at h
    subst h
    have := mergeBlank_labels _ _ _ _ hm
    simp only [List.map_nil] at this
    have h2 := List.map_eq_nil_iff.mp this.symm
    rw [h2] at hm
    simp [mergeBlank] at hm
  · exact ⟨rfl, by simp⟩

theorem expandCandidate_label (net : Network α D) (blankId : Nat) (tempSeq : Sequence α D)
    (st : BeamState α D) (c : Nat × α) (hc : c.1 ≠ blankId) :
    expandCandidate net blankId tempSeq st c =
      { CurSequences := st.CurSequences ++
          [extendSeq { newSeqCopy tempSeq with logP := c.2 + tempSeq.logP } c.1
            (c.2 + tempSeq.logP)]
        nextSequences := st.nextSequences } := by
  unfold expandCandidate
  simp only [hc, if_false]

theorem Coherent_closed (net : Network α D) :
    (∀ (s : Sequence α D) (x : α), Coherent net s → Coherent net { s with logP := x }) ∧
    (∀ (s : Sequence α D) (fd : Sequence α D × Nat), Coherent net s →
      forward_decode net (newSeqCopy s) net.vocabSize s.labelseq.length = some fd →
      Coherent net fd.1) ∧
    (∀ (s : Sequence α D) (id : Nat) (x : α), Coherent net s →
      s.processlength = s.labelseq.length → id < net.vocabSize →
      Coherent net (extendSeq s id x)) :=
  ⟨fun s x h => Coherent_logP net s x h,
   fun s fd h hfd => Coherent_forward_decode net s fd h hfd,
   fun s id x h hpl hid => Coherent_extendSeq net s id x h hpl hid⟩

theorem expandLoop_terminates (net : Network α D) (beamSize blankId t L : Nat)
    (h0 : 0 < net.vocabSize)
    (hblank : ∀ h : List Nat, L ≤ h.length →
      VectorMax ((List.range net.vocabSize).map (net.joint t (net.decoder h))) = some blankId) :
    ∀ (fuel : Nat) (st : BeamState α D), AllSeq (Coherent net) st →
      st.CurSequences ≠ [] → slack L st.CurSequences ≤ fuel →
      ∃ st1, expandLoop net beamSize 1 blankId t fuel st = Run.done st1 ∧
        st1.nextSequences ≠ [] := by
  intro fuel
  induction fuel with
  | zero =>
    intro st _ hne hs
    have := slack_pos L _ hne
    omega
  | succ n ih =>
    intro st hall hne hs
    obtain ⟨i, maxSeq, c, stop, hi, hlt, hget, hvm, hstop, hbody⟩ :=
      expandBody_one net beamSize blankId t st h0 hall hne
    obtain ⟨c1, c2, c3⟩ := Coherent_closed net
    have hall1 := expandBody_preserves net (Coherent net) c1 c2 c3 beamSize 1 blankId t st _ _
      hall hbody
    have hmax : maxSeq = st.CurSequences.get ⟨i, hlt⟩ := by
      rw [List.get?_eq_get hlt] at hget
      injection hget with hget
      exact hget.symm
    have herase := slack_eraseIdx L st.CurSequences i hlt
    rw [← hmax] at herase
    obtain ⟨b, hb, hfalse, htrue⟩ := stopTest_isSome beamSize
      (expandCandidate net blankId (refresh net maxSeq)
        { CurSequences := st.CurSequences.eraseIdx i, nextSequences := st.nextSequences } c)
    rw [hstop] at hb
    injection hb with hb
    subst hb
    unfold expandLoop
    rw [hbody]
    cases stop with
    | true =>
      refine ⟨_, rfl, ?_⟩
      by_cases hc : c.1 = blankId
      · exact (expandCandidate_blank net blankId _ _ c hc).2
      · rcases htrue rfl with h1 | h1
        · rw [expandCandidate_label net blankId _ _ c hc] at h1
          simp at h1
        · intro h2
          rw [h2] at h1
          simp at h1
    | false =>
      simp only
      apply ih _ hall1 (hfalse rfl)
      by_cases hc : c.1 = blankId
      · rw [(expandCandidate_blank net blankId _ _ c hc).1]
        simp only
        omega
      · have hshort : maxSeq.labelseq.length < L := by
          by_contra hge
          have := hblank maxSeq.labelseq (by omega)
          rw [this] at hvm
          injection hvm with hvm
          exact hc hvm.symm
        rw [expandCandidate_label net blankId _ _ c hc]
        simp only [slack_append_singleton]
        simp only [extendSeq, newSeqCopy, refresh, List.length_append, List.length_singleton]
        omega

theorem expandLoop_never_stops (net : Network α D) (beamSize blankId t : Nat)
    (h0 : 0 < net.vocabSize)
    (hlabel : ∀ h : List Nat,
      VectorMax ((List.range net.vocabSize).map (net.joint t (net.decoder h))) ≠ some blankId) :
    ∀ (fuel : Nat) (st : BeamState α D), AllSeq (Coherent net) st →
      st.CurSequences ≠ [] → st.nextSequences = [] →
      expandLoop net beamSize 1 blankId t fuel st = Run.timeout := by
  intro fuel
  induction fuel with
  | zero => intro st _ _ _; rfl
  | succ n ih =>
    intro st hall hne hnext
    obtain ⟨i, maxSeq, c, stop, hi, hlt, hget, hvm, hstop, hbody⟩ :=
      expandBody_one net beamSize blankId t st h0 hall hne
    obtain ⟨c1, c2, c3⟩ := Coherent_closed net
    have hall1 := expandBody_preserves net (Coherent net) c1 c2 c3 beamSize 1 blankId t st _ _
      hall hbody
    have hc : c.1 ≠ blankId := by
      intro hc
      rw [hc] at hvm
      exact hlabel _ hvm
    rw [expandCandidate_label net blankId _ _ c hc] at hstop hbody hall1
    have hstop2 : stop = false := by
      unfold stopTest at hstop
      simp only [hnext, List.length_append, List.length_singleton, List.length_nil] at hstop
      rw [if_neg (by omega), if_neg (by omega)] at hstop
      injection hstop with hstop
      exact hstop.symm
    subst hstop2
    unfold expandLoop
    rw [hbody]
    simp only
    exact ih _ hall1 (by simp) hnext

theorem beamInit_coherent (net : Network α D) (h0 : 0 < net.vocabSize) :
    ∀ s ∈ beamInit net (net.vocabSize - 1), Coherent net s := by
  intro s hs
  refine ⟨beamInit_inRange net h0 s hs, ?_, ?_⟩
  · simp only [beamInit, List.mem_singleton] at hs
    subst hs
    simp [extendSeq, newSeq]
  · simp only [beamInit, List.mem_singleton] at hs
    subst hs
    simp [extendSeq, newSeq]

theorem slack_le (L : Nat) (v : List (Sequence α D)) : slack L v ≤ v.length * (L + 1) := by
  induction v with
  | nil => simp [slack]
  | cons x xs ih =>
    simp only [slack, List.map_cons, List.sum_cons, List.length_cons] at ih ⊢
    have : (xs.length + 1) * (L + 1) = xs.length * (L + 1) + (L + 1) := by ring
    omega

theorem prune_length (v : List (Sequence α D)) (beamSize : Nat) :
    (prune v beamSize).length = min beamSize v.length := by
  rw [prune_eq_take, List.length_take, List.length_reverse, (sort_perm v).length_eq]

theorem beamFrame_terminates (net : Network α D) (beamSize blankId t L fuel : Nat)
    (h0 : 0 < net.vocabSize) (hbeam : 1 ≤ beamSize)
    (hblank : ∀ h : List Nat, L ≤ h.length →
      VectorMax ((List.range net.vocabSize).map (net.joint t (net.decoder h))) = some blankId)
    (carried : List (Sequence α D)) (hc : ∀ s ∈ carried, Coherent net s)
    (hne : carried ≠ []) (hlen : carried.length ≤ beamSize)
    (hfuel : beamSize * (L + 1) ≤ fuel) :
    ∃ next1, beamFrame net beamSize 1 blankId fuel carried t = Run.done next1 ∧
      (∀ s ∈ next1, Coherent net s) ∧ next1 ≠ [] ∧ next1.length ≤ beamSize := by
  have hs : slack L carried ≤ fuel := by
    have h1 := slack_le L carried
    have h2 : carried.length * (L + 1) ≤ beamSize * (L + 1) := Nat.mul_le_mul_right _ hlen
    omega
  have hall : AllSeq (Coherent net)
      ({ CurSequences := carried, nextSequences := [] } : BeamState α D) := ⟨hc, by simp⟩
  obtain ⟨st1, hrun, hnn⟩ :=
    expandLoop_terminates net beamSize blankId t L h0 hblank fuel _ hall hne hs
  obtain ⟨c1, c2, c3⟩ := Coherent_closed net
  have hall1 := expandLoop_preserves net (Coherent net) c1 c2 c3 beamSize 1 blankId t fuel _ _
    hall hrun
  refine ⟨prune st1.nextSequences beamSize, ?_, ?_, ?_, ?_⟩
  · unfold beamFrame
    rw [hrun]
  · intro s hs
    exact hall1.2 s (mem_prune _ _ s hs)
  · intro h
    have := prune_length st1.nextSequences beamSize
    rw [h] at this
    have hpos : 0 < st1.nextSequences.length := List.length_pos.mpr hnn
    simp only [List.length_nil] at this
    omega
  · rw [prune_length]
    exact Nat.min_le_left _ _

theorem beamFrames_terminates (net : Network α D) (beamSize blankId L fuel : Nat)
    (h0 : 0 < net.vocabSize) (hbeam : 1 ≤ beamSize)
    (hblank : ∀ (t : Nat) (h : List Nat), L ≤ h.length →
      VectorMax ((List.range net.vocabSize).map (net.joint t (net.decoder h))) = some blankId)
    (hfuel : beamSize * (L + 1) ≤ fuel) :
    ∀ (ts : List Nat) (carried : List (Sequence α D)), (∀ s ∈ carried, Coherent net s) →
      carried ≠ [] → carried.length ≤ beamSize →
      ∃ final, beamFrames net beamSize 1 blankId fuel ts carried = Run.done final ∧
        (∀ s ∈ final, Coherent net s) ∧ final ≠ [] := by
  intro ts
  induction ts with
  | nil => intro carried hc hne _; exact ⟨carried, rfl, hc, hne⟩
  | cons t ts ih =>
    intro carried hc hne hlen
    obtain ⟨next1, hf, hc1, hne1, hlen1⟩ :=
      beamFrame_terminates net beamSize blankId t L fuel h0 hbeam (hblank t) carried hc hne
        hlen hfuel
    obtain ⟨final, hfin, hcf, hnf⟩ := ih next1 hc1 hne1 hlen1
    refine ⟨final, ?_, hcf, hnf⟩
    unfold beamFrames
    rw [hf]
    exact hfin

theorem WriteOutput_beam_of_frames (net : Network α D) (beamSize expandBeam fuel : Nat)
    (final : List (Sequence α D)) (h0 : 0 < net.vocabSize)
    (hrun : beamFrames net beamSize expandBeam (net.vocabSize - 1) fuel
        (List.range net.numFrames) (beamInit net (net.vocabSize - 1)) = Run.done final)
    (hin : ∀ s ∈ final, InRange net.vocabSize s) (hne : final ≠ []) :
    ∃ out, WriteOutput_beam net beamSize expandBeam fuel = Run.done out := by
  have hnn : normalize final ≠ [] := by
    simpa [normalize] using hne
  obtain ⟨i, hi, hlt⟩ := max_element_isSome _ hnn
  have hget : (normalize final).get? i = some ((normalize final).get ⟨i, hlt⟩) :=
    List.get?_eq_get hlt
  have hyb : InRange net.vocabSize ((normalize final).get ⟨i, hlt⟩) :=
    normalize_inRange _ _ hin _ (List.get_mem _ _ _)
  obtain ⟨out, hout, _⟩ := writeBest_spec net.vocabSize (net.vocabSize - 1) _ (by omega) hyb
  refine ⟨out, ?_⟩
  unfold WriteOutput_beam
  simp only [hrun, hi, Option.some_bind, hget, hout]

/-- The case `expandBeam = 1` with a bound on the passes: the expansion
loop has no pass limit of its own, and with `beamSize >= 1` it ends in
every frame, within `beamSize * (L + 1)` passes, once the arg-max of the
joiner is the blank for every label history of `L` or more labels; the run
then goes on to write an output. -/
theorem beam_terminates_when_blank_wins (net : Network α D) (beamSize L fuel : Nat)
    (h0 : 0 < net.vocabSize) (hbeam : 1 ≤ beamSize)
    (hblank : ∀ (t : Nat) (h : List Nat), L ≤ h.length →
      VectorMax ((List.range net.vocabSize).map (net.joint t (net.decoder h)))
        = some (net.vocabSize - 1))
    (hfuel : beamSize * (L + 1) ≤ fuel) :
    (∀ (t : Nat) (carried : List (Sequence α D)), (∀ s ∈ carried, Coherent net s) →
      carried ≠ [] → carried.length ≤ beamSize →
      ∃ next1, beamFrame net beamSize 1 (net.vocabSize - 1) fuel carried t = Run.done next1) ∧
    ∃ out, WriteOutput_beam net beamSize 1 fuel = Run.done out := by
  refine ⟨?_, ?_⟩
  · intro t carried hc hne hlen
    obtain ⟨next1, hf, _⟩ :=
      beamFrame_terminates net beamSize _ t L fuel h0 hbeam (hblank t) carried hc hne hlen hfuel
    exact ⟨next1, hf⟩
  · obtain ⟨final, hrun, hcf, hnf⟩ :=
      beamFrames_terminates net beamSize _ L fuel h0 hbeam hblank hfuel
        (List.range net.numFrames) (beamInit net (net.vocabSize - 1))
        (beamInit_coherent net h0) (by simp [beamInit]) (by simp [beamInit]; omega)
    exact WriteOutput_beam_of_frames net beamSize 1 fuel final h0 hrun
      (fun s hs => (hcf s hs).1) hnf

/-- The case `expandBeam = 1` on `twoLabelNet`, whose joiner prefers the
blank from three labels on: with `beamSize = 1` four passes suffice. -/
theorem beam_terminates_when_blank_wins_witness :
    WriteOutput_beam twoLabelNet 1 1 4 = Run.done ([[1, 0], [1, 0]], 2) ∧
    ((∀ (t : Nat) (carried : List (Sequence ℚ (List Nat))),
      (∀ s ∈ carried, Coherent twoLabelNet s) →
      carried ≠ [] → carried.length ≤ 1 →
      ∃ next1, beamFrame twoLabelNet 1 1 (twoLabelNet.vocabSize - 1) 4 carried t
        = Run.done next1) ∧
    ∃ out, WriteOutput_beam twoLabelNet 1 1 4 = Run.done out) :=
  ⟨by decide!,
   beam_terminates_when_blank_wins twoLabelNet 1 3 4 (by decide) (by decide)
     (by
       intro t h hh
       have h2 : ¬ h.length ≤ 2 := by omega
       simp only [twoLabelNet, h2, if_false]
       decide!)
     (by decide)⟩

/-- C10 as stated fails: on `chattyNet`, whose joiner never puts the blank
first, `WriteOutput_beam` with `expandBeam = 1` uses up every amount of fuel
inside the expansion loop of frame 0, whatever `beamSize` is. -/
theorem beam_loops_forever_counterexample :
    ¬ ∃ beamSize fuel : Nat, WriteOutput_beam chattyNet beamSize 1 fuel ≠ Run.timeout := by
  rintro ⟨beamSize, fuel, h⟩
  apply h
  have hloop := expandLoop_never_stops chattyNet beamSize 1 0 (by decide)
    (by
      intro hh
      simp only [chattyNet]
      decide!)
    fuel { CurSequences := beamInit chattyNet 1, nextSequences := [] }
    ⟨beamInit_coherent chattyNet (by decide), by simp⟩ (by simp [beamInit]) rfl
  have hframe : beamFrame chattyNet beamSize 1 1 fuel (beamInit chattyNet 1) 0 = Run.timeout := by
    unfold beamFrame
    rw [hloop]
  have hr : List.range chattyNet.numFrames = [0] := by decide
  unfold WriteOutput_beam
  simp only [hr]
  have hv : chattyNet.vocabSize - 1 = 1 := by decide
  rw [hv]
  unfold beamFrames
  rw [hframe]

end TopOne

section Greedy

variable {α D : Type} [LinearOrderedField α]

theorem VectorMaxLoop_lt (xs : List α) : ∀ (best : Nat) (bv : α) (i : Nat), best < i →
    VectorMaxLoop best bv i xs < i + xs.length := by
  induction xs with
  | nil => intro best bv i h; simpa [VectorMaxLoop] using h
  | cons x xs ih =>
    intro best bv i h
    unfold VectorMaxLoop
    split
    · have := ih i x (i + 1) (by omega)
      simp only [List.length_cons]; omega
    · have := ih best bv (i + 1) (by omega)
      simp only [List.length_cons]; omega

theorem VectorMax_lt (v : List α) (id : Nat) (h : VectorMax v = some id) : id < v.length := by
  cases v with
  | nil => simp [VectorMax] at h
  | cons x xs =>
    simp only [VectorMax, Option.some.injEq] at h
    subst h
    have := VectorMaxLoop_lt xs 0 x 1 (by omega)
    simp only [List.length_cons]; omega

theorem VectorMax_isSome (v : List α) (h : v ≠ []) : ∃ id, VectorMax v = some id := by
  cases v with
  | nil => exact absurd rfl h
  | cons x xs => exact ⟨_, rfl⟩

theorem jointVector_ne_nil (net : Network α D) (h0 : 0 < net.vocabSize) (t : Nat) (d : D) :
    (List.range net.vocabSize).map (net.joint t d) ≠ [] := by
  intro h
  have := congrArg List.length h
  simp at this
  omega

theorem greedyFrame_step (net : Network α D) (blankId : Nat) (st st1 : GreedyState α) (t : Nat)
    (h : greedyFrame net blankId st t = some st1) :
    ∃ maxId, VectorMax ((List.range net.vocabSize).map (net.joint t (net.decoder st.fed)))
        = some maxId ∧
      (maxId = blankId → st1 = st) ∧
      (maxId ≠ blankId → st.lmt < 2000 ∧ maxId < net.vocabSize ∧
        st1 = { fed := st.fed ++ [maxId]
                greedyOutputMax := st.greedyOutputMax ++ [oneHotCol net.vocabSize maxId]
                lmt := st.lmt + 1 }) := by
  unfold greedyFrame at h
  simp only [Option.bind_eq_some] at h
  obtain ⟨maxId, hmax, h⟩ := h
  refine ⟨maxId, hmax, ?_, ?_⟩
  · intro hb
    simp [hb] at h
    exact h.symm
  · intro hb
    simp only [hb, ne_eq, not_false_eq_true, if_true, Option.bind_eq_some] at h
    obtain ⟨lmin, hl, h⟩ := h
    unfold oneHot at hl
    split at hl
    · rename_i hlt
      injection hl with hl
      subst hl
      split at h
      · rename_i h2
        injection h with h
        exact ⟨h2, hlt, h.symm⟩
      · simp at h
    · simp at hl

theorem greedyFrames_trace (net : Network α D) (h0 : 0 < net.vocabSize) (blankId : Nat) :
    ∀ (ts : List Nat) (emitted : List Nat),
      ∃ ids, argmaxTrace net blankId ts emitted = some ids ∧
        (emitted.length + (ids.filter (fun id => id ≠ blankId)).length ≤ 2000 →
          greedyFrames net blankId ts
              { fed := blankId :: emitted
                greedyOutputMax := emitted.map (oneHotCol net.vocabSize)
                lmt := emitted.length }
            = some
              { fed := blankId :: (emitted ++ ids.filter (fun id => id ≠ blankId))
                greedyOutputMax :=
                  (emitted ++ ids.filter (fun id => id ≠ blankId)).map (oneHotCol net.vocabSize)
                lmt := (emitted ++ ids.filter (fun id => id ≠ blankId)).length }) := by
  intro ts
  induction ts with
  | nil => intro emitted; exact ⟨[], rfl, by intro _; simp [greedyFrames]⟩
  | cons t ts ih =>
    intro emitted
    obtain ⟨id, hid⟩ := VectorMax_isSome _
      (jointVector_ne_nil net h0 t (net.decoder (blankId :: emitted)))
    have hlt : id < net.vocabSize := by
      have := VectorMax_lt _ _ hid
      simpa using this
    by_cases hb : id = blankId
    · obtain ⟨rest, hrest, hrun⟩ := ih emitted
      refine ⟨id :: rest, ?_, ?_⟩
      · simp [argmaxTrace, hid, hb, hrest]
      · intro hlen
        have hlen2 : emitted.length + (rest.filter (fun id => id ≠ blankId)).length ≤ 2000 := by
          simpa [hb] using hlen
        have hf : greedyFrame net blankId
            { fed := blankId :: emitted
              greedyOutputMax := emitted.map (oneHotCol net.vocabSize)
              lmt := emitted.length } t
            = some { fed := blankId :: emitted
                     greedyOutputMax := emitted.map (oneHotCol net.vocabSize)
                     lmt := emitted.length } := by
          simp [greedyFrame, hid, hb]
        simp only [greedyFrames, hf, Option.some_bind, hrun hlen2]
        simp [hb]
    · obtain ⟨rest, hrest, hrun⟩ := ih (emitted ++ [id])
      refine ⟨id :: rest, ?_, ?_⟩
      · simp [argmaxTrace, hid, hb, hrest]
      · intro hlen
        have hlen2 : (emitted ++ [id]).length
            + (rest.filter (fun id => id ≠ blankId)).length ≤ 2000 := by
          simp [hb] at hlen
          simp
          omega
        have hf : greedyFrame net blankId
            { fed := blankId :: emitted
              greedyOutputMax := emitted.map (oneHotCol net.vocabSize)
              lmt := emitted.length } t
            = some { fed := blankId :: (emitted ++ [id])
                     greedyOutputMax := (emitted ++ [id]).map (oneHotCol net.vocabSize)
                     lmt := (emitted ++ [id]).length } := by
          have h2000 : emitted.length < 2000 := by
            simp [hb] at hlen
            omega
          simp [greedyFrame, hid, hb, oneHot, hlt, h2000]
        simp only [greedyFrames, hf, Option.some_bind, hrun hlen2]
        simp [hb]

theorem greedyFrames_lmt (net : Network α D) (blankId : Nat) :
    ∀ (ts : List Nat) (st st1 : GreedyState α),
      greedyFrames net blankId ts st = some st1 →
      st1.lmt ≤ st.lmt + ts.length ∧
      (st.greedyOutputMax.length = st.lmt → st1.greedyOutputMax.length = st1.lmt) := by
  intro ts
  induction ts with
  | nil =>
    intro st st1 h
    simp only [greedyFrames, Option.some.injEq] at h
    subst h
    exact ⟨by simp, fun h => h⟩
  | cons t ts ih =>
    intro st st1 h
    simp only [greedyFrames, Option.bind_eq_some] at h
    obtain ⟨st2, hf, hrest⟩ := h
    obtain ⟨maxId, _, hblank, hlabel⟩ := greedyFrame_step net blankId st st2 t hf
    obtain ⟨hle, hlen⟩ := ih st2 st1 hrest
    by_cases hb : maxId = blankId
    · have := hblank hb
      subst this
      refine ⟨?_, hlen⟩
      simp only [List.length_cons]
      omega
    · obtain ⟨_, _, hst2⟩ := hlabel hb
      subst hst2
      refine ⟨?_, ?_⟩
      · simp only [List.length_cons] at hle ⊢
        omega
      · intro h0
        apply hlen
        simp [h0]

theorem greedyFrames_all_blank (net : Network α D) (blankId : Nat) (st : GreedyState α) :
    ∀ (ts : List Nat),
      (∀ t ∈ ts, VectorMax ((List.range net.vocabSize).map (net.joint t (net.decoder st.fed)))
        = some blankId) →
      greedyFrames net blankId ts st = some st := by
  intro ts
  induction ts with
  | nil => intro _; rfl
  | cons t ts ih =>
    intro h
    have ht := h t (List.mem_cons_self _ _)
    have hf : greedyFrame net blankId st t = some st := by
      simp [greedyFrame, ht]
    simp only [greedyFrames, hf, Option.some_bind]
    exact ih (fun t1 h1 => h t1 (List.mem_cons_of_mem _ h1))

theorem WriteOutput_greedy_count (net : Network α D) (out : List (List α) × Nat)
    (h : WriteOutput_greedy net = some out) :
    1 ≤ out.2 ∧ out.1.length = out.2 ∧ out.2 ≤ max 1 net.numFrames := by
  unfold WriteOutput_greedy at h
  simp only [Option.bind_eq_some] at h
  obtain ⟨blank, _, st, hst, h⟩ := h
  obtain ⟨hle, hlen⟩ := greedyFrames_lmt net _ _ _ _ hst
  simp only [List.length_range, zero_add] at hle
  have hlen2 := hlen rfl
  split at h
  · injection h with h
    subst h
    simp
  · rename_i hne
    injection h with h
    subst h
    simp only
    omega

/-- C6, as the code has it: the frame loop queries the joiner once for frame
`t`.  With a non-blank arg-max `maxId` the label is appended, the decoder
history grows by `maxId`, and decoding goes on with the frames after `t`;
with the blank nothing changes.  So the emission counter grows by at most
one for each frame. -/
theorem greedy_one_query_per_frame (net : Network α D) (blankId t : Nat) (ts : List Nat)
    (st st1 : GreedyState α)
    (h : greedyFrames net blankId (t :: ts) st = some st1) :
    (∃ maxId,
      VectorMax ((List.range net.vocabSize).map (net.joint t (net.decoder st.fed)))
        = some maxId ∧
      (maxId = blankId → greedyFrames net blankId ts st = some st1) ∧
      (maxId ≠ blankId →
        greedyFrames net blankId ts
          { fed := st.fed ++ [maxId]
            greedyOutputMax := st.greedyOutputMax ++ [oneHotCol net.vocabSize maxId]
            lmt := st.lmt + 1 } = some st1)) ∧
    st1.lmt ≤ st.lmt + (t :: ts).length := by
  refine ⟨?_, (greedyFrames_lmt net blankId _ _ _ h).1⟩
  simp only [greedyFrames, Option.bind_eq_some] at h
  obtain ⟨st2, hf, hrest⟩ := h
  obtain ⟨maxId, hmax, hblank, hlabel⟩ := greedyFrame_step net blankId st st2 t hf
  refine ⟨maxId, hmax, ?_, ?_⟩
  · intro hb
    rw [← hblank hb]
    exact hrest
  · intro hb
    rw [← (hlabel hb).2.2]
    exact hrest

/-- C6 on `twoLabelNet`: the single frame yields the single label `0`. -/
theorem greedy_one_query_per_frame_witness :
    greedyFrames twoLabelNet 1 [0] { fed := [1], greedyOutputMax := [], lmt := 0 }
      = some { fed := [1, 0], greedyOutputMax := [[1, 0]], lmt := 1 } ∧
    ((∃ maxId,
      VectorMax ((List.range twoLabelNet.vocabSize).map
          (twoLabelNet.joint 0 (twoLabelNet.decoder [1]))) = some maxId ∧
      (maxId = 1 → greedyFrames twoLabelNet 1 []
          { fed := [1], greedyOutputMax := [], lmt := 0 }
        = some { fed := [1, 0], greedyOutputMax := [[1, 0]], lmt := 1 }) ∧
      (maxId ≠ 1 →
        greedyFrames twoLabelNet 1 []
          { fed := [1] ++ [maxId]
            greedyOutputMax := [] ++ [oneHotCol twoLabelNet.vocabSize maxId]
            lmt := 0 + 1 } = some { fed := [1, 0], greedyOutputMax := [[1, 0]], lmt := 1 })) ∧
    1 ≤ 0 + [0].length) :=
  ⟨by decide!,
   greedy_one_query_per_frame twoLabelNet 1 0 []
     { fed := [1], greedyOutputMax := [], lmt := 0 }
     { fed := [1, 0], greedyOutputMax := [[1, 0]], lmt := 1 } (by decide!)⟩

/-- C6 as stated fails: on the one-frame utterance `twoLabelNet` a second
query of frame 0, made with the decoder output for the prefix grown by the
emitted label `0`, would again give the non-blank label `0`, yet the decoder
stops after one label; and no one-frame utterance at all makes it emit more
than one label. -/
theorem greedy_requery_counterexample :
    VectorMax ((List.range twoLabelNet.vocabSize).map
        (twoLabelNet.joint 0 (twoLabelNet.decoder [1, 0]))) = some 0 ∧
    WriteOutput_greedy twoLabelNet = some ([[1, 0]], 1) ∧
    ¬ ∃ (net : Network ℚ (List Nat)) (out : List (List ℚ) × Nat),
        net.numFrames = 1 ∧ WriteOutput_greedy net = some out ∧ 1 < out.2 := by
  refine ⟨by decide!, by decide!, ?_⟩
  rintro ⟨net, out, hn, h, hlt⟩
  have := (WriteOutput_greedy_count net out h).2.2
  rw [hn] at this
  simp at this
  omega

/-- Within the buffer: for a vocabulary that holds the blank, the joiner
queries of the greedy decoder have the arg-max ids `ids` of `argmaxTrace`
(one query for each frame, made with the decoder output for the labels
emitted before it), and when at least one and at most 2000 of them are not
the blank the output is the one-hot columns of exactly the non-blank ids,
in the order of the queries, with their number as the frame count. -/
theorem greedy_output_is_trace (net : Network α D) (h0 : 0 < net.vocabSize) :
    ∃ ids, argmaxTrace net (net.vocabSize - 1) (List.range net.numFrames) [] = some ids ∧
      (ids.filter (fun id => id ≠ net.vocabSize - 1) ≠ [] →
       (ids.filter (fun id => id ≠ net.vocabSize - 1)).length ≤ 2000 →
        WriteOutput_greedy net
          = some ((ids.filter (fun id => id ≠ net.vocabSize - 1)).map
                    (oneHotCol net.vocabSize),
                  (ids.filter (fun id => id ≠ net.vocabSize - 1)).length)) := by
  obtain ⟨ids, hids, hrun⟩ :=
    greedyFrames_trace net h0 (net.vocabSize - 1) (List.range net.numFrames) []
  refine ⟨ids, hids, ?_⟩
  intro hne hlen
  have hrun2 := hrun (by simpa using hlen)
  simp only [List.map_nil, List.length_nil, List.nil_append] at hrun2
  have hb : (oneHot net.vocabSize (net.vocabSize - 1) : Option (List α))
      = some (oneHotCol net.vocabSize (net.vocabSize - 1)) := by
    simp [oneHot, h0]
  unfold WriteOutput_greedy
  simp only [hb, hrun2, Option.some_bind]
  have hpos : (ids.filter (fun id => id ≠ net.vocabSize - 1)).length ≠ 0 := by
    intro h
    exact hne (List.length_eq_zero.mp h)
  rw [if_neg hpos]

/-- Scenario B of the specification: label `2` is highest at frame 0 and
the blank at frame 1; the queries give `[2, 4]` and the output is the single
column of label `2`. -/
theorem greedy_output_is_trace_witness :
    (0 < scenarioB.vocabSize ∧
     ∃ ids, argmaxTrace scenarioB (scenarioB.vocabSize - 1)
          (List.range scenarioB.numFrames) [] = some ids ∧
      (ids.filter (fun id => id ≠ scenarioB.vocabSize - 1) ≠ [] →
       (ids.filter (fun id => id ≠ scenarioB.vocabSize - 1)).length ≤ 2000 →
        WriteOutput_greedy scenarioB
          = some ((ids.filter (fun id => id ≠ scenarioB.vocabSize - 1)).map
                    (oneHotCol scenarioB.vocabSize),
                  (ids.filter (fun id => id ≠ scenarioB.vocabSize - 1)).length))) ∧
    argmaxTrace scenarioB 4 [0, 1] [] = some [2, 4] ∧
    WriteOutput_greedy scenarioB = some ([[0, 0, 1, 0, 0]], 1) :=
  ⟨⟨by decide, greedy_output_is_trace scenarioB (by decide)⟩, by decide!, by decide!⟩

/-- C8: for a vocabulary that holds the blank, an utterance whose arg-max is
the blank at every frame (an utterance without frames included) makes
`WriteOutput_greedy` write the single one-hot column of
`blankId = vocabSize - 1` with frame count 1; and whatever the utterance, the
output written has at least one column, as many as the frame count says. -/
theorem greedy_blank_placeholder (net : Network α D) (h0 : 0 < net.vocabSize) :
    ((∀ t < net.numFrames,
        VectorMax ((List.range net.vocabSize).map
          (net.joint t (net.decoder [net.vocabSize - 1]))) = some (net.vocabSize - 1)) →
      WriteOutput_greedy net
        = some ([oneHotCol net.vocabSize (net.vocabSize - 1)], 1)) ∧
    (∀ out, WriteOutput_greedy net = some out → 1 ≤ out.2 ∧ out.1.length = out.2) := by
  refine ⟨?_, fun out h => ⟨(WriteOutput_greedy_count net out h).1,
    (WriteOutput_greedy_count net out h).2.1⟩⟩
  intro hall
  have hb : (oneHot net.vocabSize (net.vocabSize - 1) : Option (List α))
      = some (oneHotCol net.vocabSize (net.vocabSize - 1)) := by
    simp [oneHot, h0]
  have hrun := greedyFrames_all_blank net (net.vocabSize - 1)
    { fed := [net.vocabSize - 1], greedyOutputMax := [], lmt := 0 }
    (List.range net.numFrames) (fun t ht => hall t (List.mem_range.mp ht))
  unfold WriteOutput_greedy
  simp only [hb, hrun, Option.some_bind]
  simp

/-- C8, scenario A of the specification: three frames, `vocabSize = 5`, the
blank `4` always highest; the output is the one-hot column of `4` with frame
count 1. -/
theorem greedy_blank_placeholder_witness :
    0 < scenarioA.vocabSize ∧
    (∀ t < scenarioA.numFrames,
        VectorMax ((List.range scenarioA.vocabSize).map
          (scenarioA.joint t (scenarioA.decoder [scenarioA.vocabSize - 1])))
        = some (scenarioA.vocabSize - 1)) ∧
    WriteOutput_greedy scenarioA = some ([[0, 0, 0, 0, 1]], 1) :=
  ⟨by decide, by decide!,
   ((greedy_blank_placeholder scenarioA (by decide)).1 (by decide!)).trans (by decide!)⟩

end Greedy

section GreedyVsBeam
variable {α D : Type} [LinearOrderedField α]

theorem prune_singleton (s : Sequence α D) (beamSize : Nat) (h : 1 ≤ beamSize) :
    prune [s] beamSize = [s] := by
  rw [prune_eq_take]
  simp only [sort, List.insertionSort, List.orderedInsert, List.reverse_singleton]
  exact List.take_of_length_le (by simpa using h)

theorem singleton_pass (net : Network α D) (beamSize blankId t : Nat) (s : Sequence α D)
    (h0 : 0 < net.vocabSize) (hs : Coherent net s) :
    ∃ c stop,
      VectorMax ((List.range net.vocabSize).map (net.joint t (net.decoder s.labelseq)))
        = some c.1 ∧
      stopTest beamSize (expandCandidate net blankId (refresh net s)
          { CurSequences := [], nextSequences := [] } c) = some stop ∧
      expandBody net beamSize 1 blankId t { CurSequences := [s], nextSequences := [] }
        = some (expandCandidate net blankId (refresh net s)
            { CurSequences := [], nextSequences := [] } c, stop) := by
  obtain ⟨i, maxSeq, c, stop, hi, hlt, hget, hvm, hstop, hbody⟩ :=
    expandBody_one net beamSize blankId t { CurSequences := [s], nextSequences := [] } h0
      ⟨by simpa using hs, by simp⟩ (by simp)
  have hi0 : i = 0 := by
    simp only [List.length_singleton] at hlt
    omega
  subst hi0
  simp only [List.get?_cons_zero, Option.some.injEq] at hget
  subst hget
  exact ⟨c, stop, hvm, hstop, hbody⟩

theorem singleton_blank_pass (net : Network α D) (beamSize blankId t : Nat) (s : Sequence α D)
    (h0 : 0 < net.vocabSize) (hs : Coherent net s)
    (hvm : VectorMax ((List.range net.vocabSize).map (net.joint t (net.decoder s.labelseq)))
        = some blankId) :
    ∃ s1, expandBody net beamSize 1 blankId t { CurSequences := [s], nextSequences := [] }
        = some ({ CurSequences := [], nextSequences := [s1] }, true) ∧
      s1.labelseq = s.labelseq ∧ Coherent net s1 := by
  obtain ⟨c, stop, hc, hstop, hbody⟩ := singleton_pass net beamSize blankId t s h0 hs
  rw [hvm] at hc
  injection hc with hc
  have hst : expandCandidate net blankId (refresh net s)
      { CurSequences := [], nextSequences := [] } c
      = { CurSequences := []
          nextSequences := [{ newSeqCopy (refresh net s) with
                                logP := c.2 + (refresh net s).logP }] } := by
    unfold expandCandidate
    simp [← hc, mergeBlank]
  rw [hst] at hstop hbody
  have hstop2 : stop = true := by
    simp [stopTest] at hstop
    exact hstop
  subst hstop2
  exact ⟨_, hbody, rfl, Coherent_logP net _ _ (Coherent_refresh net s hs)⟩

theorem singleton_label_pass (net : Network α D) (beamSize blankId t id : Nat)
    (s : Sequence α D) (h0 : 0 < net.vocabSize) (hs : Coherent net s)
    (hvm : VectorMax ((List.range net.vocabSize).map (net.joint t (net.decoder s.labelseq)))
        = some id)
    (hid : id ≠ blankId) :
    ∃ ext, expandBody net beamSize 1 blankId t { CurSequences := [s], nextSequences := [] }
        = some ({ CurSequences := [ext], nextSequences := [] }, false) ∧
      ext.labelseq = s.labelseq ++ [id] ∧ Coherent net ext := by
  obtain ⟨c, stop, hc, hstop, hbody⟩ := singleton_pass net beamSize blankId t s h0 hs
  rw [hvm] at hc
  injection hc with hc
  have hcb : c.1 ≠ blankId := by rw [← hc]; exact hid
  have hlt : id < net.vocabSize := by
    have := VectorMax_lt _ _ hvm
    simpa using this
  rw [expandCandidate_label net blankId _ _ c hcb] at hstop hbody
  simp only [List.nil_append] at hstop hbody
  have hstop2 : stop = false := by
    simp [stopTest] at hstop
    exact hstop
  subst hstop2
  refine ⟨_, hbody, by simp [extendSeq, newSeqCopy, refresh, hc], ?_⟩
  apply Coherent_extendSeq net _ c.1 _ (Coherent_logP net _ _ (Coherent_refresh net s hs)) rfl
  rw [← hc]
  exact hlt

theorem beamFrame_blank (net : Network α D) (blankId t fuel : Nat) (s : Sequence α D)
    (h0 : 0 < net.vocabSize) (hs : Coherent net s) (hfuel : 1 ≤ fuel)
    (hvm : VectorMax ((List.range net.vocabSize).map (net.joint t (net.decoder s.labelseq)))
        = some blankId) :
    ∃ s1, beamFrame net 1 1 blankId fuel [s] t = Run.done [s1] ∧
      s1.labelseq = s.labelseq ∧ Coherent net s1 := by
  obtain ⟨s1, hbody, hl, hc⟩ := singleton_blank_pass net 1 blankId t s h0 hs hvm
  refine ⟨s1, ?_, hl, hc⟩
  obtain ⟨n, rfl⟩ : ∃ n, fuel = n + 1 := ⟨fuel - 1, by omega⟩
  unfold beamFrame expandLoop
  rw [hbody]
  simp only
  rw [prune_singleton s1 1 (le_refl _)]

theorem beamFrame_label (net : Network α D) (blankId t fuel id : Nat) (s : Sequence α D)
    (h0 : 0 < net.vocabSize) (hs : Coherent net s) (hfuel : 2 ≤ fuel)
    (hvm : VectorMax ((List.range net.vocabSize).map (net.joint t (net.decoder s.labelseq)))
        = some id)
    (hid : id ≠ blankId)
    (hnext : VectorMax ((List.range net.vocabSize).map
        (net.joint t (net.decoder (s.labelseq ++ [id])))) = some blankId) :
    ∃ s1, beamFrame net 1 1 blankId fuel [s] t = Run.done [s1] ∧
      s1.labelseq = s.labelseq ++ [id] ∧ Coherent net s1 := by
  obtain ⟨ext, hbody, hl, hc⟩ := singleton_label_pass net 1 blankId t id s h0 hs hvm hid
  rw [← hl] at hnext
  obtain ⟨s1, hbody1, hl1, hc1⟩ := singleton_blank_pass net 1 blankId t ext h0 hc hnext
  refine ⟨s1, ?_, by rw [hl1, hl], hc1⟩
  obtain ⟨n, rfl⟩ : ∃ n, fuel = n + 2 := ⟨fuel - 2, by omega⟩
  unfold beamFrame expandLoop
  rw [hbody]
  simp only
  unfold expandLoop
  rw [hbody1]
  simp only
  rw [prune_singleton s1 1 (le_refl _)]

theorem greedy_beam_frames (net : Network α D) (blankId fuel : Nat)
    (h0 : 0 < net.vocabSize) (hfuel : 2 ≤ fuel)
    (hcond : ∀ (t : Nat) (h : List Nat) (id : Nat),
      VectorMax ((List.range net.vocabSize).map (net.joint t (net.decoder h))) = some id →
      id ≠ blankId →
      VectorMax ((List.range net.vocabSize).map (net.joint t (net.decoder (h ++ [id]))))
        = some blankId) :
    ∀ (ts : List Nat) (em : List Nat) (s : Sequence α D), Coherent net s →
      s.labelseq = blankId :: em → em.length + ts.length ≤ 2000 →
      ∃ em1 s1,
        greedyFrames net blankId ts
            { fed := blankId :: em
              greedyOutputMax := em.map (oneHotCol net.vocabSize)
              lmt := em.length }
          = some { fed := blankId :: em1
                   greedyOutputMax := em1.map (oneHotCol net.vocabSize)
                   lmt := em1.length } ∧
        beamFrames net 1 1 blankId fuel ts [s] = Run.done [s1] ∧
        s1.labelseq = blankId :: em1 ∧ Coherent net s1 := by
  intro ts
  induction ts with
  | nil => intro em s hs hl _; exact ⟨em, s, rfl, rfl, hl, hs⟩
  | cons t ts ih =>
    intro em s hs hl hlen
    simp only [List.length_cons] at hlen
    obtain ⟨id, hid⟩ := VectorMax_isSome _
      (jointVector_ne_nil net h0 t (net.decoder (blankId :: em)))
    have hlt : id < net.vocabSize := by
      have := VectorMax_lt _ _ hid
      simpa using this
    by_cases hb : id = blankId
    · rw [hb, ← hl] at hid
      obtain ⟨s1, hf, hl1, hc1⟩ := beamFrame_blank net blankId t fuel s h0 hs (by omega) hid
      obtain ⟨em1, s2, hg, hbm, hl2, hc2⟩ := ih em s1 hc1 (by rw [hl1, hl]) (by omega)
      refine ⟨em1, s2, ?_, ?_, hl2, hc2⟩
      · have hgf : greedyFrame net blankId
            { fed := blankId :: em
              greedyOutputMax := em.map (oneHotCol net.vocabSize)
              lmt := em.length } t
            = some { fed := blankId :: em
                     greedyOutputMax := em.map (oneHotCol net.vocabSize)
                     lmt := em.length } := by
          rw [hl] at hid
          simp [greedyFrame, hid]
        simp only [greedyFrames, hgf, Option.some_bind]
        exact hg
      · unfold beamFrames
        rw [hf]
        exact hbm
    · have hnext := hcond t (blankId :: em) id hid hb
      rw [← hl] at hid hnext
      obtain ⟨s1, hf, hl1, hc1⟩ :=
        beamFrame_label net blankId t fuel id s h0 hs hfuel hid hb hnext
      obtain ⟨em1, s2, hg, hbm, hl2, hc2⟩ := ih (em ++ [id]) s1 hc1
        (by rw [hl1, hl]; rfl) (by simp; omega)
      refine ⟨em1, s2, ?_, ?_, hl2, hc2⟩
      · have hgf : greedyFrame net blankId
            { fed := blankId :: em
              greedyOutputMax := em.map (oneHotCol net.vocabSize)
              lmt := em.length } t
            = some { fed := blankId :: (em ++ [id])
                     greedyOutputMax := (em ++ [id]).map (oneHotCol net.vocabSize)
                     lmt := (em ++ [id]).length } := by
          rw [hl] at hid
          have h2000 : em.length < 2000 := by omega
          simp [greedyFrame, hid, hb, oneHot, hlt, h2000]
        simp only [greedyFrames, hgf, Option.some_bind]
        exact hg
      · unfold beamFrames
        rw [hf]
        exact hbm

theorem map_tail_getD (f : Nat → List α) (b : Nat) :
    ∀ (em : List Nat),
      (List.range em.length).map (fun n => f ((b :: em).getD (n + 1) 0)) = em.map f := by
  intro em
  apply List.ext_getElem
  · simp
  · intro n h1 h2
    simp only [List.length_map, List.length_range] at h1
    simp [List.getD_eq_getElem?_getD, List.getElem?_eq_getElem h1]

/-- With the arrangement of `nth_element`: when the utterance has at most
2000 frames and the joiner's arg-max is the blank whenever the same frame
is queried again right after a label was emitted (so that the beam decoder,
too, emits at most one label per frame), `WriteOutput_greedy` and
`WriteOutput_beam` with `beamSize = 1` and `expandBeam = 1` write the same
output, two passes of the expansion loop being enough in every frame. -/
theorem greedy_eq_beam_one_label_per_frame (net : Network α D) (fuel : Nat)
    (h0 : 0 < net.vocabSize) (hT : net.numFrames ≤ 2000) (hfuel : 2 ≤ fuel)
    (hcond : ∀ (t : Nat) (h : List Nat) (id : Nat),
      VectorMax ((List.range net.vocabSize).map (net.joint t (net.decoder h))) = some id →
      id ≠ net.vocabSize - 1 →
      VectorMax ((List.range net.vocabSize).map (net.joint t (net.decoder (h ++ [id]))))
        = some (net.vocabSize - 1)) :
    ∃ out, WriteOutput_greedy net = some out ∧
      WriteOutput_beam net 1 1 fuel = Run.done out := by
  have hinit : Coherent net (extendSeq (newSeq net) (net.vocabSize - 1) 0) :=
    beamInit_coherent net h0 _ (by simp [beamInit])
  obtain ⟨em1, s1, hg, hbm, hl1, hc1⟩ :=
    greedy_beam_frames net (net.vocabSize - 1) fuel h0 hfuel hcond
      (List.range net.numFrames) [] _ hinit (by simp [extendSeq, newSeq])
      (by simpa using hT)
  have hb : (oneHot net.vocabSize (net.vocabSize - 1) : Option (List α))
      = some (oneHotCol net.vocabSize (net.vocabSize - 1)) := by
    simp [oneHot, h0]
  have hlen : s1.length = em1.length + 1 := by
    rw [hc1.1.2.2, hl1]
    rfl
  have hcols := setColumns_spec (α := α) net.vocabSize s1.labelseq hc1.1.2.1
    (List.range em1.length)
    (by intro n hn; have := List.mem_range.mp hn; rw [hl1]; simp; omega)
  rw [hl1, map_tail_getD] at hcols
  have hwb : writeBest net.vocabSize (net.vocabSize - 1)
      ({ s1 with logP := s1.logP / ((s1.labelseq.length - 1 : Nat) : α) })
      = some (if em1.length = 0 then ([oneHotCol net.vocabSize (net.vocabSize - 1)], 1)
              else (em1.map (oneHotCol net.vocabSize), em1.length)) := by
    unfold writeBest
    simp only [hlen, Nat.add_sub_cancel, hl1, hcols, Option.some_bind, hb, Option.map_some']
    rw [if_neg (by omega)]
    split <;> rfl
  refine ⟨if em1.length = 0 then ([oneHotCol net.vocabSize (net.vocabSize - 1)], 1)
      else (em1.map (oneHotCol net.vocabSize), em1.length), ?_, ?_⟩
  · unfold WriteOutput_greedy
    simp only [hb, Option.some_bind]
    simp only [List.map_nil, List.length_nil] at hg
    rw [hg]
    simp only [Option.some_bind]
    split <;> rfl
  · unfold WriteOutput_beam
    simp only [beamInit, hbm, normalize, List.map_cons, List.map_nil, max_element,
      max_elementLoop, Option.some_bind, List.get?_cons_zero, hwb]


theorem stepNet_cond : ∀ (t : Nat) (h : List Nat) (id : Nat),
      VectorMax ((List.range stepNet.vocabSize).map (stepNet.joint t (stepNet.decoder h)))
        = some id →
      id ≠ stepNet.vocabSize - 1 →
      VectorMax ((List.range stepNet.vocabSize).map
          (stepNet.joint t (stepNet.decoder (h ++ [id]))))
        = some (stepNet.vocabSize - 1) := by
  intro t h id hv hid
  by_cases hh : h.length = t + 1
  · have h2 : ¬ (h ++ [id]).length = t + 1 := by
      simp only [List.length_append, List.length_singleton]; omega
    simp only [stepNet, h2, if_false]
    decide!
  · simp only [stepNet, hh, if_false] at hv
    have h3 : VectorMax ((List.range 2).map (fun r => if r = 0 then (-2 : ℚ) else -1))
        = some 1 := by decide!
    rw [h3] at hv
    injection hv with hv
    exact absurd hv.symm hid

/-- The run on `stepNet`, which emits label `0` once in each of its two
frames: both decoders write the columns of `[0, 0]`. -/
theorem greedy_eq_beam_one_label_per_frame_witness :
    (WriteOutput_greedy stepNet = some ([[1, 0], [1, 0]], 2) ∧
     WriteOutput_beam stepNet 1 1 2 = Run.done ([[1, 0], [1, 0]], 2)) ∧
    ∃ out, WriteOutput_greedy stepNet = some out ∧
      WriteOutput_beam stepNet 1 1 2 = Run.done out :=
  ⟨by decide!,
   greedy_eq_beam_one_label_per_frame stepNet 2 (by decide) (by decide) (by decide)
     stepNet_cond⟩

end GreedyVsBeam

section GreedyBuffer
variable {α D : Type} [LinearOrderedField α]

theorem greedyFrames_append (net : Network α D) (blankId : Nat) :
    ∀ (ts us : List Nat) (st : GreedyState α),
      greedyFrames net blankId (ts ++ us) st
        = (greedyFrames net blankId ts st).bind (greedyFrames net blankId us) := by
  intro ts
  induction ts with
  | nil => intro us st; rfl
  | cons t ts ih =>
    intro us st
    simp only [List.cons_append, greedyFrames]
    cases greedyFrame net blankId st t with
    | none => rfl
    | some st1 => simp only [Option.some_bind]; exact ih us st1

theorem greedyFrames_all_label (net : Network α D) (blankId id : Nat)
    (hid : id ≠ blankId) (hlt : id < net.vocabSize)
    (hvm : ∀ (t : Nat) (fed : List Nat),
      VectorMax ((List.range net.vocabSize).map (net.joint t (net.decoder fed))) = some id) :
    ∀ (ts : List Nat) (st : GreedyState α), st.lmt + ts.length ≤ 2000 →
      greedyFrames net blankId ts st
        = some { fed := st.fed ++ List.replicate ts.length id
                 greedyOutputMax := st.greedyOutputMax
                   ++ List.replicate ts.length (oneHotCol net.vocabSize id)
                 lmt := st.lmt + ts.length } := by
  intro ts
  induction ts with
  | nil => intro st _; simp [greedyFrames]
  | cons t ts ih =>
    intro st hlen
    simp only [List.length_cons] at hlen
    have h2000 : st.lmt < 2000 := by omega
    have hf : greedyFrame net blankId st t
        = some { fed := st.fed ++ [id]
                 greedyOutputMax := st.greedyOutputMax ++ [oneHotCol net.vocabSize id]
                 lmt := st.lmt + 1 } := by
      simp [greedyFrame, hvm, hid, oneHot, hlt, h2000]
    simp only [greedyFrames, hf, Option.some_bind]
    rw [ih _ (by simp only; omega)]
    simp only [List.length_cons, List.replicate_succ, List.append_assoc, List.singleton_append,
      Option.some.injEq, GreedyState.mk.injEq, true_and]
    omega

theorem greedyFrame_overflow (net : Network α D) (blankId id : Nat)
    (hid : id ≠ blankId)
    (hvm : ∀ (t : Nat) (fed : List Nat),
      VectorMax ((List.range net.vocabSize).map (net.joint t (net.decoder fed))) = some id)
    (st : GreedyState α) (t : Nat) (h : 2000 ≤ st.lmt) :
    greedyFrame net blankId st t = none := by
  have h2 : ¬ st.lmt < 2000 := by omega
  simp [greedyFrame, hvm, hid, oneHot, h2]

theorem longChattyNet_argmax (t : Nat) (fed : List Nat) :
    VectorMax ((List.range longChattyNet.vocabSize).map
        (longChattyNet.joint t (longChattyNet.decoder fed))) = some 0 := by
  simp only [longChattyNet]
  decide!

/-- C11 at the failing input `longChattyNet`, 2001 frames with a non-blank
arg-max at each: after frames `0 .. 1999` the counter `lmt` is 2000, frame
2000 again has the non-blank arg-max `0`, and the write of column `lmt` that
follows is outside the 2000-column buffer. -/
theorem greedy_writes_column_2000 :
    ∃ st : GreedyState ℚ,
      greedyFrames longChattyNet 1 (List.range 2000)
          { fed := [1], greedyOutputMax := [], lmt := 0 } = some st ∧
      st.lmt = 2000 ∧
      VectorMax ((List.range longChattyNet.vocabSize).map
          (longChattyNet.joint 2000 (longChattyNet.decoder st.fed))) = some 0 ∧
      greedyFrame longChattyNet 1 st 2000 = none ∧
      WriteOutput_greedy longChattyNet = none := by
  have hlen : (List.range 2000).length = 2000 := List.length_range 2000
  have hrun := greedyFrames_all_label longChattyNet 1 0 (by decide) (by decide)
    longChattyNet_argmax (List.range 2000)
    { fed := [1], greedyOutputMax := [], lmt := 0 } (by rw [hlen])
  rw [hlen] at hrun
  have hstep := greedyFrame_overflow longChattyNet 1 0 (by decide)
    longChattyNet_argmax
    { fed := [1] ++ List.replicate 2000 0
      greedyOutputMax := [] ++ List.replicate 2000 (oneHotCol longChattyNet.vocabSize 0)
      lmt := 0 + 2000 } 2000 (Nat.le_add_left 2000 0)
  refine ⟨_, hrun, Nat.zero_add 2000, longChattyNet_argmax _ _, hstep, ?_⟩
  have hr : List.range longChattyNet.numFrames = List.range 2000 ++ [2000] :=
    List.range_succ 2000
  have hv : longChattyNet.vocabSize - 1 = 1 := by decide
  have hb : (oneHot longChattyNet.vocabSize 1 : Option (List ℚ))
      = some (oneHotCol longChattyNet.vocabSize 1) := by decide!
  unfold WriteOutput_greedy
  rw [hr, hv]
  dsimp only
  rw [hb, Option.some_bind, greedyFrames_append, hrun, Option.some_bind]
  unfold greedyFrames
  rw [hstep]
  rfl

end GreedyBuffer

section BeamSteps
variable {α D : Type} [LinearOrderedField α]

/-- C12, as the code has it: at the start of an utterance, whatever
`nextSequences` held before, the active set is exactly one hypothesis; its
`labelseq` is `[blankId]`, the leading blank marker with no real label after
it, its counters are 1, nothing of it has been fed to the decoder, and its
score is 0. -/
theorem startUtterance_single (net : Network α D) (blankId : Nat)
    (previous : List (Sequence α D)) :
    startUtterance net blankId previous = beamInit net blankId ∧
    startUtterance net blankId previous
      = [{ labelseq := [blankId], logP := 0, length := 1, processlength := 0,
           lengthwithblank := 1, decodeoutput := net.fresh }] := by
  constructor
  · simp only [startUtterance, clear, beamInit, List.nil_append]
  · simp only [startUtterance, clear, extendSeq, newSeq, List.nil_append, zero_add]

/-- C12 as stated fails: on `demoNet`, whose blank is `1`, the hypothesis an
utterance starts with has the labels `[1]`, not the empty sequence. -/
theorem startUtterance_labels_counterexample :
    (startUtterance demoNet (demoNet.vocabSize - 1)
        [⟨[1, 0], -3, 2, 2, 2, [1, 0]⟩]).map (fun s => s.labelseq) = [[1]] ∧
    (startUtterance demoNet (demoNet.vocabSize - 1)
        [⟨[1, 0], -3, 2, 2, 2, [1, 0]⟩]).map (fun s => s.labelseq) ≠ [[]] := by
  constructor
  · decide
  · decide

/-- C13 at the failing input `scenarioA` (the blank is highest at every
frame), decoded with `beamSize = expandBeam = 1`: the only survivor of the
frames has the labels `[4]`, so the divisor `labelseq.size() - 1` of the
normalisation is 0. -/
theorem normalize_divides_by_zero :
    beamFrames scenarioA 1 1 (scenarioA.vocabSize - 1) 2 (List.range scenarioA.numFrames)
        (beamInit scenarioA (scenarioA.vocabSize - 1))
      = Run.done [⟨[4], 0, 1, 1, 1, [4]⟩] ∧
    (([⟨[4], 0, 1, 1, 1, [4]⟩] : List (Sequence ℚ (List Nat))).map
        (fun s => s.labelseq.length - 1)) = [0] := by
  constructor
  · decide!
  · decide

theorem nth_element_sorted (dp r : List (Nat × α)) (N : Nat)
    (h : nth_element dp N = some r) :
    ∀ c ∈ r.take N, ∀ d ∈ r.drop N, d.2 ≤ c.2 := by
  unfold nth_element at h
  split at h
  · simp at h
  · split at h
    · rename_i hN
      injection h with h
      subst h
      intro c _ d hd
      rw [hN, List.drop_length] at hd
      simp at hd
    · injection h with h
      subst h
      haveI : IsTotal (Nat × α) (fun x y => y.2 ≤ x.2) := ⟨fun a b => le_total b.2 a.2⟩
      haveI : IsTrans (Nat × α) (fun x y => y.2 ≤ x.2) :=
        ⟨fun a b c hab hbc => le_trans hbc hab⟩
      have hs : (dp.insertionSort (fun x y => y.2 ≤ x.2)).Pairwise (fun x y => y.2 ≤ x.2) :=
        List.sorted_insertionSort _ dp
      rw [← List.take_append_drop N (dp.insertionSort (fun x y => y.2 ≤ x.2))] at hs
      exact (List.pairwise_append.mp hs).2.2

theorem enum_fst_nodup (prob : List α) : (prob.enum.map Prod.fst).Nodup := by
  rw [List.enum_map_fst]
  exact List.nodup_range _

theorem mem_enum_get (prob : List α) (c : Nat × α) (h : c ∈ prob.enum) :
    prob.get? c.1 = some c.2 := by
  obtain ⟨i, x⟩ := c
  have := List.mk_mem_enum_iff_getElem?.mp h
  simpa [List.get?_eq_getElem?] using this

/-- C17: for a vector `prob` of `V` entries and `N <= V`, `getTopN` returns
a rearrangement of the pairs `(i, prob[i])`, `i < V`; its first `N` pairs
carry `N` pairwise distinct ids, every pair holds the value of its own id,
and none of the first `N` values is below the value of a later pair. -/
theorem getTopN_top (prob : List α) (N : Nat) (h : N ≤ prob.length) :
    ∃ topN, getTopN prob N = some topN ∧
      topN.Perm prob.enum ∧
      (topN.take N).length = N ∧
      ((topN.take N).map Prod.fst).Nodup ∧
      (∀ c ∈ topN, c.1 < prob.length ∧ prob.get? c.1 = some c.2) ∧
      (∀ c ∈ topN.take N, ∀ d ∈ topN.drop N, d.2 ≤ c.2) := by
  obtain ⟨topN, htop⟩ := getTopN_isSome prob N h
  have hperm := (nth_element_perm _ _ _ htop).1
  obtain ⟨_, hlen, hlt⟩ := getTopN_spec prob N topN htop
  refine ⟨topN, htop, hperm, ?_, ?_, ?_, nth_element_sorted _ _ _ htop⟩
  · rw [List.length_take, hlen]
    exact Nat.min_eq_left h
  · have hn : (topN.map Prod.fst).Nodup :=
      (hperm.map Prod.fst).nodup_iff.mpr (enum_fst_nodup prob)
    exact List.Nodup.sublist ((List.take_sublist _ _).map _) hn
  · intro c hc
    exact ⟨hlt c hc, mem_enum_get prob c (hperm.mem_iff.mp hc)⟩

/-- C17 on a vector of four values with `N = 2`: the ids `1` and `3` of the
two greatest values come first. -/
theorem getTopN_top_witness :
    getTopN [(-3 : ℚ), -1, -4, -2] 2 = some [(1, -1), (3, -2), (0, -3), (2, -4)] ∧
    ∃ topN, getTopN [(-3 : ℚ), -1, -4, -2] 2 = some topN ∧
      topN.Perm [(-3 : ℚ), -1, -4, -2].enum ∧
      (topN.take 2).length = 2 ∧
      ((topN.take 2).map Prod.fst).Nodup ∧
      (∀ c ∈ topN, c.1 < [(-3 : ℚ), -1, -4, -2].length ∧
        [(-3 : ℚ), -1, -4, -2].get? c.1 = some c.2) ∧
      (∀ c ∈ topN.take 2, ∀ d ∈ topN.drop 2, d.2 ≤ c.2) :=
  ⟨by decide!, getTopN_top [(-3 : ℚ), -1, -4, -2] 2 (by decide)⟩

theorem expandCandidate_cases (net : Network α D) (blankId : Nat)
    (tempSeq : Sequence α D) (s : BeamState α D) (c : Nat × α) :
    (c.1 ≠ blankId →
      ∃ x, expandCandidate net blankId tempSeq s c
          = { CurSequences := s.CurSequences ++ [x], nextSequences := s.nextSequences } ∧
        x.labelseq = tempSeq.labelseq ++ [c.1] ∧ x.logP = tempSeq.logP + c.2 ∧
        x.length = tempSeq.length + 1) ∧
    (c.1 = blankId →
      (expandCandidate net blankId tempSeq s c).CurSequences = s.CurSequences ∧
      ∃ seqK, seqK.labelseq = tempSeq.labelseq ∧ seqK.logP = tempSeq.logP + c.2 ∧
        ((expandCandidate net blankId tempSeq s c).nextSequences = s.nextSequences ++ [seqK] ∨
         mergeBlank net.LogAdd seqK s.nextSequences
           = some (expandCandidate net blankId tempSeq s c).nextSequences)) := by
  constructor
  · intro hc
    refine ⟨_, expandCandidate_label net blankId tempSeq s c hc, ?_, ?_, ?_⟩
    · simp [extendSeq, newSeqCopy]
    · simp [extendSeq, add_comm]
    · simp [extendSeq, newSeqCopy]
  · intro hc
    refine ⟨(expandCandidate_blank net blankId tempSeq s c hc).1,
      { newSeqCopy tempSeq with logP := c.2 + tempSeq.logP }, rfl, add_comm _ _, ?_⟩
    unfold expandCandidate
    simp only [hc, if_true]
    split
    · rename_i merged hm
      exact Or.inr hm
    · exact Or.inl rfl

/-- C16: in a pass of the expansion loop the popped hypothesis `h` is
scored and exactly `expandBeam` candidates `(id, logp)` are processed in
turn.  A candidate that is not the blank appends exactly one hypothesis to
`CurSequences`, with the labels of `h` followed by `id`, the score of `h`
plus `logp` and one label more, and leaves `nextSequences` alone; a blank
candidate leaves `CurSequences` alone and its hypothesis for `nextSequences`
(appended, or merged into the one of equal labels) has the labels of `h`
and the score of `h` plus `logp`. -/
theorem expandBody_candidates (net : Network α D) (beamSize expandBeam blankId t : Nat)
    (st st1 : BeamState α D) (stop : Bool)
    (hb : expandBody net beamSize expandBeam blankId t st = some (st1, stop)) :
    ∃ i h topN,
      max_element st.CurSequences = some i ∧ st.CurSequences.get? i = some h ∧
      (topN.take expandBeam).length = expandBeam ∧
      ∃ tempSeq, tempSeq.labelseq = h.labelseq ∧ tempSeq.logP = h.logP ∧
        tempSeq.length = h.length ∧
        getTopN (forwardmerged net tempSeq t) expandBeam = some topN ∧
        st1 = (topN.take expandBeam).foldl (expandCandidate net blankId tempSeq)
          { CurSequences := st.CurSequences.eraseIdx i, nextSequences := st.nextSequences } ∧
        ∀ (s : BeamState α D) (c : Nat × α),
          (c.1 ≠ blankId →
            ∃ x, expandCandidate net blankId tempSeq s c
                = { CurSequences := s.CurSequences ++ [x]
                    nextSequences := s.nextSequences } ∧
              x.labelseq = h.labelseq ++ [c.1] ∧ x.logP = h.logP + c.2 ∧
              x.length = h.length + 1) ∧
          (c.1 = blankId →
            (expandCandidate net blankId tempSeq s c).CurSequences = s.CurSequences ∧
            ∃ seqK, seqK.labelseq = h.labelseq ∧ seqK.logP = h.logP + c.2 ∧
              ((expandCandidate net blankId tempSeq s c).nextSequences
                  = s.nextSequences ++ [seqK] ∨
               mergeBlank net.LogAdd seqK s.nextSequences
                 = some (expandCandidate net blankId tempSeq s c).nextSequences)) := by
  unfold expandBody at hb
  simp only [Option.bind_eq_some, Option.map_eq_some'] at hb
  obtain ⟨i, hi, maxSeq, hget, fd, hfd, topN, htop, b, _, hst⟩ := hb
  injection hst with hst _
  obtain ⟨f1, f2, f3, _⟩ := forward_decode_fields net _ _ _ fd hfd
  obtain ⟨hN, hlen, _⟩ := getTopN_spec _ _ _ htop
  refine ⟨i, maxSeq, topN, hi, hget, ?_, fd.1, f1, f2, f3, htop, hst.symm, ?_⟩
  · rw [List.length_take, hlen]
    exact Nat.min_eq_left hN
  · intro s c
    have hf1 : fd.1.labelseq = maxSeq.labelseq := f1
    have hf2 : fd.1.logP = maxSeq.logP := f2
    have hf3 : fd.1.length = maxSeq.length := f3
    rw [← hf1, ← hf2, ← hf3]
    exact expandCandidate_cases net blankId fd.1 s c

/-- C16 on a pass of frame 1 of `demoNet`: the popped hypothesis `[1]` of
score `-1` gives the blank candidate `[1]` of score `-2` and the extension
`[1, 0]` of score `-3`. -/
theorem expandBody_candidates_witness :
    expandBody demoNet 2 2 1 1
        { CurSequences := [⟨[1], -1, 1, 1, 1, [1]⟩, ⟨[1, 0], -3, 2, 2, 2, [1, 0]⟩]
          nextSequences := [] }
      = some ({ CurSequences := [⟨[1, 0], -3, 2, 2, 2, [1, 0]⟩, ⟨[1, 0], -3, 2, 1, 2, [1]⟩]
                nextSequences := [⟨[1], -2, 1, 1, 1, [1]⟩] }, false) ∧
    ∃ i h topN,
      max_element ([⟨[1], -1, 1, 1, 1, [1]⟩, ⟨[1, 0], -3, 2, 2, 2, [1, 0]⟩] :
        List (Sequence ℚ (List Nat))) = some i ∧
      ([⟨[1], -1, 1, 1, 1, [1]⟩, ⟨[1, 0], -3, 2, 2, 2, [1, 0]⟩] :
        List (Sequence ℚ (List Nat))).get? i = some h ∧
      (List.take 2 topN).length = 2 ∧
      ∃ tempSeq : Sequence ℚ (List Nat), tempSeq.labelseq = h.labelseq ∧
        getTopN (forwardmerged demoNet tempSeq 1) 2 = some topN :=
  ⟨by decide!, by
    obtain ⟨i, h, topN, h1, h2, h3, tempSeq, h4, _, _, h5, _⟩ :=
      expandBody_candidates demoNet 2 2 1 1
        { CurSequences := [⟨[1], -1, 1, 1, 1, [1]⟩, ⟨[1, 0], -3, 2, 2, 2, [1, 0]⟩]
          nextSequences := [] }
        { CurSequences := [⟨[1, 0], -3, 2, 2, 2, [1, 0]⟩, ⟨[1, 0], -3, 2, 1, 2, [1]⟩]
          nextSequences := [⟨[1], -2, 1, 1, 1, [1]⟩] } false (by decide!)
    exact ⟨i, h, topN, h1, h2, h3, tempSeq, h4, h5⟩⟩

end BeamSteps

section Reached
variable {α D : Type} [LinearOrderedField α]

theorem expandCandidate_keeps (net : Network α D) (P : Sequence α D → Prop) (blankId : Nat)
    (hlogP : ∀ s x, P s → P { s with logP := x })
    (hext : ∀ s id x, P s → s.processlength = s.labelseq.length → id < net.vocabSize →
      id ≠ blankId → P (extendSeq s id x))
    (tempSeq : Sequence α D) (st : BeamState α D) (c : Nat × α)
    (ht : P tempSeq) (hpl : tempSeq.processlength = tempSeq.labelseq.length)
    (hc : c.1 < net.vocabSize) (h : AllSeq P st) :
    AllSeq P (expandCandidate net blankId tempSeq st c) := by
  obtain ⟨hcur, hnext⟩ := h
  have hK : P { newSeqCopy tempSeq with logP := c.2 + tempSeq.logP } :=
    hlogP tempSeq _ ht
  by_cases hb : c.1 = blankId
  · unfold expandCandidate
    simp only [hb, if_true]
    split
    · rename_i merged hm
      refine ⟨hcur, ?_⟩
      intro s hs
      rcases mergeBlank_mem _ _ _ _ hm s hs with h1 | ⟨s0, hs0, x, h1⟩
      · exact hnext s h1
      · rw [h1]
        exact hlogP s0 x (hnext s0 hs0)
    · refine ⟨hcur, ?_⟩
      intro s hs
      rcases List.mem_append.mp hs with h1 | h1
      · exact hnext s h1
      · simp only [List.mem_singleton] at h1
        rw [h1]
        exact hK
  · rw [expandCandidate_label net blankId tempSeq st c hb]
    refine ⟨?_, hnext⟩
    intro s hs
    rcases List.mem_append.mp hs with h1 | h1
    · exact hcur s h1
    · simp only [List.mem_singleton] at h1
      rw [h1]
      exact hext _ c.1 _ hK hpl hc hb

theorem foldl_expandCandidate_keeps (net : Network α D) (P : Sequence α D → Prop)
    (blankId : Nat)
    (hlogP : ∀ s x, P s → P { s with logP := x })
    (hext : ∀ s id x, P s → s.processlength = s.labelseq.length → id < net.vocabSize →
      id ≠ blankId → P (extendSeq s id x))
    (tempSeq : Sequence α D) (ht : P tempSeq)
    (hpl : tempSeq.processlength = tempSeq.labelseq.length) :
    ∀ (cs : List (Nat × α)) (st : BeamState α D), (∀ c ∈ cs, c.1 < net.vocabSize) →
      AllSeq P st → AllSeq P (cs.foldl (expandCandidate net blankId tempSeq) st) := by
  intro cs
  induction cs with
  | nil => intro st _ h; exact h
  | cons c cs ih =>
    intro st hc h
    exact ih _ (fun c1 h1 => hc c1 (List.mem_cons_of_mem _ h1))
      (expandCandidate_keeps net P blankId hlogP hext tempSeq st c ht hpl
        (hc c (List.mem_cons_self _ _)) h)

theorem expandBody_keeps (net : Network α D) (P : Sequence α D → Prop) (blankId : Nat)
    (hlogP : ∀ s x, P s → P { s with logP := x })
    (hfd : ∀ s fd, P s →
      forward_decode net (newSeqCopy s) net.vocabSize s.labelseq.length = some fd → P fd.1)
    (hext : ∀ s id x, P s → s.processlength = s.labelseq.length → id < net.vocabSize →
      id ≠ blankId → P (extendSeq s id x))
    (beamSize expandBeam t : Nat)
    (st st1 : BeamState α D) (stop : Bool) (h : AllSeq P st)
    (hb : expandBody net beamSize expandBeam blankId t st = some (st1, stop)) :
    AllSeq P st1 := by
  unfold expandBody at hb
  simp only [Option.bind_eq_some, Option.map_eq_some'] at hb
  obtain ⟨i, _, maxSeq, hget, fd, hfd1, topN, htop, b, _, hst⟩ := hb
  injection hst with hst _
  subst hst
  have hmem : maxSeq ∈ st.CurSequences := List.get?_mem hget
  obtain ⟨f1, _, _, _⟩ := forward_decode_fields net _ _ _ fd hfd1
  have hpl : fd.1.processlength = fd.1.labelseq.length := by
    rw [forward_decode_processlength net _ _ _ fd hfd1, f1]
    rfl
  obtain ⟨_, _, hids⟩ := getTopN_spec _ _ _ htop
  rw [forwardmerged_length] at hids
  apply foldl_expandCandidate_keeps net P blankId hlogP hext fd.1
    (hfd maxSeq fd (h.1 maxSeq hmem) hfd1) hpl
  · intro c hc
    exact hids c (List.mem_of_mem_take hc)
  · exact ⟨fun s hs => h.1 s ((List.eraseIdx_sublist _ _).subset hs), h.2⟩

theorem expandPasses_keeps (net : Network α D) (P : Sequence α D → Prop) (blankId : Nat)
    (hlogP : ∀ s x, P s → P { s with logP := x })
    (hfd : ∀ s fd, P s →
      forward_decode net (newSeqCopy s) net.vocabSize s.labelseq.length = some fd → P fd.1)
    (hext : ∀ s id x, P s → s.processlength = s.labelseq.length → id < net.vocabSize →
      id ≠ blankId → P (extendSeq s id x))
    (beamSize expandBeam t : Nat) :
    ∀ (n : Nat) (st st1 : BeamState α D), AllSeq P st →
      expandPasses net beamSize expandBeam blankId t n st = some st1 → AllSeq P st1 := by
  intro n
  induction n with
  | zero =>
    intro st st1 h hp
    simp only [expandPasses, Option.some.injEq] at hp
    rw [← hp]
    exact h
  | succ n ih =>
    intro st st1 h hp
    unfold expandPasses at hp
    split at hp
    · rename_i s2 hb
      exact ih _ _ (expandBody_keeps net P blankId hlogP hfd hext beamSize expandBeam t st _
        false h hb) hp
    · simp at hp

theorem expandLoop_keeps (net : Network α D) (P : Sequence α D → Prop) (blankId : Nat)
    (hlogP : ∀ s x, P s → P { s with logP := x })
    (hfd : ∀ s fd, P s →
      forward_decode net (newSeqCopy s) net.vocabSize s.labelseq.length = some fd → P fd.1)
    (hext : ∀ s id x, P s → s.processlength = s.labelseq.length → id < net.vocabSize →
      id ≠ blankId → P (extendSeq s id x))
    (beamSize expandBeam t : Nat) :
    ∀ (fuel : Nat) (st st1 : BeamState α D), AllSeq P st →
      expandLoop net beamSize expandBeam blankId t fuel st = Run.done st1 →
      AllSeq P st1 := by
  intro fuel
  induction fuel with
  | zero => intro st st1 _ h; simp [expandLoop] at h
  | succ n ih =>
    intro st st1 hd h
    unfold expandLoop at h
    split at h
    · simp at h
    · rename_i s hb
      injection h with h
      subst h
      exact expandBody_keeps net P blankId hlogP hfd hext beamSize expandBeam t st _ true hd hb
    · rename_i s hb
      exact ih _ _
        (expandBody_keeps net P blankId hlogP hfd hext beamSize expandBeam t st _ false hd hb) h

theorem beamFrames_keeps (net : Network α D) (P : Sequence α D → Prop) (blankId : Nat)
    (hlogP : ∀ s x, P s → P { s with logP := x })
    (hfd : ∀ s fd, P s →
      forward_decode net (newSeqCopy s) net.vocabSize s.labelseq.length = some fd → P fd.1)
    (hext : ∀ s id x, P s → s.processlength = s.labelseq.length → id < net.vocabSize →
      id ≠ blankId → P (extendSeq s id x))
    (beamSize expandBeam fuel : Nat) :
    ∀ (ts : List Nat) (carried final : List (Sequence α D)),
      (∀ s ∈ carried, P s) →
      beamFrames net beamSize expandBeam blankId fuel ts carried = Run.done final →
      ∀ s ∈ final, P s := by
  intro ts
  induction ts with
  | nil =>
    intro carried final hc h
    simp only [beamFrames, Run.done.injEq] at h
    subst h
    exact hc
  | cons t ts ih =>
    intro carried final hc h
    unfold beamFrames at h
    split at h
    · rename_i next1 hf
      apply ih next1 final _ h
      unfold beamFrame at hf
      split at hf
      · rename_i st hl
        injection hf with hf
        subst hf
        have h0 : AllSeq P ({ CurSequences := carried, nextSequences := [] } : BeamState α D) :=
          ⟨hc, by simp⟩
        have h1 := expandLoop_keeps net P blankId hlogP hfd hext beamSize expandBeam t fuel _ st
          h0 hl
        intro s hs
        exact h1.2 s (mem_prune _ _ s hs)
      · simp at hf
      · simp at hf
    · simp at h
    · simp at h

/-- Every state the beam search of an utterance holds at the head or at the
end of a pass of an expansion loop satisfies an invariant `P` of the initial
hypothesis that is kept by a change of score, by `forward_decode` and by the
extension with a label other than the blank. -/
theorem reached_keeps (net : Network α D) (P : Sequence α D → Prop) (blankId : Nat)
    (hlogP : ∀ s x, P s → P { s with logP := x })
    (hfd : ∀ s fd, P s →
      forward_decode net (newSeqCopy s) net.vocabSize s.labelseq.length = some fd → P fd.1)
    (hext : ∀ s id x, P s → s.processlength = s.labelseq.length → id < net.vocabSize →
      id ≠ blankId → P (extendSeq s id x))
    (hinit : ∀ s ∈ beamInit net blankId, P s)
    (beamSize expandBeam fuel : Nat) (ts : List Nat) (carried : List (Sequence α D))
    (t n : Nat) (st : BeamState α D)
    (hrun : beamFrames net beamSize expandBeam blankId fuel ts (beamInit net blankId)
      = Run.done carried)
    (hpass : expandPasses net beamSize expandBeam blankId t n
      { CurSequences := carried, nextSequences := [] } = some st) :
    (∀ s ∈ carried, P s) ∧ AllSeq P st ∧
      ∀ st1 stop, expandBody net beamSize expandBeam blankId t st = some (st1, stop) →
        AllSeq P st1 := by
  have hc := beamFrames_keeps net P blankId hlogP hfd hext beamSize expandBeam fuel ts _ _
    hinit hrun
  have hs := expandPasses_keeps net P blankId hlogP hfd hext beamSize expandBeam t n _ st
    ⟨hc, by simp⟩ hpass
  exact ⟨hc, hs, fun st1 stop hb =>
    expandBody_keeps net P blankId hlogP hfd hext beamSize expandBeam t st st1 stop hs hb⟩

theorem Shaped_logP (blankId : Nat) (s : Sequence α D) (x : α) (h : Shaped blankId s) :
    Shaped blankId { s with logP := x } := h

theorem Shaped_forward_decode (net : Network α D) (blankId : Nat) (s : Sequence α D)
    (fd : Sequence α D × Nat) (h : Shaped blankId s)
    (hfd : forward_decode net (newSeqCopy s) net.vocabSize s.labelseq.length = some fd) :
    Shaped blankId fd.1 := by
  obtain ⟨f1, _, f3, f4⟩ := forward_decode_fields net _ _ _ fd hfd
  have g1 : fd.1.labelseq = s.labelseq := f1
  have g3 : fd.1.length = s.length := f3
  have g4 : fd.1.lengthwithblank = s.lengthwithblank := f4
  unfold Shaped at *
  rw [g1, g3, g4]
  exact h

theorem Shaped_extendSeq (blankId : Nat) (s : Sequence α D) (id : Nat) (x : α)
    (h : Shaped blankId s) (hid : id ≠ blankId) : Shaped blankId (extendSeq s id x) := by
  obtain ⟨h1, h2, h3, h4, h5⟩ := h
  cases hl : s.labelseq with
  | nil => rw [hl] at h3; simp at h3
  | cons b tl =>
    rw [hl] at h1 h2 h4 h5
    simp only [List.head?_cons, Option.some.injEq, List.tail_cons] at h4 h5
    refine ⟨?_, ?_, ?_, ?_, ?_⟩
    · simp [extendSeq, hl, h1]
    · simp [extendSeq, hl, h2]
    · simp [extendSeq, hl]
    · simp [extendSeq, hl, h4]
    · simp only [extendSeq, hl, List.cons_append, List.tail_cons, List.mem_append,
        List.mem_singleton, not_or]
      exact ⟨h5, fun h => hid h.symm⟩

theorem Shaped_beamInit (net : Network α D) (blankId : Nat) :
    ∀ s ∈ beamInit net blankId, Shaped blankId s := by
  intro s hs
  simp only [beamInit, List.mem_singleton] at hs
  subst hs
  simp [Shaped, extendSeq, newSeq]

theorem get_succ_mem_tail (l : List Nat) (n : Nat) (h : n + 1 < l.length) :
    l.get ⟨n + 1, h⟩ ∈ l.tail := by
  cases l with
  | nil => simp at h
  | cons b tl =>
    simp only [List.get_cons_succ, List.tail_cons]
    exact List.get_mem _ _ _

theorem Shaped_read (blankId : Nat) (s : Sequence α D) (h : Shaped blankId s) :
    ∀ n, n < s.length - 1 → ∃ id, s.labelseq.get? (n + 1) = some id ∧ id ≠ blankId := by
  intro n hn
  obtain ⟨h1, _, _, _, h5⟩ := h
  have hlt : n + 1 < s.labelseq.length := by omega
  refine ⟨s.labelseq.get ⟨n + 1, hlt⟩, List.get?_eq_get hlt, ?_⟩
  intro hb
  apply h5
  rw [← hb]
  exact get_succ_mem_tail _ n hlt

/-- C20: take any list `carried` that the frames of an utterance leave in
`nextSequences` and any state `st` of the expansion loop of a next frame
`t`, at the head of a pass.  Every hypothesis of `carried`, of `st` and of
the state a further pass of the body makes of `st` has
`length = lengthwithblank = labelseq.size() >= 1`, the blank as its first
label and no blank after it; so every read `labelseq[n + 1]` with
`n < length - 1` of the output step is in range. -/
theorem beam_hypotheses_shaped (net : Network α D) (beamSize expandBeam fuel : Nat)
    (ts : List Nat) (carried : List (Sequence α D)) (t n : Nat) (st : BeamState α D)
    (hrun : beamFrames net beamSize expandBeam (net.vocabSize - 1) fuel ts
      (beamInit net (net.vocabSize - 1)) = Run.done carried)
    (hpass : expandPasses net beamSize expandBeam (net.vocabSize - 1) t n
      { CurSequences := carried, nextSequences := [] } = some st) :
    (∀ s ∈ carried, Shaped (net.vocabSize - 1) s) ∧
    AllSeq (Shaped (net.vocabSize - 1)) st ∧
    (∀ st1 stop, expandBody net beamSize expandBeam (net.vocabSize - 1) t st
        = some (st1, stop) → AllSeq (Shaped (net.vocabSize - 1)) st1) ∧
    (∀ yb ∈ normalize carried, ∀ k, k < yb.length - 1 →
      ∃ id, yb.labelseq.get? (k + 1) = some id) := by
  obtain ⟨hc, hs, hb⟩ := reached_keeps net (Shaped (net.vocabSize - 1)) (net.vocabSize - 1)
    (fun s x h => Shaped_logP _ s x h)
    (fun s fd h hfd => Shaped_forward_decode net _ s fd h hfd)
    (fun s id x h _ _ hid => Shaped_extendSeq _ s id x h hid)
    (Shaped_beamInit net _) beamSize expandBeam fuel ts carried t n st hrun hpass
  refine ⟨hc, hs, hb, ?_⟩
  intro yb hyb k hk
  simp only [normalize, List.mem_map] at hyb
  obtain ⟨s0, hs0, heq⟩ := hyb
  have hsh : Shaped (net.vocabSize - 1) yb := by
    rw [← heq]
    exact Shaped_logP _ s0 _ (hc s0 hs0)
  obtain ⟨id, hid, _⟩ := Shaped_read _ yb hsh k hk
  exact ⟨id, hid⟩

theorem forward_decode_count (net : Network α D) (s : Sequence α D) (V p : Nat)
    (fd : Sequence α D × Nat) (h : forward_decode net s V p = some fd) :
    (fd.2 = 1 ∧ p ≠ s.processlength) ∨ (fd.2 = 0 ∧ p = s.processlength) := by
  unfold forward_decode at h
  split at h
  · rename_i hne
    split at h
    · simp at h
    · injection h with h
      subst h
      exact Or.inl ⟨rfl, hne⟩
  · rename_i heq
    injection h with h
    subst h
    simp only [ne_eq, not_not] at heq
    exact Or.inr ⟨rfl, heq⟩

/-- C18: with the decoder a function of the label prefix, take any state
`st` at the head of a pass of an expansion loop in the beam search of an
utterance, and any hypothesis `maxSeq` of `CurSequences`, in particular the
one that the pass pops.  `forward_decode` returns; afterwards the cached `decodeoutput` is the decoder output for the
whole `labelseq`, `processlength` is `labelseq.size()`, and the joint scores
are computed from that output.  The decoder network was evaluated once if
`labelseq` had grown beyond `processlength`, and not at all otherwise. -/
theorem popped_cache_current (net : Network α D) (beamSize expandBeam fuel : Nat)
    (ts : List Nat) (carried : List (Sequence α D)) (t n : Nat) (st : BeamState α D)
    (maxSeq : Sequence α D) (h0 : 0 < net.vocabSize)
    (hrun : beamFrames net beamSize expandBeam (net.vocabSize - 1) fuel ts
      (beamInit net (net.vocabSize - 1)) = Run.done carried)
    (hpass : expandPasses net beamSize expandBeam (net.vocabSize - 1) t n
      { CurSequences := carried, nextSequences := [] } = some st)
    (hmem : maxSeq ∈ st.CurSequences) :
    ∃ fd k,
      forward_decode net (newSeqCopy maxSeq) net.vocabSize maxSeq.labelseq.length
        = some (fd, k) ∧
      fd.labelseq = maxSeq.labelseq ∧
      fd.decodeoutput = net.decoder fd.labelseq ∧
      fd.processlength = fd.labelseq.length ∧
      forwardmerged net fd t
        = (List.range net.vocabSize).map (net.joint t (net.decoder maxSeq.labelseq)) ∧
      (k = 1 ↔ maxSeq.processlength < maxSeq.labelseq.length) ∧
      (k = 0 ↔ maxSeq.processlength = maxSeq.labelseq.length) := by
  obtain ⟨c1, c2, c3⟩ := Coherent_closed net
  obtain ⟨_, hs, _⟩ := reached_keeps net (Coherent net) (net.vocabSize - 1) c1 c2
    (fun s id x h hpl hid _ => c3 s id x h hpl hid)
    (beamInit_coherent net h0) beamSize expandBeam fuel ts carried t n st hrun hpass
  have hcoh : Coherent net maxSeq := hs.1 maxSeq hmem
  obtain ⟨k, hk⟩ := forward_decode_coherent net maxSeq hcoh
  have hle := hcoh.2.1
  refine ⟨refresh net maxSeq, k, hk, rfl, rfl, rfl, rfl, ?_, ?_⟩
  · rcases forward_decode_count net _ _ _ _ hk with ⟨h1, h2⟩ | ⟨h1, h2⟩
    · simp only at h1 h2
      have h3 : maxSeq.labelseq.length ≠ maxSeq.processlength := h2
      constructor
      · intro _; omega
      · intro _; exact h1
    · simp only at h1 h2
      have h3 : maxSeq.labelseq.length = maxSeq.processlength := h2
      constructor
      · intro hk1; omega
      · intro hlt; omega
  · rcases forward_decode_count net _ _ _ _ hk with ⟨h1, h2⟩ | ⟨h1, h2⟩
    · simp only at h1 h2
      have h3 : maxSeq.labelseq.length ≠ maxSeq.processlength := h2
      constructor
      · intro hk0; omega
      · intro heq; exact absurd heq.symm h3
    · simp only at h1 h2
      have h3 : maxSeq.labelseq.length = maxSeq.processlength := h2
      constructor
      · intro _; exact h3.symm
      · intro _; exact h1

theorem expandCandidate_nonempty (net : Network α D) (blankId : Nat)
    (tempSeq : Sequence α D) (st : BeamState α D) (c : Nat × α) :
    (expandCandidate net blankId tempSeq st c).CurSequences ≠ [] ∨
      (expandCandidate net blankId tempSeq st c).nextSequences ≠ [] := by
  by_cases hc : c.1 = blankId
  · exact Or.inr (expandCandidate_blank net blankId tempSeq st c hc).2
  · left
    rw [expandCandidate_label net blankId tempSeq st c hc]
    simp

theorem foldl_expandCandidate_nonempty (net : Network α D) (blankId : Nat)
    (tempSeq : Sequence α D) (cs : List (Nat × α)) (st : BeamState α D) (h : cs ≠ []) :
    (cs.foldl (expandCandidate net blankId tempSeq) st).CurSequences ≠ [] ∨
      (cs.foldl (expandCandidate net blankId tempSeq) st).nextSequences ≠ [] := by
  rcases List.eq_nil_or_concat cs with h1 | ⟨init, last, h1⟩
  · exact absurd h1 h
  · rw [h1, List.concat_eq_append, List.foldl_append]
    exact expandCandidate_nonempty net blankId tempSeq _ last

theorem expandBody_defined (net : Network α D) (beamSize expandBeam blankId t : Nat)
    (st : BeamState α D) (he1 : 1 ≤ expandBeam) (he2 : expandBeam ≤ net.vocabSize)
    (hall : AllSeq (Coherent net) st) (hne : st.CurSequences ≠ []) :
    ∃ st1 stop, expandBody net beamSize expandBeam blankId t st = some (st1, stop) ∧
      (stop = false → st1.CurSequences ≠ []) ∧ (stop = true → st1.nextSequences ≠ []) := by
  obtain ⟨i, hi, hlt⟩ := max_element_isSome _ hne
  have hget : st.CurSequences.get? i = some (st.CurSequences.get ⟨i, hlt⟩) :=
    List.get?_eq_get hlt
  have hmem : st.CurSequences.get ⟨i, hlt⟩ ∈ st.CurSequences := List.get_mem _ _ _
  obtain ⟨k, hfd⟩ := forward_decode_coherent net _ (hall.1 _ hmem)
  obtain ⟨topN, htop⟩ := getTopN_isSome
    (forwardmerged net (refresh net (st.CurSequences.get ⟨i, hlt⟩)) t) expandBeam
    (by rw [forwardmerged_length]; exact he2)
  obtain ⟨_, hlen, _⟩ := getTopN_spec _ _ _ htop
  rw [forwardmerged_length] at hlen
  have hcs : topN.take expandBeam ≠ [] := by
    intro h
    have := congrArg List.length h
    rw [List.length_take, hlen] at this
    simp only [List.length_nil] at this
    omega
  obtain ⟨stop, hstop, hfalse, htrue⟩ := stopTest_isSome beamSize
    ((topN.take expandBeam).foldl
      (expandCandidate net blankId (refresh net (st.CurSequences.get ⟨i, hlt⟩)))
      { CurSequences := st.CurSequences.eraseIdx i, nextSequences := st.nextSequences })
  refine ⟨_, stop, ?_, hfalse, ?_⟩
  · unfold expandBody
    simp only [hi, Option.some_bind, hget, hfd, htop, hstop, Option.map_some']
  · intro hs
    rcases htrue hs with h1 | h1
    · rcases foldl_expandCandidate_nonempty net blankId _ _
          { CurSequences := st.CurSequences.eraseIdx i, nextSequences := st.nextSequences }
          hcs with h2 | h2
      · exact absurd h1 h2
      · exact h2
    · intro h2
      rw [h2] at h1
      simp at h1

theorem expandPasses_nonempty (net : Network α D) (beamSize expandBeam blankId t : Nat) :
    ∀ (n : Nat) (st st1 : BeamState α D), st.CurSequences ≠ [] →
      expandPasses net beamSize expandBeam blankId t n st = some st1 →
      st1.CurSequences ≠ [] := by
  intro n
  induction n with
  | zero =>
    intro st st1 h hp
    simp only [expandPasses, Option.some.injEq] at hp
    rw [← hp]
    exact h
  | succ n ih =>
    intro st st1 h hp
    unfold expandPasses at hp
    split at hp
    · rename_i s2 hb
      apply ih _ _ _ hp
      unfold expandBody at hb
      simp only [Option.bind_eq_some, Option.map_eq_some'] at hb
      obtain ⟨i, _, maxSeq, _, fd, _, topN, _, b, hstop, hst⟩ := hb
      injection hst with hst hb2
      subst hst
      subst hb2
      obtain ⟨b2, hb2, hfalse, _⟩ := stopTest_isSome beamSize
        ((topN.take expandBeam).foldl (expandCandidate net blankId fd.1)
          { CurSequences := st.CurSequences.eraseIdx i, nextSequences := st.nextSequences })
      rw [hstop] at hb2
      injection hb2 with hb2
      exact hfalse hb2.symm
    · simp at hp

theorem expandLoop_no_ub (net : Network α D) (beamSize expandBeam blankId t : Nat)
    (he1 : 1 ≤ expandBeam) (he2 : expandBeam ≤ net.vocabSize) :
    ∀ (fuel : Nat) (st : BeamState α D), AllSeq (Coherent net) st → st.CurSequences ≠ [] →
      expandLoop net beamSize expandBeam blankId t fuel st = Run.timeout ∨
      ∃ st1, expandLoop net beamSize expandBeam blankId t fuel st = Run.done st1 ∧
        st1.nextSequences ≠ [] ∧ AllSeq (Coherent net) st1 := by
  intro fuel
  induction fuel with
  | zero => intro st _ _; exact Or.inl rfl
  | succ n ih =>
    intro st hall hne
    obtain ⟨st1, stop, hbody, hfalse, htrue⟩ :=
      expandBody_defined net beamSize expandBeam blankId t st he1 he2 hall hne
    obtain ⟨c1, c2, c3⟩ := Coherent_closed net
    have hall1 := expandBody_preserves net (Coherent net) c1 c2 c3 beamSize expandBeam blankId t
      st _ _ hall hbody
    unfold expandLoop
    rw [hbody]
    cases stop with
    | true => exact Or.inr ⟨st1, rfl, htrue rfl, hall1⟩
    | false => exact ih st1 hall1 (hfalse rfl)

theorem beamFrames_no_ub (net : Network α D) (beamSize expandBeam blankId fuel : Nat)
    (hb : 1 ≤ beamSize) (he1 : 1 ≤ expandBeam) (he2 : expandBeam ≤ net.vocabSize) :
    ∀ (ts : List Nat) (carried : List (Sequence α D)), (∀ s ∈ carried, Coherent net s) →
      carried ≠ [] →
      beamFrames net beamSize expandBeam blankId fuel ts carried = Run.timeout ∨
      ∃ final, beamFrames net beamSize expandBeam blankId fuel ts carried = Run.done final ∧
        final ≠ [] ∧ ∀ s ∈ final, Coherent net s := by
  intro ts
  induction ts with
  | nil => intro carried hc hne; exact Or.inr ⟨carried, rfl, hne, hc⟩
  | cons t ts ih =>
    intro carried hc hne
    unfold beamFrames beamFrame
    rcases expandLoop_no_ub net beamSize expandBeam blankId t he1 he2 fuel
        { CurSequences := carried, nextSequences := [] } ⟨hc, by simp⟩ hne with h1 | h1
    · left
      rw [h1]
    · obtain ⟨st1, hrun, hnn, hall1⟩ := h1
      rw [hrun]
      simp only
      apply ih
      · intro s hs
        exact hall1.2 s (mem_prune _ _ s hs)
      · intro h
        have := prune_length st1.nextSequences beamSize
        rw [h] at this
        have hpos : 0 < st1.nextSequences.length := List.length_pos.mpr hnn
        simp only [List.length_nil] at this
        omega

/-- C19: with `beamSize >= 1` and `1 <= expandBeam <= vocabSize`, take any
list `carried` that the frames of an utterance leave in `nextSequences` and
any state `st` at the head of a pass of the expansion loop of a next frame.
`carried` is not empty (after every pruning, and when the 1-best is
selected); `CurSequences` of `st` is not empty, so the maximum that the pass
takes and removes exists, and the pass is defined; it either goes on with a
non-empty `CurSequences` or leaves the loop with a non-empty
`nextSequences`.  The whole run never meets an undefined operation. -/
theorem beam_never_empty (net : Network α D) (beamSize expandBeam fuel : Nat)
    (ts : List Nat) (carried : List (Sequence α D)) (t n : Nat) (st : BeamState α D)
    (hb : 1 ≤ beamSize) (he1 : 1 ≤ expandBeam) (he2 : expandBeam ≤ net.vocabSize)
    (hrun : beamFrames net beamSize expandBeam (net.vocabSize - 1) fuel ts
      (beamInit net (net.vocabSize - 1)) = Run.done carried)
    (hpass : expandPasses net beamSize expandBeam (net.vocabSize - 1) t n
      { CurSequences := carried, nextSequences := [] } = some st) :
    carried ≠ [] ∧ st.CurSequences ≠ [] ∧
    (∃ i, max_element st.CurSequences = some i ∧ i < st.CurSequences.length) ∧
    (∃ st1 stop, expandBody net beamSize expandBeam (net.vocabSize - 1) t st
        = some (st1, stop) ∧
      (stop = false → st1.CurSequences ≠ []) ∧ (stop = true → st1.nextSequences ≠ [])) ∧
    WriteOutput_beam net beamSize expandBeam fuel ≠ Run.ub := by
  have h0 : 0 < net.vocabSize := by omega
  have hinit := beamInit_coherent net h0
  have hne0 : beamInit net (net.vocabSize - 1) ≠ [] := by simp [beamInit]
  have hcne : carried ≠ [] := by
    rcases beamFrames_no_ub net beamSize expandBeam (net.vocabSize - 1) fuel hb he1 he2 ts _
        hinit hne0 with h | h
    · rw [h] at hrun
      simp at hrun
    · obtain ⟨final, hf, hnf, _⟩ := h
      rw [hf] at hrun
      injection hrun with hrun
      rw [← hrun]
      exact hnf
  obtain ⟨c1, c2, c3⟩ := Coherent_closed net
  obtain ⟨_, hs, _⟩ := reached_keeps net (Coherent net) (net.vocabSize - 1) c1 c2
    (fun s id x h hpl hid _ => c3 s id x h hpl hid)
    hinit beamSize expandBeam fuel ts carried t n st hrun hpass
  have hsne := expandPasses_nonempty net beamSize expandBeam _ t n _ st hcne hpass
  refine ⟨hcne, hsne, max_element_isSome _ hsne,
    expandBody_defined net beamSize expandBeam _ t st he1 he2 hs hsne, ?_⟩
  rcases beamFrames_no_ub net beamSize expandBeam (net.vocabSize - 1) fuel hb he1 he2
      (List.range net.numFrames) _ hinit hne0 with h | h
  · unfold WriteOutput_beam
    simp only [h]
    simp
  · obtain ⟨final, hf, hnf, hcf⟩ := h
    obtain ⟨out, hout⟩ := WriteOutput_beam_of_frames net beamSize expandBeam fuel final h0 hf
      (fun s hs => (hcf s hs).1) hnf
    rw [hout]
    simp

/-- C20 on `demoNet` with `beamSize = expandBeam = 2`: frame 0 leaves `[1]`
and `[1, 0]`, and after one pass of frame 1 the state holds `[1, 0]` twice
and `[1]`; all are shaped. -/
theorem beam_hypotheses_shaped_witness :
    beamFrames demoNet 2 2 (demoNet.vocabSize - 1) 3 [0]
        (beamInit demoNet (demoNet.vocabSize - 1))
      = Run.done [⟨[1], -1, 1, 1, 1, [1]⟩, ⟨[1, 0], -3, 2, 2, 2, [1, 0]⟩] ∧
    expandPasses demoNet 2 2 (demoNet.vocabSize - 1) 1 1
        { CurSequences := [⟨[1], -1, 1, 1, 1, [1]⟩, ⟨[1, 0], -3, 2, 2, 2, [1, 0]⟩]
          nextSequences := [] }
      = some { CurSequences := [⟨[1, 0], -3, 2, 2, 2, [1, 0]⟩, ⟨[1, 0], -3, 2, 1, 2, [1]⟩]
               nextSequences := [⟨[1], -2, 1, 1, 1, [1]⟩] } ∧
    AllSeq (Shaped (demoNet.vocabSize - 1))
      ({ CurSequences := [⟨[1, 0], -3, 2, 2, 2, [1, 0]⟩, ⟨[1, 0], -3, 2, 1, 2, [1]⟩]
         nextSequences := [⟨[1], -2, 1, 1, 1, [1]⟩] } : BeamState ℚ (List Nat)) :=
  ⟨by decide!, by decide!,
   (beam_hypotheses_shaped demoNet 2 2 3 [0]
      [⟨[1], -1, 1, 1, 1, [1]⟩, ⟨[1, 0], -3, 2, 2, 2, [1, 0]⟩] 1 1
      { CurSequences := [⟨[1, 0], -3, 2, 2, 2, [1, 0]⟩, ⟨[1, 0], -3, 2, 1, 2, [1]⟩]
        nextSequences := [⟨[1], -2, 1, 1, 1, [1]⟩] }
      (by decide!) (by decide!)).2.1⟩

/-- C18 on the same state of `demoNet`: the extension `[1, 0]`, whose cache
still holds the output for `[1]`, is brought up to date by one evaluation
of the decoder. -/
theorem popped_cache_current_witness :
    ∃ fd k,
      forward_decode demoNet (newSeqCopy ⟨[1, 0], -3, 2, 1, 2, [1]⟩) demoNet.vocabSize
          ([1, 0] : List Nat).length = some (fd, k) ∧
      fd.labelseq = [1, 0] ∧
      fd.decodeoutput = demoNet.decoder fd.labelseq ∧
      fd.processlength = fd.labelseq.length ∧
      forwardmerged demoNet fd 1
        = (List.range demoNet.vocabSize).map (demoNet.joint 1 (demoNet.decoder [1, 0])) ∧
      (k = 1 ↔ 1 < ([1, 0] : List Nat).length) ∧
      (k = 0 ↔ 1 = ([1, 0] : List Nat).length) :=
  popped_cache_current demoNet 2 2 3 [0]
    [⟨[1], -1, 1, 1, 1, [1]⟩, ⟨[1, 0], -3, 2, 2, 2, [1, 0]⟩] 1 1
    { CurSequences := [⟨[1, 0], -3, 2, 2, 2, [1, 0]⟩, ⟨[1, 0], -3, 2, 1, 2, [1]⟩]
      nextSequences := [⟨[1], -2, 1, 1, 1, [1]⟩] }
    ⟨[1, 0], -3, 2, 1, 2, [1]⟩ (by decide) (by decide!) (by decide!) (by decide!)

/-- C19 on the same run of `demoNet`: neither the list frame 0 leaves nor
`CurSequences` after a pass of frame 1 is empty, and the run meets no
undefined operation. -/
theorem beam_never_empty_witness :
    ([⟨[1], -1, 1, 1, 1, [1]⟩, ⟨[1, 0], -3, 2, 2, 2, [1, 0]⟩] :
        List (Sequence ℚ (List Nat))) ≠ [] ∧
    ([⟨[1, 0], -3, 2, 2, 2, [1, 0]⟩, ⟨[1, 0], -3, 2, 1, 2, [1]⟩] :
        List (Sequence ℚ (List Nat))) ≠ [] ∧
    WriteOutput_beam demoNet 2 2 3 ≠ Run.ub := by
  obtain ⟨h1, h2, _, _, h5⟩ := beam_never_empty demoNet 2 2 3 [0]
    [⟨[1], -1, 1, 1, 1, [1]⟩, ⟨[1, 0], -3, 2, 2, 2, [1, 0]⟩] 1 1
    { CurSequences := [⟨[1, 0], -3, 2, 2, 2, [1, 0]⟩, ⟨[1, 0], -3, 2, 1, 2, [1]⟩]
      nextSequences := [⟨[1], -2, 1, 1, 1, [1]⟩] }
    (by decide) (by decide) (by decide) (by decide!) (by decide!)
  exact ⟨h1, h2, h5⟩

end Reached

section NBest
variable {α D : Type} [LinearOrderedField α]

theorem max_elementLoop_spec (xs : List (Sequence α D)) :
    ∀ (largest : Nat) (lp : α) (i : Nat),
      (max_elementLoop largest lp i xs = largest ∧ ∀ x ∈ xs, x.logP ≤ lp) ∨
      ∃ j, ∃ h : j < xs.length, max_elementLoop largest lp i xs = i + j ∧
        lp < (xs.get ⟨j, h⟩).logP ∧ ∀ x ∈ xs, x.logP ≤ (xs.get ⟨j, h⟩).logP := by
  induction xs with
  | nil => intro largest lp i; left; exact ⟨rfl, by simp⟩
  | cons x xs ih =>
    intro largest lp i
    unfold max_elementLoop
    by_cases hlt : lp < x.logP
    · rw [if_pos hlt]
      right
      rcases ih i x.logP (i + 1) with ⟨h1, h2⟩ | ⟨j, hj, h1, h2, h3⟩
      · refine ⟨0, by simp, by rw [h1]; rfl, hlt, ?_⟩
        intro y hy
        rcases List.mem_cons.mp hy with h | h
        · rw [h]; exact le_refl _
        · exact h2 y h
      · refine ⟨j + 1, by simp only [List.length_cons]; omega, by rw [h1]; omega, ?_, ?_⟩
        · exact lt_trans hlt h2
        · intro y hy
          rcases List.mem_cons.mp hy with h | h
          · rw [h]; exact le_of_lt h2
          · exact h3 y h
    · rw [if_neg hlt]
      rcases ih largest lp (i + 1) with ⟨h1, h2⟩ | ⟨j, hj, h1, h2, h3⟩
      · left
        refine ⟨h1, ?_⟩
        intro y hy
        rcases List.mem_cons.mp hy with h | h
        · rw [h]; exact not_lt.mp hlt
        · exact h2 y h
      · right
        refine ⟨j + 1, by simp only [List.length_cons]; omega, by rw [h1]; omega, h2, ?_⟩
        intro y hy
        rcases List.mem_cons.mp hy with h | h
        · rw [h]; exact le_trans (not_lt.mp hlt) (le_of_lt h2)
        · exact h3 y h

theorem max_element_greatest (v : List (Sequence α D)) (yb : Sequence α D)
    (h : (max_element v).bind (fun i => v.get? i) = some yb) :
    yb ∈ v ∧ ∀ s ∈ v, s.logP ≤ yb.logP := by
  cases v with
  | nil => simp [max_element] at h
  | cons x xs =>
    simp only [max_element, Option.some_bind] at h
    refine ⟨List.get?_mem h, ?_⟩
    rcases max_elementLoop_spec xs 0 x.logP 1 with ⟨h1, h2⟩ | ⟨j, hj, h1, h2, h3⟩
    · rw [h1] at h
      simp only [List.get?_cons_zero, Option.some.injEq] at h
      subst h
      intro s hs
      rcases List.mem_cons.mp hs with h | h
      · rw [h]
      · exact h2 s h
    · rw [h1, Nat.add_comm] at h
      simp only [List.get?_cons_succ, List.get?_eq_get hj, Option.some.injEq] at h
      subst h
      intro s hs
      rcases List.mem_cons.mp hs with h | h
      · rw [h]; exact le_of_lt h2
      · exact h3 s h

theorem prune_sorted (v : List (Sequence α D)) (beamSize : Nat) :
    (prune v beamSize).Sorted (fun a b => b.logP ≤ a.logP) := by
  rw [prune_eq_take]
  exact List.Pairwise.sublist (List.take_sublist _ _) (sort_reverse_sorted v)

theorem beamFrames_sorted (net : Network α D) (beamSize expandBeam blankId fuel : Nat) :
    ∀ (ts : List Nat) (carried final : List (Sequence α D)),
      carried.Sorted (fun a b => b.logP ≤ a.logP) →
      beamFrames net beamSize expandBeam blankId fuel ts carried = Run.done final →
      final.Sorted (fun a b => b.logP ≤ a.logP) := by
  intro ts
  induction ts with
  | nil =>
    intro carried final hc h
    simp only [beamFrames, Run.done.injEq] at h
    rw [← h]
    exact hc
  | cons t ts ih =>
    intro carried final _ h
    unfold beamFrames at h
    split at h
    · rename_i next1 hf
      apply ih next1 final _ h
      unfold beamFrame at hf
      split at hf
      · injection hf with hf
        rw [← hf]
        exact prune_sorted _ _
      · simp at hf
      · simp at hf
    · simp at h
    · simp at h

/-- C14, as the code has it: the survivors are left in non-increasing order
of the scores they had before normalisation, the order pruning gave them,
and are not sorted again.  When every survivor has emitted at least one
label (so that every divisor is positive), the 1-best hypothesis `yb`
selected after normalisation is one of the normalised survivors and no
survivor has a greater normalised score. -/
theorem best_has_max_normalized (net : Network α D) (beamSize expandBeam fuel : Nat)
    (ts : List Nat) (final : List (Sequence α D)) (yb : Sequence α D)
    (hrun : beamFrames net beamSize expandBeam (net.vocabSize - 1) fuel ts
      (beamInit net (net.vocabSize - 1)) = Run.done final)
    (hlab : ∀ s ∈ final, 2 ≤ s.labelseq.length)
    (hsel : (max_element (normalize final)).bind (fun i => (normalize final).get? i)
      = some yb) :
    final.Sorted (fun a b => b.logP ≤ a.logP) ∧
    (∀ s ∈ final, (0 : α) < ((s.labelseq.length - 1 : Nat) : α)) ∧
    yb ∈ normalize final ∧
    (∀ s ∈ final, s.logP / ((s.labelseq.length - 1 : Nat) : α) ≤ yb.logP) := by
  obtain ⟨hmem, hmax⟩ := max_element_greatest _ yb hsel
  refine ⟨?_, ?_, hmem, ?_⟩
  · apply beamFrames_sorted net beamSize expandBeam _ fuel ts _ final _ hrun
    simp [beamInit]
  · intro s hs
    have := hlab s hs
    have h1 : 0 < s.labelseq.length - 1 := by omega
    exact_mod_cast h1
  · intro s hs
    have hn : ({ s with logP := s.logP / ((s.labelseq.length - 1 : Nat) : α) } : Sequence α D)
        ∈ normalize final := by
      simp only [normalize, List.mem_map]
      exact ⟨s, hs, rfl⟩
    exact hmax _ hn

/-- C14 on `lengthNet` with `beamSize = expandBeam = 2`: the survivors are
`[1, 0]` of score `-4` and `[1, 0, 0, 0]` of score `-5`, their normalised
scores are `-4` and `-5/3`, and the second is selected. -/
theorem best_has_max_normalized_witness :
    beamFrames lengthNet 2 2 (lengthNet.vocabSize - 1) 4 [0]
        (beamInit lengthNet (lengthNet.vocabSize - 1))
      = Run.done [⟨[1, 0], -4, 2, 2, 2, [1, 0]⟩, ⟨[1, 0, 0, 0], -5, 4, 4, 4, [1, 0, 0, 0]⟩] ∧
    (max_element (normalize [(⟨[1, 0], -4, 2, 2, 2, [1, 0]⟩ : Sequence ℚ (List Nat)),
        ⟨[1, 0, 0, 0], -5, 4, 4, 4, [1, 0, 0, 0]⟩])).bind
      (fun i => (normalize [(⟨[1, 0], -4, 2, 2, 2, [1, 0]⟩ : Sequence ℚ (List Nat)),
        ⟨[1, 0, 0, 0], -5, 4, 4, 4, [1, 0, 0, 0]⟩]).get? i)
      = some ⟨[1, 0, 0, 0], -5/3, 4, 4, 4, [1, 0, 0, 0]⟩ ∧
    ∀ s ∈ ([⟨[1, 0], -4, 2, 2, 2, [1, 0]⟩, ⟨[1, 0, 0, 0], -5, 4, 4, 4, [1, 0, 0, 0]⟩] :
        List (Sequence ℚ (List Nat))),
      s.logP / ((s.labelseq.length - 1 : Nat) : ℚ) ≤ (-5/3 : ℚ) :=
  ⟨by decide!, by decide!,
   (best_has_max_normalized lengthNet 2 2 4 [0]
      [⟨[1, 0], -4, 2, 2, 2, [1, 0]⟩, ⟨[1, 0, 0, 0], -5, 4, 4, 4, [1, 0, 0, 0]⟩]
      ⟨[1, 0, 0, 0], -5/3, 4, 4, 4, [1, 0, 0, 0]⟩
      (by decide!) (by decide) (by decide!)).2.2.2⟩

/-- C14 as stated fails: on `lengthNet` with `beamSize = expandBeam = 2` the
survivors come out of pruning as `[1, 0]` (score `-4`) before
`[1, 0, 0, 0]` (score `-5`); normalisation makes their scores `-4` and
`-5/3`, so the list is not in non-increasing order of normalised score. -/
theorem nbest_order_counterexample :
    beamFrames lengthNet 2 2 (lengthNet.vocabSize - 1) 4 (List.range lengthNet.numFrames)
        (beamInit lengthNet (lengthNet.vocabSize - 1))
      = Run.done [⟨[1, 0], -4, 2, 2, 2, [1, 0]⟩, ⟨[1, 0, 0, 0], -5, 4, 4, 4, [1, 0, 0, 0]⟩] ∧
    normalize [(⟨[1, 0], -4, 2, 2, 2, [1, 0]⟩ : Sequence ℚ (List Nat)),
        ⟨[1, 0, 0, 0], -5, 4, 4, 4, [1, 0, 0, 0]⟩]
      = [⟨[1, 0], -4, 2, 2, 2, [1, 0]⟩, ⟨[1, 0, 0, 0], -5/3, 4, 4, 4, [1, 0, 0, 0]⟩] ∧
    ¬ (normalize [(⟨[1, 0], -4, 2, 2, 2, [1, 0]⟩ : Sequence ℚ (List Nat)),
        ⟨[1, 0, 0, 0], -5, 4, 4, 4, [1, 0, 0, 0]⟩]).Sorted (fun a b => b.logP ≤ a.logP) := by
  refine ⟨by decide!, by decide!, ?_⟩
  have h : normalize [(⟨[1, 0], -4, 2, 2, 2, [1, 0]⟩ : Sequence ℚ (List Nat)),
        ⟨[1, 0, 0, 0], -5, 4, 4, 4, [1, 0, 0, 0]⟩]
      = [⟨[1, 0], -4, 2, 2, 2, [1, 0]⟩, ⟨[1, 0, 0, 0], -5/3, 4, 4, 4, [1, 0, 0, 0]⟩] := by
    decide!
  rw [h]
  intro hs
  have := List.rel_of_sorted_cons hs _ (List.mem_singleton_self _)
  revert this
  decide!

end NBest

section CurDistinct
variable {α D : Type} [LinearOrderedField α]

theorem Unrelated_symm (a b : Sequence α D) (h : Unrelated a b) : Unrelated b a :=
  ⟨h.2, h.1⟩

theorem Unrelated_ne (a b : Sequence α D) (h : Unrelated a b) : a.labelseq ≠ b.labelseq := by
  intro heq
  apply h.1
  rw [heq]

theorem pairwise_eraseIdx_get (R : Sequence α D → Sequence α D → Prop)
    (hsymm : ∀ a b, R a b → R b a) :
    ∀ (l : List (Sequence α D)) (i : Nat) (h : i < l.length), l.Pairwise R →
      ∀ a ∈ l.eraseIdx i, R a (l.get ⟨i, h⟩) := by
  intro l
  induction l with
  | nil => intro i h; simp at h
  | cons x xs ih =>
    intro i h hp a ha
    obtain ⟨hx, hxs⟩ := List.pairwise_cons.mp hp
    cases i with
    | zero =>
      simp only [List.eraseIdx_cons_zero] at ha
      exact hsymm _ _ (hx a ha)
    | succ j =>
      have hj : j < xs.length := by simpa using h
      simp only [List.eraseIdx_cons_succ, List.mem_cons] at ha
      simp only [List.get_cons_succ]
      rcases ha with h1 | h1
      · rw [h1]
        exact hx _ (List.get_mem _ _ _)
      · exact ih j hj hxs a h1

theorem foldl_expandCandidate_cur (net : Network α D) (blankId : Nat)
    (tempSeq : Sequence α D) :
    ∀ (cs : List (Nat × α)) (st : BeamState α D),
      (cs.foldl (expandCandidate net blankId tempSeq) st).CurSequences
        = st.CurSequences ++ (cs.filter (fun c => c.1 ≠ blankId)).map
            (fun c => extendSeq { newSeqCopy tempSeq with logP := c.2 + tempSeq.logP } c.1
              (c.2 + tempSeq.logP)) := by
  intro cs
  induction cs with
  | nil => intro st; simp
  | cons c cs ih =>
    intro st
    simp only [List.foldl_cons]
    rw [ih]
    by_cases hc : c.1 = blankId
    · rw [(expandCandidate_blank net blankId tempSeq st c hc).1]
      simp [hc]
    · rw [expandCandidate_label net blankId tempSeq st c hc]
      simp [hc]

theorem Unrelated_extend (a h : Sequence α D) (k : Nat) (x : α) (hu : Unrelated a h) :
    Unrelated a (extendSeq h k x) := by
  constructor
  · intro hp
    simp only [extendSeq] at hp
    rcases List.prefix_concat_iff.mp hp with h1 | h1
    · apply hu.2
      rw [h1]
      exact List.prefix_append _ _
    · exact hu.1 h1
  · intro hp
    simp only [extendSeq] at hp
    exact hu.2 ((List.prefix_append _ _).trans hp)

theorem Unrelated_siblings (h : Sequence α D) (k1 k2 : Nat) (x1 x2 : α) (hk : k1 ≠ k2) :
    Unrelated (extendSeq h k1 x1) (extendSeq h k2 x2) := by
  have key : ∀ a b : Nat, a ≠ b → ¬ (h.labelseq ++ [a]) <+: (h.labelseq ++ [b]) := by
    intro a b hab hp
    have := hp.eq_of_length (by simp)
    have h2 := List.append_cancel_left this
    simp only [List.cons.injEq, and_true] at h2
    exact hab h2
  exact ⟨key k1 k2 hk, key k2 k1 (fun h => hk h.symm)⟩

theorem getTopN_fst_nodup (prob : List α) (N : Nat) (topN : List (Nat × α))
    (h : getTopN prob N = some topN) : (topN.map Prod.fst).Nodup :=
  (((nth_element_perm _ _ _ h).1).map Prod.fst).nodup_iff.mpr (enum_fst_nodup prob)

theorem expandBody_unrelated (net : Network α D) (beamSize expandBeam blankId t : Nat)
    (st st1 : BeamState α D) (stop : Bool)
    (hp : st.CurSequences.Pairwise Unrelated)
    (hb : expandBody net beamSize expandBeam blankId t st = some (st1, stop)) :
    st1.CurSequences.Pairwise Unrelated := by
  unfold expandBody at hb
  simp only [Option.bind_eq_some, Option.map_eq_some'] at hb
  obtain ⟨i, hi, maxSeq, hget, fd, hfd, topN, htop, b, _, hst⟩ := hb
  injection hst with hst _
  subst hst
  have hlt := max_element_lt _ _ hi
  have hmax : maxSeq = st.CurSequences.get ⟨i, hlt⟩ := by
    rw [List.get?_eq_get hlt] at hget
    injection hget with hget
    exact hget.symm
  obtain ⟨f1, _, _, _⟩ := forward_decode_fields net _ _ _ fd hfd
  have hf1 : fd.1.labelseq = maxSeq.labelseq := f1
  rw [foldl_expandCandidate_cur]
  simp only
  rw [List.pairwise_append]
  refine ⟨hp.sublist (List.eraseIdx_sublist _ _), ?_, ?_⟩
  · rw [List.pairwise_map]
    have hn : (topN.take expandBeam).Pairwise (fun c d => c.1 ≠ d.1) := by
      have h1 := getTopN_fst_nodup _ _ _ htop
      have h2 : (topN.map Prod.fst).Pairwise (fun a b => a ≠ b) := h1
      rw [List.pairwise_map] at h2
      exact h2.sublist (List.take_sublist _ _)
    have hn2 := hn.sublist (List.filter_sublist (topN.take expandBeam)
      (p := fun c => decide (c.1 ≠ blankId)))
    exact List.Pairwise.imp (fun hcd => Unrelated_siblings _ _ _ _ _ hcd) hn2
  · intro a ha x hx
    simp only [List.mem_map] at hx
    obtain ⟨c, _, hc⟩ := hx
    rw [← hc]
    apply Unrelated_extend
    have hr := pairwise_eraseIdx_get Unrelated Unrelated_symm st.CurSequences i hlt hp a ha
    rw [← hmax] at hr
    exact ⟨by simp only [newSeqCopy]; rw [hf1]; exact hr.1,
      by simp only [newSeqCopy]; rw [hf1]; exact hr.2⟩

theorem expandPasses_unrelated (net : Network α D) (beamSize expandBeam blankId t : Nat) :
    ∀ (n : Nat) (st st1 : BeamState α D), st.CurSequences.Pairwise Unrelated →
      expandPasses net beamSize expandBeam blankId t n st = some st1 →
      st1.CurSequences.Pairwise Unrelated := by
  intro n
  induction n with
  | zero =>
    intro st st1 h hp
    simp only [expandPasses, Option.some.injEq] at hp
    rw [← hp]
    exact h
  | succ n ih =>
    intro st st1 h hp
    unfold expandPasses at hp
    split at hp
    · rename_i s2 hb
      exact ih _ _ (expandBody_unrelated net beamSize expandBeam blankId t st _ false h hb) hp
    · simp at hp

/-- C15, as the code has it: the non-blank branch appends to `CurSequences`
without looking for a hypothesis of equal labels, so duplicates can occur.
They cannot when the hypotheses `carried` into the frame have labels none of
which is a prefix of another's, as in the first frame of an utterance: then
at the head of every pass, and after it, no hypothesis of `CurSequences` has
labels that are a prefix of another's, and no two have the same labels. -/
theorem cur_distinct_when_prefix_free (net : Network α D)
    (beamSize expandBeam blankId t n : Nat)
    (carried : List (Sequence α D)) (st : BeamState α D)
    (hc : carried.Pairwise Unrelated)
    (hpass : expandPasses net beamSize expandBeam blankId t n
      { CurSequences := carried, nextSequences := [] } = some st) :
    st.CurSequences.Pairwise Unrelated ∧
    (st.CurSequences.map (fun s => s.labelseq)).Nodup ∧
    (∀ st1 stop, expandBody net beamSize expandBeam blankId t st = some (st1, stop) →
      (st1.CurSequences.map (fun s => s.labelseq)).Nodup) ∧
    (beamInit net blankId).Pairwise Unrelated := by
  have key : ∀ v : List (Sequence α D), v.Pairwise Unrelated →
      (v.map (fun s => s.labelseq)).Nodup := by
    intro v hv
    unfold List.Nodup
    rw [List.pairwise_map]
    exact List.Pairwise.imp (fun h => Unrelated_ne _ _ h) hv
  have hs := expandPasses_unrelated net beamSize expandBeam blankId t n _ st hc hpass
  refine ⟨hs, key _ hs, ?_, by simp [beamInit]⟩
  intro st1 stop hb
  exact key _ (expandBody_unrelated net beamSize expandBeam blankId t st st1 stop hs hb)

/-- C15 in frame 0 of `demoNet` with `beamSize = expandBeam = 2`: after two
passes `CurSequences` holds the single hypothesis `[1, 0, 0]`. -/
theorem cur_distinct_when_prefix_free_witness :
    expandPasses demoNet 2 2 1 0 2
        { CurSequences := beamInit demoNet 1, nextSequences := [] }
      = some { CurSequences := [⟨[1, 0, 0], -4, 3, 2, 3, [1, 0]⟩]
               nextSequences := [⟨[1], -1, 1, 1, 1, [1]⟩, ⟨[1, 0], -3, 2, 2, 2, [1, 0]⟩] } ∧
    (([⟨[1, 0, 0], -4, 3, 2, 3, [1, 0]⟩] : List (Sequence ℚ (List Nat))).map
      (fun s => s.labelseq)).Nodup :=
  ⟨by decide!,
   (cur_distinct_when_prefix_free demoNet 2 2 1 0 2 (beamInit demoNet 1)
      { CurSequences := [⟨[1, 0, 0], -4, 3, 2, 3, [1, 0]⟩]
        nextSequences := [⟨[1], -1, 1, 1, 1, [1]⟩, ⟨[1, 0], -3, 2, 2, 2, [1, 0]⟩] }
      (by simp [beamInit]) (by decide!)).2.1⟩

/-- C15 as stated fails: on `demoNet` with `beamSize = expandBeam = 2` frame 0
leaves `[1]` and `[1, 0]`; the first pass of frame 1 pops `[1]` and extends
it by label `0`, after which `CurSequences` holds `[1, 0]` twice. -/
theorem cur_duplicate_counterexample :
    beamFrames demoNet 2 2 (demoNet.vocabSize - 1) 3 [0]
        (beamInit demoNet (demoNet.vocabSize - 1))
      = Run.done [⟨[1], -1, 1, 1, 1, [1]⟩, ⟨[1, 0], -3, 2, 2, 2, [1, 0]⟩] ∧
    expandPasses demoNet 2 2 (demoNet.vocabSize - 1) 1 1
        { CurSequences := [⟨[1], -1, 1, 1, 1, [1]⟩, ⟨[1, 0], -3, 2, 2, 2, [1, 0]⟩]
          nextSequences := [] }
      = some { CurSequences := [⟨[1, 0], -3, 2, 2, 2, [1, 0]⟩, ⟨[1, 0], -3, 2, 1, 2, [1]⟩]
               nextSequences := [⟨[1], -2, 1, 1, 1, [1]⟩] } ∧
    ¬ (([⟨[1, 0], -3, 2, 2, 2, [1, 0]⟩, ⟨[1, 0], -3, 2, 1, 2, [1]⟩] :
        List (Sequence ℚ (List Nat))).map (fun s => s.labelseq)).Nodup := by
  refine ⟨by decide!, by decide!, ?_⟩
  decide

end CurDistinct

section LoopExit
variable {α D : Type} [LinearOrderedField α]

theorem expandBody_stop (net : Network α D) (beamSize expandBeam blankId t : Nat)
    (st st1 : BeamState α D) (stop : Bool)
    (hb : expandBody net beamSize expandBeam blankId t st = some (st1, stop)) :
    stopTest beamSize st1 = some stop := by
  unfold expandBody at hb
  simp only [Option.bind_eq_some, Option.map_eq_some'] at hb
  obtain ⟨i, _, maxSeq, _, fd, _, topN, _, b, hstop, hst⟩ := hb
  injection hst with hst hb2
  subst hst
  subst hb2
  exact hstop

theorem expandBody_cur_nonempty (net : Network α D) (beamSize expandBeam blankId t : Nat)
    (st st1 : BeamState α D) (stop : Bool) (he1 : 2 ≤ expandBeam)
    (hb : expandBody net beamSize expandBeam blankId t st = some (st1, stop)) :
    st1.CurSequences ≠ [] := by
  unfold expandBody at hb
  simp only [Option.bind_eq_some, Option.map_eq_some'] at hb
  obtain ⟨i, _, maxSeq, _, fd, _, topN, htop, b, _, hst⟩ := hb
  injection hst with hst _
  subst hst
  rw [foldl_expandCandidate_cur]
  obtain ⟨hN, hlen, _⟩ := getTopN_spec _ _ _ htop
  have hnd := getTopN_fst_nodup _ _ _ htop
  have hl : (topN.take expandBeam).length = expandBeam := by
    rw [List.length_take]
    omega
  have hnd2 : ((topN.take expandBeam).map Prod.fst).Nodup :=
    hnd.sublist ((List.take_sublist _ _).map _)
  generalize topN.take expandBeam = cs at hl hnd2 ⊢
  match cs, hl, hnd2 with
  | [], hl, _ =>
    simp at hl
    omega
  | [_], hl, _ =>
    simp at hl
    omega
  | c0 :: c1 :: rest, _, hnd2 =>
    have hne : c0.1 ≠ c1.1 := by
      simp only [List.map_cons, List.nodup_cons, List.mem_cons] at hnd2
      exact fun h => hnd2.1 (Or.inl h)
    intro hnil
    simp only [List.append_eq_nil, List.map_eq_nil_iff] at hnil
    have hf := hnil.2
    by_cases h0 : c0.1 = blankId
    · have h1 : c1.1 ≠ blankId := fun h => hne (h0.trans h.symm)
      have hm : c1 ∈ (c0 :: c1 :: rest).filter (fun c => decide (c.1 ≠ blankId)) := by
        simp [List.mem_filter, h1]
      rw [hf] at hm
      simp at hm
    · have hm : c0 ∈ (c0 :: c1 :: rest).filter (fun c => decide (c.1 ≠ blankId)) := by
        simp [List.mem_filter, h0]
      rw [hf] at hm
      simp at hm

theorem stopTest_true (beamSize : Nat) (st : BeamState α D) (hne : st.CurSequences ≠ [])
    (h : stopTest beamSize st = some true) :
    beamSize < st.nextSequences.length ∧
      ∃ ya yb, maxLogP st.CurSequences = some ya ∧ maxLogP st.nextSequences = some yb ∧
        ya < yb := by
  unfold stopTest at h
  have hl : st.CurSequences.length ≠ 0 := fun h0 => hne (List.length_eq_zero.mp h0)
  rw [if_neg hl] at h
  by_cases hn : st.nextSequences.length > beamSize
  · rw [if_pos hn] at h
    simp only [Option.bind_eq_some, Option.map_eq_some', Option.some.injEq,
      decide_eq_true_eq] at h
    obtain ⟨ya, hya, yb, hyb, hlt⟩ := h
    exact ⟨hn, ya, yb, hya, hyb, hlt⟩
  · rw [if_neg hn] at h
    simp at h

theorem expandLoop_last_pass (net : Network α D) (beamSize expandBeam blankId t : Nat) :
    ∀ (fuel : Nat) (st st1 : BeamState α D),
      expandLoop net beamSize expandBeam blankId t fuel st = Run.done st1 →
      ∃ st0, expandBody net beamSize expandBeam blankId t st0 = some (st1, true) := by
  intro fuel
  induction fuel with
  | zero =>
    intro st st1 h
    simp [expandLoop] at h
  | succ fuel ih =>
    intro st st1 h
    unfold expandLoop at h
    split at h
    · simp at h
    · rename_i s2 hb
      injection h with h
      subst h
      exact ⟨st, hb⟩
    · exact ih _ _ h

/-- C21: let `2 <= expandBeam` (and `expandBeam <= vocabSize`, which every
pass that `getTopN` lets through satisfies) and let `CurSequences` be the
non-empty list `carried` at the start of frame `t`.  At the head of every
pass and after every pass `CurSequences` is not empty, so the loop never
leaves through `CurSequences.size() == 0`.  If the loop exits, in state
`st1`, then `nextSequences` holds more than `beamSize` hypotheses and its
best score exceeds the best score left in `CurSequences`, and the pruning of
the frame leaves exactly `beamSize` hypotheses. -/
theorem expandLoop_exits_overfull (net : Network α D)
    (beamSize expandBeam blankId t fuel : Nat)
    (carried : List (Sequence α D)) (st1 : BeamState α D)
    (he1 : 2 ≤ expandBeam) (hne : carried ≠ [])
    (hloop : expandLoop net beamSize expandBeam blankId t fuel
      { CurSequences := carried, nextSequences := [] } = Run.done st1) :
    expandBeam ≤ net.vocabSize ∧
    (∀ n st, expandPasses net beamSize expandBeam blankId t n
        { CurSequences := carried, nextSequences := [] } = some st →
      st.CurSequences ≠ [] ∧
      ∀ st2 stop, expandBody net beamSize expandBeam blankId t st = some (st2, stop) →
        st2.CurSequences ≠ []) ∧
    st1.CurSequences ≠ [] ∧
    beamSize < st1.nextSequences.length ∧
    (∃ ya yb, maxLogP st1.CurSequences = some ya ∧ maxLogP st1.nextSequences = some yb ∧
      ya < yb) ∧
    beamFrame net beamSize expandBeam blankId fuel carried t
      = Run.done (prune st1.nextSequences beamSize) ∧
    (prune st1.nextSequences beamSize).length = beamSize := by
  obtain ⟨st0, hb⟩ := expandLoop_last_pass net beamSize expandBeam blankId t fuel _ st1 hloop
  have hcur := expandBody_cur_nonempty net beamSize expandBeam blankId t st0 st1 true he1 hb
  have hstop := expandBody_stop net beamSize expandBeam blankId t st0 st1 true hb
  obtain ⟨hlen, hbest⟩ := stopTest_true beamSize st1 hcur hstop
  have hV : expandBeam ≤ net.vocabSize := by
    unfold expandBody at hb
    simp only [Option.bind_eq_some, Option.map_eq_some'] at hb
    obtain ⟨i, _, maxSeq, _, fd, _, topN, htop, _⟩ := hb
    have h := (getTopN_spec _ _ _ htop).1
    rw [forwardmerged_length] at h
    exact h
  refine ⟨hV, ?_, hcur, hlen, hbest, ?_, ?_⟩
  · intro n st hp
    refine ⟨expandPasses_nonempty net beamSize expandBeam blankId t n _ st hne hp, ?_⟩
    intro st2 stop hb2
    exact expandBody_cur_nonempty net beamSize expandBeam blankId t st st2 stop he1 hb2
  · unfold beamFrame
    rw [hloop]
  · rw [prune_length]
    omega

/-- C21 on frame 0 of `demoNet` with `beamSize = expandBeam = 2`: the loop
exits after three passes with one hypothesis left in `CurSequences` and
three in `nextSequences`, of which pruning keeps two. -/
theorem expandLoop_exits_overfull_witness :
    expandLoop demoNet 2 2 1 0 3
        { CurSequences := beamInit demoNet 1, nextSequences := [] }
      = Run.done { CurSequences := [⟨[1, 0, 0, 0], -6, 4, 3, 4, [1, 0, 0]⟩]
                   nextSequences := [⟨[1], -1, 1, 1, 1, [1]⟩, ⟨[1, 0], -3, 2, 2, 2, [1, 0]⟩,
                     ⟨[1, 0, 0], -5, 3, 3, 3, [1, 0, 0]⟩] } ∧
    2 < ([⟨[1], -1, 1, 1, 1, [1]⟩, ⟨[1, 0], -3, 2, 2, 2, [1, 0]⟩,
        ⟨[1, 0, 0], -5, 3, 3, 3, [1, 0, 0]⟩] : List (Sequence ℚ (List Nat))).length ∧
    (prune ([⟨[1], -1, 1, 1, 1, [1]⟩, ⟨[1, 0], -3, 2, 2, 2, [1, 0]⟩,
        ⟨[1, 0, 0], -5, 3, 3, 3, [1, 0, 0]⟩] : List (Sequence ℚ (List Nat))) 2).length = 2 :=
  have h := expandLoop_exits_overfull demoNet 2 2 1 0 3 (beamInit demoNet 1)
    { CurSequences := [⟨[1, 0, 0, 0], -6, 4, 3, 4, [1, 0, 0]⟩]
      nextSequences := [⟨[1], -1, 1, 1, 1, [1]⟩, ⟨[1, 0], -3, 2, 2, 2, [1, 0]⟩,
        ⟨[1, 0, 0], -5, 3, 3, 3, [1, 0, 0]⟩] }
    (by decide) (by simp [beamInit]) (by decide!)
  ⟨by decide!, h.2.2.2.1, h.2.2.2.2.2.2⟩

end LoopExit

section Prefix
variable {α D : Type} [LinearOrderedField α]

theorem isPrefixLoop_range (a b : Sequence α D) :
    ∀ (m k : Nat), k + m ≤ a.labelseq.length → k + m ≤ b.labelseq.length →
      isPrefixLoop a b (List.range' k m)
        = some (decide (∀ n, k ≤ n → n < k + m → a.labelseq.get? n = b.labelseq.get? n)) := by
  intro m
  induction m with
  | zero =>
    intro k _ _
    simp only [List.range'_zero, isPrefixLoop, Nat.add_zero]
    congr 1
    symm
    apply decide_eq_true
    intro n h1 h2
    omega
  | succ m ih =>
    intro k ha hb
    have hka : k < a.labelseq.length := by omega
    have hkb : k < b.labelseq.length := by omega
    simp only [List.range'_succ, isPrefixLoop, List.get?_eq_get hka, List.get?_eq_get hkb,
      Option.some_bind]
    by_cases hxy : a.labelseq.get ⟨k, hka⟩ = b.labelseq.get ⟨k, hkb⟩
    · rw [if_neg (by simpa using hxy), ih (k + 1) (by omega) (by omega)]
      congr 1
      apply decide_eq_decide.mpr
      constructor
      · intro h n h1 h2
        rcases Nat.eq_or_lt_of_le h1 with h3 | h3
        · subst h3
          rw [List.get?_eq_get hka, List.get?_eq_get hkb, hxy]
        · exact h n h3 (by omega)
      · intro h n h1 h2
        exact h n (by omega) (by omega)
    · rw [if_pos (by simpa using hxy)]
      congr 1
      symm
      apply decide_eq_false
      intro h
      have := h k (Nat.le_refl k) (by omega)
      rw [List.get?_eq_get hka, List.get?_eq_get hkb] at this
      exact hxy (Option.some.inj this)

theorem prefix_iff_get? (a b : List Nat) (h : a.length ≤ b.length) :
    a <+: b ↔ ∀ n, n < a.length → a.get? n = b.get? n := by
  constructor
  · rintro ⟨t, rfl⟩ n hn
    simp [List.getElem?_append_left hn]
  · intro hall
    rw [List.prefix_iff_eq_take]
    apply List.ext_get?
    intro n
    by_cases hn : n < a.length
    · rw [hall n hn]
      simp [List.getElem?_take_of_lt hn]
    · have h1 : a.length ≤ n := by omega
      rw [List.get?_eq_none.mpr h1, List.get?_eq_none.mpr]
      simp
      omega

theorem isPrefix_spec (a b : Sequence α D) :
    isPrefix a b
      = some (decide (a.labelseq <+: b.labelseq ∧ a.labelseq.length < b.labelseq.length)) := by
  unfold isPrefix
  by_cases hlen : a.labelseq.length < b.labelseq.length
  · have hne : a.labelseq ≠ b.labelseq := by
      intro h
      rw [h] at hlen
      exact Nat.lt_irrefl _ hlen
    rw [if_neg (by
      intro h
      rcases h with h | h
      · exact hne h
      · exact Nat.lt_irrefl _ (Nat.lt_of_lt_of_le hlen h))]
    rw [List.range_eq_range', isPrefixLoop_range a b a.labelseq.length 0 (by omega) (by omega)]
    congr 1
    apply decide_eq_decide.mpr
    rw [prefix_iff_get? _ _ (Nat.le_of_lt hlen)]
    constructor
    · intro h
      exact ⟨fun n hn => h n (Nat.zero_le n) (by omega), hlen⟩
    · intro h n _ hn
      exact h.1 n (by omega)
  · rw [if_pos (Or.inr (Nat.le_of_not_lt hlen))]
    congr 1
    symm
    apply decide_eq_false
    intro h
    exact hlen h.2

theorem comparekeywordLoop_eq (a b : Sequence α D) :
    ∀ ns : List Nat, comparekeywordLoop a b.labelseq ns = isPrefixLoop a b ns := by
  intro ns
  induction ns with
  | nil => rfl
  | cons n ns ih =>
    simp only [comparekeywordLoop, isPrefixLoop]
    rw [ih]

/-- C22: for all hypotheses `a` and `b`, `isPrefix(a, b)` returns, and
returns `true` exactly when `a.labelseq` is a prefix of `b.labelseq` and
strictly shorter; `isPrefix(a, a)` is `false`; and
`comparekeyword(a, b.labelseq)` returns what `isPrefix(a, b)` returns.  No
read of either loop is out of range. -/
theorem isPrefix_iff_strict_prefix (a b : Sequence α D) :
    (∃ r, isPrefix a b = some r) ∧
    (isPrefix a b = some true ↔
      a.labelseq <+: b.labelseq ∧ a.labelseq.length < b.labelseq.length) ∧
    (isPrefix a b = some false ↔
      ¬ (a.labelseq <+: b.labelseq ∧ a.labelseq.length < b.labelseq.length)) ∧
    isPrefix a a = some false ∧
    comparekeyword a b.labelseq = isPrefix a b := by
  have hs := isPrefix_spec a b
  refine ⟨⟨_, hs⟩, ?_, ?_, ?_, ?_⟩
  · rw [hs]
    simp only [Option.some.injEq, decide_eq_true_eq]
  · rw [hs]
    simp only [Option.some.injEq, decide_eq_false_iff_not]
  · rw [isPrefix_spec a a]
    congr 1
    apply decide_eq_false
    intro h
    exact Nat.lt_irrefl _ h.2
  · unfold comparekeyword isPrefix
    rw [comparekeywordLoop_eq]

end Prefix

section AnyArrangement
variable {α D : Type} [LinearOrderedField α]

theorem nth_element_eq_sortedNth (dp : List (Nat × α)) (N : Nat) :
    nth_element dp N = nth_elementBy sortedNth dp N := by
  unfold nth_element nth_elementBy sortedNth
  split
  · rfl
  · split <;> simp_all

theorem expandBody_eq_sortedNth (net : Network α D) (beamSize expandBeam blankId t : Nat)
    (st : BeamState α D) :
    expandBody net beamSize expandBeam blankId t st
      = expandBodyBy sortedNth net beamSize expandBeam blankId t st := by
  unfold expandBody expandBodyBy getTopN getTopNBy
  simp only [nth_element_eq_sortedNth]

theorem expandLoop_eq_sortedNth (net : Network α D) (beamSize expandBeam blankId t : Nat) :
    ∀ (fuel : Nat) (st : BeamState α D),
      expandLoop net beamSize expandBeam blankId t fuel st
        = expandLoopBy sortedNth net beamSize expandBeam blankId t fuel st := by
  intro fuel
  induction fuel with
  | zero => intro st; rfl
  | succ n ih =>
    intro st
    unfold expandLoop expandLoopBy
    rw [expandBody_eq_sortedNth]
    cases expandBodyBy sortedNth net beamSize expandBeam blankId t st with
    | none => rfl
    | some r =>
      obtain ⟨st1, b⟩ := r
      cases b
      · exact ih st1
      · rfl

theorem beamFrame_eq_sortedNth (net : Network α D) (beamSize expandBeam blankId fuel : Nat)
    (carried : List (Sequence α D)) (t : Nat) :
    beamFrame net beamSize expandBeam blankId fuel carried t
      = beamFrameBy sortedNth net beamSize expandBeam blankId fuel carried t := by
  unfold beamFrame beamFrameBy
  rw [expandLoop_eq_sortedNth]

theorem beamFrames_eq_sortedNth (net : Network α D) (beamSize expandBeam blankId fuel : Nat) :
    ∀ (ts : List Nat) (carried : List (Sequence α D)),
      beamFrames net beamSize expandBeam blankId fuel ts carried
        = beamFramesBy sortedNth net beamSize expandBeam blankId fuel ts carried := by
  intro ts
  induction ts with
  | nil => intro carried; rfl
  | cons t ts ih =>
    intro carried
    unfold beamFrames beamFramesBy
    rw [beamFrame_eq_sortedNth]
    cases beamFrameBy sortedNth net beamSize expandBeam blankId fuel carried t with
    | done next1 => exact ih next1
    | ub => rfl
    | timeout => rfl

theorem WriteOutput_beam_eq_sortedNth (net : Network α D) (beamSize expandBeam fuel : Nat) :
    WriteOutput_beam net beamSize expandBeam fuel
      = WriteOutput_beamBy sortedNth net beamSize expandBeam fuel := by
  unfold WriteOutput_beam WriteOutput_beamBy
  simp only [beamFrames_eq_sortedNth]

theorem expandBodyBy_coherent (impl : NthElement α) (net : Network α D)
    (beamSize expandBeam blankId t : Nat) (st : BeamState α D)
    (he2 : expandBeam ≤ net.vocabSize)
    (hall : AllSeq (Coherent net) st) (hne : st.CurSequences ≠ []) :
    ∃ (i : Nat) (x : Sequence α D) (stop : Bool),
      max_element st.CurSequences = some i ∧ i < st.CurSequences.length ∧
      st.CurSequences.get? i = some x ∧ x ∈ st.CurSequences ∧
      stopTest beamSize (passBy impl net expandBeam blankId t st i x) = some stop ∧
      expandBodyBy impl net beamSize expandBeam blankId t st
        = some (passBy impl net expandBeam blankId t st i x, stop) := by
  obtain ⟨i, hi, hlt⟩ := max_element_isSome _ hne
  have hget : st.CurSequences.get? i = some (st.CurSequences.get ⟨i, hlt⟩) :=
    List.get?_eq_get hlt
  have hmem : st.CurSequences.get ⟨i, hlt⟩ ∈ st.CurSequences := List.get_mem _ _ _
  obtain ⟨k, hfd⟩ := forward_decode_coherent net _ (hall.1 _ hmem)
  have hlen : ¬ (forwardmerged net (refresh net (st.CurSequences.get ⟨i, hlt⟩)) t).enum.length
      < expandBeam := by
    rw [List.enum_length, forwardmerged_length]
    omega
  obtain ⟨stop, hstop, _⟩ := stopTest_isSome beamSize
    (passBy impl net expandBeam blankId t st i (st.CurSequences.get ⟨i, hlt⟩))
  refine ⟨i, _, stop, hi, hlt, hget, hmem, hstop, ?_⟩
  unfold expandBodyBy getTopNBy nth_elementBy
  simp only [hi, Option.some_bind, hget, hfd, if_neg hlen]
  unfold passBy candidatesBy at hstop ⊢
  rw [hstop]
  rfl

theorem candidatesBy_spec (impl : NthElement α) (net : Network α D) (expandBeam t : Nat)
    (x : Sequence α D) (he2 : expandBeam ≤ net.vocabSize) :
    (candidatesBy impl net expandBeam t x).length = expandBeam ∧
    ((candidatesBy impl net expandBeam t x).map Prod.fst).Nodup ∧
    (∀ c ∈ candidatesBy impl net expandBeam t x,
      c.1 < net.vocabSize ∧ c.2 = net.joint t (net.decoder x.labelseq) c.1) ∧
    (∀ r, r < net.vocabSize → r ∉ (candidatesBy impl net expandBeam t x).map Prod.fst →
      ∀ c ∈ candidatesBy impl net expandBeam t x,
        net.joint t (net.decoder x.labelseq) r ≤ c.2) := by
  have hp := impl.perm (forwardmerged net (refresh net x) t).enum expandBeam
  have htop := impl.top (forwardmerged net (refresh net x) t).enum expandBeam
  have hlenp : (impl.arrange (forwardmerged net (refresh net x) t).enum expandBeam).length
      = net.vocabSize := by
    rw [hp.length_eq, List.enum_length, forwardmerged_length]
  have hnd : ((impl.arrange (forwardmerged net (refresh net x) t).enum expandBeam).map
      Prod.fst).Nodup :=
    ((hp.map Prod.fst).nodup_iff).mpr (enum_fst_nodup _)
  have hval : ∀ c ∈ impl.arrange (forwardmerged net (refresh net x) t).enum expandBeam,
      c.1 < net.vocabSize ∧ c.2 = net.joint t (net.decoder x.labelseq) c.1 := by
    intro c hc
    have hc2 := hp.mem_iff.mp hc
    have h1 : c.1 < net.vocabSize := by
      have := List.fst_lt_of_mem_enum hc2
      rwa [forwardmerged_length] at this
    refine ⟨h1, ?_⟩
    have h2 := mem_enum_get _ c hc2
    simp only [forwardmerged, refresh, List.get?_eq_getElem?, List.getElem?_map,
      List.getElem?_range h1, Option.map_some', Option.some.injEq] at h2
    exact h2.symm
  unfold candidatesBy
  refine ⟨by rw [List.length_take, hlenp]; omega, ?_, ?_, ?_⟩
  · exact hnd.sublist ((List.take_sublist _ _).map _)
  · intro c hc
    exact hval c (List.mem_of_mem_take hc)
  · intro r hr hnot c hc
    have hmem : (r, net.joint t (net.decoder x.labelseq) r)
        ∈ impl.arrange (forwardmerged net (refresh net x) t).enum expandBeam := by
      apply hp.mem_iff.mpr
      apply List.mk_mem_enum_iff_getElem?.mpr
      simp [forwardmerged, refresh, List.getElem?_range hr]
    rw [← List.take_append_drop expandBeam
      (impl.arrange (forwardmerged net (refresh net x) t).enum expandBeam)] at hmem
    rcases List.mem_append.mp hmem with h1 | h1
    · exact absurd (List.mem_map_of_mem Prod.fst h1) hnot
    · exact htop c hc _ h1

theorem getTopNBy_spec (impl : NthElement α) (prob : List α) (N : Nat)
    (topN : List (Nat × α)) (h : getTopNBy impl prob N = some topN) :
    N ≤ prob.length ∧ topN.Perm prob.enum ∧ ∀ c ∈ topN, c.1 < prob.length := by
  unfold getTopNBy nth_elementBy at h
  split at h
  · simp at h
  · rename_i hN
    injection h with h
    subst h
    rw [List.enum_length] at hN
    refine ⟨by omega, impl.perm _ _, ?_⟩
    intro c hc
    exact List.fst_lt_of_mem_enum ((impl.perm _ _).mem_iff.mp hc)

theorem expandBodyBy_preserves (impl : NthElement α) (net : Network α D)
    (P : Sequence α D → Prop)
    (hlogP : ∀ s x, P s → P { s with logP := x })
    (hfd : ∀ s fd, P s →
      forward_decode net (newSeqCopy s) net.vocabSize s.labelseq.length = some fd → P fd.1)
    (hext : ∀ s id x, P s → s.processlength = s.labelseq.length → id < net.vocabSize →
      P (extendSeq s id x))
    (beamSize expandBeam blankId t : Nat)
    (st st1 : BeamState α D) (stop : Bool) (h : AllSeq P st)
    (hb : expandBodyBy impl net beamSize expandBeam blankId t st = some (st1, stop)) :
    AllSeq P st1 := by
  unfold expandBodyBy at hb
  simp only [Option.bind_eq_some, Option.map_eq_some'] at hb
  obtain ⟨i, _, maxSeq, hget, fd, hfd1, topN, htop, b, _, hst⟩ := hb
  injection hst with hst _
  subst hst
  have hmem : maxSeq ∈ st.CurSequences := List.get?_mem hget
  obtain ⟨f1, _, _, _⟩ := forward_decode_fields net _ _ _ fd hfd1
  have hpl : fd.1.processlength = fd.1.labelseq.length := by
    rw [forward_decode_processlength net _ _ _ fd hfd1, f1]
    rfl
  obtain ⟨_, _, hids⟩ := getTopNBy_spec impl _ _ _ htop
  rw [forwardmerged_length] at hids
  apply foldl_expandCandidate_preserves net P hlogP hext blankId fd.1
    (hfd maxSeq fd (h.1 maxSeq hmem) hfd1) hpl
  · intro c hc
    exact hids c (List.mem_of_mem_take hc)
  · exact ⟨fun s hs => h.1 s ((List.eraseIdx_sublist _ _).subset hs), h.2⟩

theorem expandLoopBy_mono (impl : NthElement α) (net : Network α D)
    (beamSize expandBeam blankId t : Nat) :
    ∀ (fuel : Nat) (st : BeamState α D) (k : Nat),
      expandLoopBy impl net beamSize expandBeam blankId t fuel st ≠ Run.timeout →
      expandLoopBy impl net beamSize expandBeam blankId t (fuel + k) st
        = expandLoopBy impl net beamSize expandBeam blankId t fuel st := by
  intro fuel
  induction fuel with
  | zero => intro st k h; exact absurd rfl h
  | succ n ih =>
    intro st k h
    have hk : n + 1 + k = (n + k) + 1 := by omega
    rw [hk]
    unfold expandLoopBy at h ⊢
    cases hb : expandBodyBy impl net beamSize expandBeam blankId t st with
    | none => rfl
    | some r =>
      obtain ⟨st1, stop⟩ := r
      cases stop with
      | true => rfl
      | false =>
        simp only [hb] at h ⊢
        exact ih st1 k h

theorem beamFrameBy_mono (impl : NthElement α) (net : Network α D)
    (beamSize expandBeam blankId : Nat)
    (fuel k : Nat) (carried : List (Sequence α D)) (t : Nat)
    (h : beamFrameBy impl net beamSize expandBeam blankId fuel carried t ≠ Run.timeout) :
    beamFrameBy impl net beamSize expandBeam blankId (fuel + k) carried t
      = beamFrameBy impl net beamSize expandBeam blankId fuel carried t := by
  unfold beamFrameBy at h ⊢
  have hl : expandLoopBy impl net beamSize expandBeam blankId t fuel
      { CurSequences := carried, nextSequences := [] } ≠ Run.timeout := by
    intro h2
    rw [h2] at h
    exact h rfl
  rw [expandLoopBy_mono impl net beamSize expandBeam blankId t fuel _ k hl]

theorem beamFramesBy_mono (impl : NthElement α) (net : Network α D)
    (beamSize expandBeam blankId : Nat) (fuel k : Nat) :
    ∀ (ts : List Nat) (carried : List (Sequence α D)),
      beamFramesBy impl net beamSize expandBeam blankId fuel ts carried ≠ Run.timeout →
      beamFramesBy impl net beamSize expandBeam blankId (fuel + k) ts carried
        = beamFramesBy impl net beamSize expandBeam blankId fuel ts carried := by
  intro ts
  induction ts with
  | nil => intro carried _; rfl
  | cons t ts ih =>
    intro carried h
    unfold beamFramesBy at h ⊢
    have hf : beamFrameBy impl net beamSize expandBeam blankId fuel carried t ≠ Run.timeout := by
      intro h2
      rw [h2] at h
      exact h rfl
    rw [beamFrameBy_mono impl net beamSize expandBeam blankId fuel k carried t hf]
    cases hr : beamFrameBy impl net beamSize expandBeam blankId fuel carried t with
    | done next1 =>
      rw [hr] at h
      exact ih next1 h
    | ub => rfl
    | timeout => exact absurd hr hf

theorem WriteOutput_beamBy_of_frames (impl : NthElement α) (net : Network α D)
    (beamSize expandBeam fuel : Nat)
    (final : List (Sequence α D)) (h0 : 0 < net.vocabSize)
    (hrun : beamFramesBy impl net beamSize expandBeam (net.vocabSize - 1) fuel
        (List.range net.numFrames) (beamInit net (net.vocabSize - 1)) = Run.done final)
    (hin : ∀ s ∈ final, InRange net.vocabSize s) (hne : final ≠ []) :
    ∃ out, WriteOutput_beamBy impl net beamSize expandBeam fuel = Run.done out := by
  have hnn : normalize final ≠ [] := by
    simpa [normalize] using hne
  obtain ⟨i, hi, hlt⟩ := max_element_isSome _ hnn
  have hget : (normalize final).get? i = some ((normalize final).get ⟨i, hlt⟩) :=
    List.get?_eq_get hlt
  have hyb : InRange net.vocabSize ((normalize final).get ⟨i, hlt⟩) :=
    normalize_inRange _ _ hin _ (List.get_mem _ _ _)
  obtain ⟨out, hout, _⟩ := writeBest_spec net.vocabSize (net.vocabSize - 1) _ (by omega) hyb
  refine ⟨out, ?_⟩
  unfold WriteOutput_beamBy
  simp only [hrun, hi, Option.some_bind, hget, hout]

theorem argmaxTrace_all_label (net : Network α D) (blankId id : Nat)
    (hvm : ∀ (t : Nat) (fed : List Nat),
      VectorMax ((List.range net.vocabSize).map (net.joint t (net.decoder fed))) = some id) :
    ∀ (ts : List Nat) (emitted : List Nat),
      argmaxTrace net blankId ts emitted = some (List.replicate ts.length id) := by
  intro ts
  induction ts with
  | nil => intro emitted; rfl
  | cons t ts ih =>
    intro emitted
    simp only [argmaxTrace, hvm, Option.some_bind, ih, Option.map_some', List.length_cons,
      List.replicate_succ]

theorem longChattyNet_greedy_none : WriteOutput_greedy longChattyNet = none := by
  have hlen : (List.range 2000).length = 2000 := List.length_range 2000
  have hrun := greedyFrames_all_label longChattyNet 1 0 (by decide) (by decide)
    longChattyNet_argmax (List.range 2000)
    { fed := [1], greedyOutputMax := [], lmt := 0 } (by rw [hlen])
  rw [hlen] at hrun
  have hstep := greedyFrame_overflow longChattyNet 1 0 (by decide)
    longChattyNet_argmax
    { fed := [1] ++ List.replicate 2000 0
      greedyOutputMax := [] ++ List.replicate 2000 (oneHotCol longChattyNet.vocabSize 0)
      lmt := 0 + 2000 } 2000 (Nat.le_add_left 2000 0)
  have hr : List.range longChattyNet.numFrames = List.range 2000 ++ [2000] :=
    List.range_succ 2000
  have hv : longChattyNet.vocabSize - 1 = 1 := by decide
  have hb : (oneHot longChattyNet.vocabSize 1 : Option (List ℚ))
      = some (oneHotCol longChattyNet.vocabSize 1) := by decide!
  unfold WriteOutput_greedy
  rw [hr, hv]
  dsimp only
  rw [hb, Option.some_bind, greedyFrames_append, hrun, Option.some_bind]
  unfold greedyFrames
  rw [hstep]
  rfl

/-- C7 at the failing input `longChattyNet`, 2001 frames with the non-blank
arg-max `0` at each: the joiner queries of the greedy decoder return the
arg-max ids `0, ..., 0` (2001 of them, none the blank), so the claim has the
output list these 2001 labels; the decoder writes the label of frame 2000
outside its 2000-column buffer and has no defined output. -/
theorem greedy_drops_labels_beyond_buffer :
    argmaxTrace longChattyNet (longChattyNet.vocabSize - 1)
        (List.range longChattyNet.numFrames) [] = some (List.replicate 2001 0) ∧
    (∀ id ∈ List.replicate 2001 0, id ≠ longChattyNet.vocabSize - 1) ∧
    WriteOutput_greedy longChattyNet = none := by
  have htrace := argmaxTrace_all_label longChattyNet (longChattyNet.vocabSize - 1) 0
    longChattyNet_argmax (List.range longChattyNet.numFrames) []
  have hlen : (List.range longChattyNet.numFrames).length = 2001 := List.length_range 2001
  rw [hlen] at htrace
  refine ⟨htrace, ?_, longChattyNet_greedy_none⟩
  intro id hid
  rw [List.eq_of_mem_replicate hid]
  decide

end AnyArrangement

section Termination
variable {α D : Type} [LinearOrderedField α]

theorem LogAdd_ge (a b : ℝ) : a ≤ LogAdd a b ∧ b ≤ LogAdd a b := by
  unfold LogAdd
  have ha := Real.exp_pos a
  have hb := Real.exp_pos b
  constructor
  · calc a = Real.log (Real.exp a) := (Real.log_exp a).symm
      _ ≤ Real.log (Real.exp a + Real.exp b) := Real.log_le_log ha (by linarith)
  · calc b = Real.log (Real.exp b) := (Real.log_exp b).symm
      _ ≤ Real.log (Real.exp a + Real.exp b) := Real.log_le_log hb (by linarith)

theorem sum_map_eraseIdx (g : Sequence α D → Nat) :
    ∀ (v : List (Sequence α D)) (i : Nat) (h : i < v.length),
      ((v.eraseIdx i).map g).sum + g (v.get ⟨i, h⟩) = (v.map g).sum := by
  intro v
  induction v with
  | nil => intro i h; simp at h
  | cons x xs ih =>
    intro i h
    cases i with
    | zero => simp; omega
    | succ j =>
      have hj : j < xs.length := by simpa using h
      have := ih j hj
      simp only [List.eraseIdx_cons_succ, List.map_cons, List.sum_cons,
        List.get_cons_succ] at this ⊢
      omega

theorem sum_map_le_sum_map {β : Type} (g1 g2 : β → Nat) :
    ∀ (v : List β), (∀ y ∈ v, g1 y ≤ g2 y) → (v.map g1).sum ≤ (v.map g2).sum := by
  intro v
  induction v with
  | nil => intro _; simp
  | cons x xs ih =>
    intro h
    have h1 := h x (List.mem_cons_self _ _)
    have h2 := ih (fun y hy => h y (List.mem_cons_of_mem _ hy))
    simp only [List.map_cons, List.sum_cons]
    omega

theorem mergeBlank_some_split (LogAdd : α → α → α) (seqK : Sequence α D) :
    ∀ (v merged : List (Sequence α D)), mergeBlank LogAdd seqK v = some merged →
      ∃ pre itseq post, v = pre ++ itseq :: post ∧ seqK.labelseq = itseq.labelseq ∧
        merged = pre ++ { itseq with logP := LogAdd seqK.logP itseq.logP } :: post := by
  intro v
  induction v with
  | nil => intro merged h; simp [mergeBlank] at h
  | cons y ys ih =>
    intro merged h
    unfold mergeBlank at h
    split at h
    · rename_i heq
      injection h with h
      subst h
      exact ⟨[], y, ys, rfl, heq, rfl⟩
    · cases hr : mergeBlank LogAdd seqK ys with
      | none => simp [hr] at h
      | some r =>
        simp only [hr, Option.map_some', Option.some.injEq] at h
        subst h
        obtain ⟨pre, itseq, post, h1, h2, h3⟩ := ih r hr
        exact ⟨y :: pre, itseq, post, by rw [h1]; rfl, h2, by rw [h3]; rfl⟩

theorem foldl_expandCandidate_next_labels (net : Network α D) (blankId : Nat)
    (tempSeq : Sequence α D) :
    ∀ (cs : List (Nat × α)) (st : BeamState α D), (∀ c ∈ cs, c.1 ≠ blankId) →
      (cs.foldl (expandCandidate net blankId tempSeq) st).nextSequences = st.nextSequences := by
  intro cs
  induction cs with
  | nil => intro st _; rfl
  | cons c cs ih =>
    intro st h
    simp only [List.foldl_cons]
    rw [ih _ (fun d hd => h d (List.mem_cons_of_mem _ hd)),
      expandCandidate_label net blankId tempSeq st c (h c (List.mem_cons_self _ _))]

theorem expandCandidate_next_congr (net : Network α D) (blankId : Nat)
    (tempSeq : Sequence α D) (st st2 : BeamState α D) (c : Nat × α)
    (h : st.nextSequences = st2.nextSequences) (hc : c.1 = blankId) :
    (expandCandidate net blankId tempSeq st c).nextSequences
      = (expandCandidate net blankId tempSeq st2 c).nextSequences := by
  unfold expandCandidate
  simp only [hc, if_true, h]
  split <;> rfl

theorem foldl_expandCandidate_next_blank (net : Network α D) (blankId : Nat)
    (tempSeq : Sequence α D) (cb : Nat × α) (hcb : cb.1 = blankId) :
    ∀ (cs : List (Nat × α)) (st : BeamState α D), (cs.map Prod.fst).Nodup → cb ∈ cs →
      (cs.foldl (expandCandidate net blankId tempSeq) st).nextSequences
        = (expandCandidate net blankId tempSeq st cb).nextSequences := by
  intro cs
  induction cs with
  | nil => intro st _ h; simp at h
  | cons c cs ih =>
    intro st hnd hmem
    simp only [List.map_cons, List.nodup_cons] at hnd
    simp only [List.foldl_cons]
    rcases List.mem_cons.mp hmem with h1 | h1
    · subst h1
      apply foldl_expandCandidate_next_labels
      intro d hd hdb
      apply hnd.1
      rw [hcb, ← hdb]
      exact List.mem_map_of_mem Prod.fst hd
    · have hc : c.1 ≠ blankId := by
        intro hcb2
        apply hnd.1
        rw [hcb2, ← hcb]
        exact List.mem_map_of_mem Prod.fst h1
      rw [ih _ hnd.2 h1]
      apply expandCandidate_next_congr _ _ _ _ _ _ _ hcb
      rw [expandCandidate_label net blankId tempSeq st c hc]

theorem expandCandidate_blank_cases (net : Network α D) (blankId : Nat)
    (tempSeq : Sequence α D) (st : BeamState α D) (c : Nat × α) (hc : c.1 = blankId)
    (hadd : ∀ a b : α, a ≤ net.LogAdd a b ∧ b ≤ net.LogAdd a b) :
    (((expandCandidate net blankId tempSeq st c).nextSequences.map (fun s => s.labelseq)
          = st.nextSequences.map (fun s => s.labelseq) ∧
        ∃ y ∈ st.nextSequences, y.labelseq = tempSeq.labelseq) ∨
      (expandCandidate net blankId tempSeq st c).nextSequences.length
        = st.nextSequences.length + 1) ∧
    st.nextSequences.length ≤ (expandCandidate net blankId tempSeq st c).nextSequences.length ∧
    (∀ y ∈ st.nextSequences, ∃ y2 ∈ (expandCandidate net blankId tempSeq st c).nextSequences,
      y.logP ≤ y2.logP) ∧
    (∃ e ∈ (expandCandidate net blankId tempSeq st c).nextSequences,
      c.2 + tempSeq.logP ≤ e.logP) := by
  unfold expandCandidate
  simp only [hc, if_true]
  split
  · rename_i merged hm
    obtain ⟨pre, itseq, post, h1, h2, h3⟩ := mergeBlank_some_split _ _ _ _ hm
    simp only
    refine ⟨Or.inl ⟨mergeBlank_labels _ _ _ _ hm, itseq, ?_, ?_⟩, ?_, ?_, ?_⟩
    · rw [h1]; simp
    · rw [← h2]; rfl
    · rw [h1, h3]; simp
    · intro y hy
      rw [h1] at hy
      rw [h3]
      rcases List.mem_append.mp hy with h4 | h4
      · exact ⟨y, List.mem_append_left _ h4, le_refl _⟩
      · rcases List.mem_cons.mp h4 with h5 | h5
        · refine ⟨_, List.mem_append_right _ (List.mem_cons_self _ _), ?_⟩
          rw [h5]
          exact (hadd _ _).2
        · exact ⟨y, List.mem_append_right _ (List.mem_cons_of_mem _ h5), le_refl _⟩
    · rw [h3]
      refine ⟨_, List.mem_append_right _ (List.mem_cons_self _ _), ?_⟩
      exact (hadd _ _).1
  · simp only
    refine ⟨Or.inr (by simp), by simp, ?_, ?_⟩
    · intro y hy
      exact ⟨y, List.mem_append_left _ hy, le_refl _⟩
    · exact ⟨_, List.mem_append_right _ (List.mem_singleton.mpr rfl), le_refl _⟩

theorem extensionsOf_congr (v w : List (Sequence α D)) (p : List Nat)
    (h : v.map (fun s => s.labelseq) = w.map (fun s => s.labelseq)) :
    extensionsOf v p = extensionsOf w p := by
  have key : ∀ u : List (Sequence α D), extensionsOf u p
      = (u.map (fun s => s.labelseq)).countP (fun l => decide (p <+: l)) := by
    intro u
    unfold extensionsOf
    rw [List.countP_map]
    rfl
  rw [key v, key w, h]

theorem dominates_mono (v w : List (Sequence α D)) (x : Sequence α D)
    (h : ∀ y ∈ v, ∃ y2 ∈ w, y.logP ≤ y2.logP) (hw : dominates w x = true) :
    dominates v x = true := by
  unfold dominates at hw ⊢
  rw [List.all_eq_true] at hw ⊢
  intro y hy
  obtain ⟨y2, hy2, hle⟩ := h y hy
  have := hw y2 hy2
  simp only [decide_eq_true_eq] at this ⊢
  exact le_trans hle this

theorem prefix_snoc_count (p l : List Nat) (ids : List Nat) (hnd : ids.Nodup) :
    ids.countP (fun i => decide (p ++ [i] <+: l)) + (if l = p then 1 else 0)
      ≤ (if p <+: l then 1 else 0) := by
  by_cases hp : p <+: l
  · rw [if_pos hp]
    obtain ⟨r, rfl⟩ := hp
    cases r with
    | nil =>
      have h0 : ids.countP (fun i => decide (p ++ [i] <+: p ++ [])) = 0 := by
        rw [List.countP_eq_zero]
        intro i _
        simp only [decide_eq_true_eq]
        intro hpre
        have := hpre.length_le
        simp at this
      rw [h0]
      simp
    | cons a r =>
      have hne : ¬ (p ++ a :: r = p) := by
        intro h
        have := congrArg List.length h
        simp at this
      rw [if_neg hne]
      have h1 : ids.countP (fun i => decide (p ++ [i] <+: p ++ a :: r))
          = ids.count a := by
        rw [List.count, List.countP_congr]
        intro i _
        simp only [decide_eq_true_eq, beq_iff_eq]
        rw [List.prefix_append_right_inj]
        simp [List.cons_prefix_cons]
      rw [h1]
      have := List.nodup_iff_count_le_one.mp hnd a
      omega
  · rw [if_neg hp]
    have hne : ¬ (l = p) := by
      intro h
      apply hp
      rw [h]
    rw [if_neg hne]
    have h0 : ids.countP (fun i => decide (p ++ [i] <+: l)) = 0 := by
      rw [List.countP_eq_zero]
      intro i _
      simp only [decide_eq_true_eq]
      intro hpre
      exact hp ((List.prefix_append p [i]).trans hpre)
    rw [h0]

theorem sum_indicator (P : Nat → Bool) :
    ∀ ids : List Nat, (ids.map (fun i => if P i then 1 else 0)).sum = ids.countP P := by
  intro ids
  induction ids with
  | nil => rfl
  | cons i ids ih =>
    simp only [List.map_cons, List.sum_cons, List.countP_cons, ih]
    omega

theorem sum_map_add_nat {β : Type} (f g : β → Nat) :
    ∀ l : List β, (l.map (fun i => f i + g i)).sum = (l.map f).sum + (l.map g).sum := by
  intro l
  induction l with
  | nil => rfl
  | cons i l ih =>
    simp only [List.map_cons, List.sum_cons, ih]
    omega

theorem sum_map_const_nat {β : Type} (k : Nat) :
    ∀ l : List β, (l.map (fun _ => k)).sum = l.length * k := by
  intro l
  induction l with
  | nil => simp
  | cons i l ih =>
    simp only [List.map_cons, List.sum_cons, ih, List.length_cons]
    rw [Nat.succ_mul]
    omega

theorem extensionsOf_children (p : List Nat) (ids : List Nat) (hnd : ids.Nodup) :
    ∀ v : List (Sequence α D),
      (ids.map (fun i => extensionsOf v (p ++ [i]))).sum
          + v.countP (fun y => decide (y.labelseq = p))
        ≤ extensionsOf v p := by
  intro v
  induction v with
  | nil => simp [extensionsOf]
  | cons y ys ih =>
    have hcons : ∀ q : List Nat, extensionsOf (y :: ys) q
        = extensionsOf ys q + (if decide (q <+: y.labelseq) then 1 else 0) := by
      intro q
      unfold extensionsOf
      rw [List.countP_cons]
    have hsum : (ids.map (fun i => extensionsOf (y :: ys) (p ++ [i]))).sum
        = (ids.map (fun i => extensionsOf ys (p ++ [i]))).sum
          + ids.countP (fun i => decide (p ++ [i] <+: y.labelseq)) := by
      rw [← sum_indicator, ← sum_map_add_nat]
      congr 1
      apply List.map_congr_left
      intro i _
      exact hcons (p ++ [i])
    have hstep := prefix_snoc_count p y.labelseq ids hnd
    rw [hsum, hcons p, List.countP_cons]
    simp only [decide_eq_true_eq] at hstep ⊢
    omega

theorem passBy_cur (impl : NthElement α) (net : Network α D) (expandBeam blankId t : Nat)
    (st : BeamState α D) (i : Nat) (x : Sequence α D) :
    (passBy impl net expandBeam blankId t st i x).CurSequences
      = st.CurSequences.eraseIdx i ++
        ((candidatesBy impl net expandBeam t x).filter (fun c => c.1 ≠ blankId)).map
          (fun c => extendSeq { newSeqCopy (refresh net x) with
                                logP := c.2 + (refresh net x).logP } c.1
                      (c.2 + (refresh net x).logP)) := by
  unfold passBy
  rw [foldl_expandCandidate_cur]

theorem blank_among_candidates (impl : NthElement α) (net : Network α D)
    (expandBeam blankId t L : Nat) (x : Sequence α D)
    (he1 : 1 ≤ expandBeam) (he2 : expandBeam ≤ net.vocabSize) (hb : blankId < net.vocabSize)
    (hblank : ∀ h : List Nat, L ≤ h.length → ∀ r, r < net.vocabSize → r ≠ blankId →
      net.joint t (net.decoder h) r < net.joint t (net.decoder h) blankId)
    (hL : L ≤ x.labelseq.length) :
    ∃ cb ∈ candidatesBy impl net expandBeam t x, cb.1 = blankId ∧
      ∀ c ∈ candidatesBy impl net expandBeam t x, c.1 ≠ blankId → c.2 < cb.2 := by
  obtain ⟨hlen, _, hval, htop⟩ := candidatesBy_spec impl net expandBeam t x he2
  have hin : blankId ∈ (candidatesBy impl net expandBeam t x).map Prod.fst := by
    by_contra hnot
    have hne : candidatesBy impl net expandBeam t x ≠ [] := by
      intro h
      rw [h] at hlen
      simp at hlen
      omega
    obtain ⟨c, hc⟩ := List.exists_mem_of_ne_nil _ hne
    have h1 := htop blankId hb hnot c hc
    obtain ⟨h2, h3⟩ := hval c hc
    have hcb : c.1 ≠ blankId := by
      intro h
      apply hnot
      rw [← h]
      exact List.mem_map_of_mem Prod.fst hc
    have h4 := hblank x.labelseq hL c.1 h2 hcb
    rw [← h3] at h4
    exact absurd h4 (not_lt.mpr h1)
  obtain ⟨cb, hcb, hcb1⟩ := List.mem_map.mp hin
  refine ⟨cb, hcb, hcb1, ?_⟩
  intro c hc hne
  obtain ⟨h2, h3⟩ := hval c hc
  obtain ⟨_, h5⟩ := hval cb hcb
  rw [h3, h5, hcb1]
  exact hblank x.labelseq hL c.1 h2 hne

theorem passBy_next_cases (impl : NthElement α) (net : Network α D)
    (expandBeam blankId t : Nat) (st : BeamState α D) (i : Nat) (x : Sequence α D)
    (he2 : expandBeam ≤ net.vocabSize)
    (hadd : ∀ a b : α, a ≤ net.LogAdd a b ∧ b ≤ net.LogAdd a b) :
    (((passBy impl net expandBeam blankId t st i x).nextSequences.map (fun s => s.labelseq)
          = st.nextSequences.map (fun s => s.labelseq) ∧
        ((∀ c ∈ candidatesBy impl net expandBeam t x, c.1 ≠ blankId) ∨
          ∃ y ∈ st.nextSequences, y.labelseq = x.labelseq)) ∨
      (passBy impl net expandBeam blankId t st i x).nextSequences.length
        = st.nextSequences.length + 1) ∧
    st.nextSequences.length ≤ (passBy impl net expandBeam blankId t st i x).nextSequences.length ∧
    (∀ y ∈ st.nextSequences, ∃ y2 ∈ (passBy impl net expandBeam blankId t st i x).nextSequences,
      y.logP ≤ y2.logP) ∧
    (∀ cb ∈ candidatesBy impl net expandBeam t x, cb.1 = blankId →
      ∃ e ∈ (passBy impl net expandBeam blankId t st i x).nextSequences,
        cb.2 + x.logP ≤ e.logP) := by
  obtain ⟨_, hnd, _, _⟩ := candidatesBy_spec impl net expandBeam t x he2
  by_cases hex : ∃ cb ∈ candidatesBy impl net expandBeam t x, cb.1 = blankId
  · obtain ⟨cb, hcb, hcb1⟩ := hex
    have hnext : (passBy impl net expandBeam blankId t st i x).nextSequences
        = (expandCandidate net blankId (refresh net x)
            { CurSequences := st.CurSequences.eraseIdx i, nextSequences := st.nextSequences }
            cb).nextSequences := by
      unfold passBy
      exact foldl_expandCandidate_next_blank net blankId _ cb hcb1 _ _ hnd hcb
    obtain ⟨h1, h2, h3, h4⟩ := expandCandidate_blank_cases net blankId (refresh net x)
      { CurSequences := st.CurSequences.eraseIdx i, nextSequences := st.nextSequences }
      cb hcb1 hadd
    rw [hnext]
    refine ⟨?_, h2, h3, ?_⟩
    · rcases h1 with ⟨h5, h6⟩ | h5
      · exact Or.inl ⟨h5, Or.inr h6⟩
      · exact Or.inr h5
    · intro cb2 hcb2 hcb21
      have heq : cb2 = cb := by
        have hinj := List.inj_on_of_nodup_map hnd hcb2 hcb
        exact hinj (by rw [hcb21, hcb1])
      rw [heq]
      exact h4
  · have hall : ∀ c ∈ candidatesBy impl net expandBeam t x, c.1 ≠ blankId := by
      intro c hc h
      exact hex ⟨c, hc, h⟩
    have hnext : (passBy impl net expandBeam blankId t st i x).nextSequences
        = st.nextSequences := by
      unfold passBy
      exact foldl_expandCandidate_next_labels net blankId _ _ _ hall
    rw [hnext]
    refine ⟨Or.inl ⟨rfl, Or.inl hall⟩, le_refl _, ?_, ?_⟩
    · intro y hy
      exact ⟨y, hy, le_refl _⟩
    · intro cb hcb hcb1
      exact absurd hcb1 (hall cb hcb)

theorem shortWeight_pos (expandBeam L : Nat) (x : Sequence α D) :
    1 ≤ shortWeight expandBeam L x := by
  unfold shortWeight
  exact Nat.one_le_pow _ _ (by omega)

theorem shortWeight_long (expandBeam L : Nat) (x : Sequence α D)
    (h : L ≤ x.labelseq.length) : shortWeight expandBeam L x = 1 := by
  unfold shortWeight
  rw [Nat.sub_eq_zero_of_le h, pow_zero]

theorem shortWeight_child (expandBeam L : Nat) (x y : Sequence α D)
    (hy : y.labelseq.length = x.labelseq.length + 1) (h : x.labelseq.length < L) :
    shortWeight expandBeam L x = (expandBeam + 1) * shortWeight expandBeam L y := by
  unfold shortWeight
  rw [hy]
  have : L - x.labelseq.length = (L - (x.labelseq.length + 1)) + 1 := by omega
  rw [this, pow_succ]
  ring

theorem weight_step (E a c : Nat) (hE : 1 ≤ E) (hc : c ≤ E) (ha : 1 ≤ a) :
    c * (a - 1) + 1 ≤ (E + 1) * a - 1 := by
  obtain ⟨k, rfl⟩ : ∃ k, a = k + 1 := ⟨a - 1, by omega⟩
  have h1 : c * k ≤ E * k := Nat.mul_le_mul_right k hc
  have h2 : (E + 1) * (k + 1) = E * k + E + k + 1 := by ring
  simp only [Nat.add_sub_cancel]
  omega

theorem fill_decreases (impl : NthElement α) (net : Network α D)
    (expandBeam blankId t L : Nat) (st : BeamState α D) (i : Nat) (x : Sequence α D)
    (hlt : i < st.CurSequences.length) (hx : x = st.CurSequences.get ⟨i, hlt⟩)
    (he1 : 1 ≤ expandBeam) (he2 : expandBeam ≤ net.vocabSize) (hb : blankId < net.vocabSize)
    (hblank : ∀ h : List Nat, L ≤ h.length → ∀ r, r < net.vocabSize → r ≠ blankId →
      net.joint t (net.decoder h) r < net.joint t (net.decoder h) blankId)
    (hadd : ∀ a b : α, a ≤ net.LogAdd a b ∧ b ≤ net.LogAdd a b)
    (hlen : (passBy impl net expandBeam blankId t st i x).nextSequences.length
      = st.nextSequences.length) :
    fillMeasure expandBeam L (passBy impl net expandBeam blankId t st i x)
      < fillMeasure expandBeam L st := by
  obtain ⟨hclen, hnd, _, _⟩ := candidatesBy_spec impl net expandBeam t x he2
  obtain ⟨hcase, _, _, _⟩ := passBy_next_cases impl net expandBeam blankId t st i x he2 hadd
  have hlab : (passBy impl net expandBeam blankId t st i x).nextSequences.map
        (fun s => s.labelseq) = st.nextSequences.map (fun s => s.labelseq) ∧
      ((∀ c ∈ candidatesBy impl net expandBeam t x, c.1 ≠ blankId) ∨
        ∃ y ∈ st.nextSequences, y.labelseq = x.labelseq) := by
    rcases hcase with h | h
    · exact h
    · omega
  obtain ⟨hlabels, hwhy⟩ := hlab
  have hext : ∀ p : List Nat,
      extensionsOf (passBy impl net expandBeam blankId t st i x).nextSequences p
        = extensionsOf st.nextSequences p := fun p => extensionsOf_congr _ _ p hlabels
  have herase := sum_map_eraseIdx (fun y : Sequence α D =>
    extensionsOf st.nextSequences y.labelseq + (shortWeight expandBeam L y - 1))
    st.CurSequences i hlt
  rw [← hx] at herase
  have hfl : ((candidatesBy impl net expandBeam t x).filter (fun c => c.1 ≠ blankId)).length
      ≤ expandBeam := by
    have h := List.length_filter_le (fun c : Nat × α => decide (c.1 ≠ blankId))
      (candidatesBy impl net expandBeam t x)
    omega
  have hnd2 : (((candidatesBy impl net expandBeam t x).filter
      (fun c => c.1 ≠ blankId)).map Prod.fst).Nodup :=
    hnd.sublist ((List.filter_sublist _).map _)
  have hchild := extensionsOf_children x.labelseq _ hnd2 st.nextSequences
  have hA2 : ∀ c : Nat × α,
      shortWeight expandBeam L (extendSeq { newSeqCopy (refresh net x) with
          logP := c.2 + (refresh net x).logP } c.1 (c.2 + (refresh net x).logP))
        = (expandBeam + 1) ^ (L - (x.labelseq.length + 1)) := by
    intro c
    simp [shortWeight, extendSeq, newSeqCopy, refresh]
  have hsum : (((candidatesBy impl net expandBeam t x).filter (fun c => c.1 ≠ blankId)).map
        (fun c => extendSeq { newSeqCopy (refresh net x) with
                              logP := c.2 + (refresh net x).logP } c.1
                    (c.2 + (refresh net x).logP))).map
        (fun y : Sequence α D =>
          extensionsOf (passBy impl net expandBeam blankId t st i x).nextSequences y.labelseq
            + (shortWeight expandBeam L y - 1))
      = ((candidatesBy impl net expandBeam t x).filter (fun c => c.1 ≠ blankId)).map
        (fun c => extensionsOf st.nextSequences (x.labelseq ++ [c.1])
          + ((expandBeam + 1) ^ (L - (x.labelseq.length + 1)) - 1)) := by
    rw [List.map_map]
    apply List.map_congr_left
    intro c _
    simp only [Function.comp, hext, hA2]
    simp [extendSeq, newSeqCopy, refresh]
  have hA1 : 1 ≤ (expandBeam + 1) ^ (L - (x.labelseq.length + 1)) :=
    Nat.one_le_pow _ _ (by omega)
  unfold fillMeasure
  rw [passBy_cur, List.map_append, List.sum_append, hsum,
    sum_map_add_nat (fun c : Nat × α => extensionsOf st.nextSequences (x.labelseq ++ [c.1]))
      (fun _ => (expandBeam + 1) ^ (L - (x.labelseq.length + 1)) - 1),
    sum_map_const_nat ((expandBeam + 1) ^ (L - (x.labelseq.length + 1)) - 1)]
  have hself : (st.CurSequences.eraseIdx i).map (fun y : Sequence α D =>
        extensionsOf (passBy impl net expandBeam blankId t st i x).nextSequences y.labelseq
          + (shortWeight expandBeam L y - 1))
      = (st.CurSequences.eraseIdx i).map (fun y : Sequence α D =>
        extensionsOf st.nextSequences y.labelseq + (shortWeight expandBeam L y - 1)) := by
    apply List.map_congr_left
    intro y _
    rw [hext]
  rw [hself]
  have hmm : (((candidatesBy impl net expandBeam t x).filter (fun c => c.1 ≠ blankId)).map
        (fun c => extensionsOf st.nextSequences (x.labelseq ++ [c.1]))).sum
      = ((((candidatesBy impl net expandBeam t x).filter (fun c => c.1 ≠ blankId)).map
          Prod.fst).map (fun i => extensionsOf st.nextSequences (x.labelseq ++ [i]))).sum := by
    rw [List.map_map]
    rfl
  rw [hmm]
  have hmul := Nat.mul_le_mul_right ((expandBeam + 1) ^ (L - (x.labelseq.length + 1)) - 1) hfl
  by_cases hL : L ≤ x.labelseq.length
  · have hsw : shortWeight expandBeam L x = 1 := shortWeight_long expandBeam L x hL
    have hz : L - (x.labelseq.length + 1) = 0 := by omega
    rw [hz, pow_zero] at hmul ⊢
    have hcnt : 1 ≤ st.nextSequences.countP (fun y => decide (y.labelseq = x.labelseq)) := by
      rcases hwhy with h | ⟨y, hy, hyl⟩
      · obtain ⟨cb, hcb, hcb1, _⟩ :=
          blank_among_candidates impl net expandBeam blankId t L x he1 he2 hb hblank hL
        exact absurd hcb1 (h cb hcb)
      · exact List.countP_pos_iff.mpr ⟨y, hy, by simpa using hyl⟩
    simp only [Nat.sub_self, Nat.mul_zero] at hmul ⊢
    omega
  · have hstep := weight_step expandBeam ((expandBeam + 1) ^ (L - (x.labelseq.length + 1)))
      _ he1 hfl hA1
    have hsw : shortWeight expandBeam L x
        = (expandBeam + 1) * (expandBeam + 1) ^ (L - (x.labelseq.length + 1)) := by
      unfold shortWeight
      have : L - x.labelseq.length = (L - (x.labelseq.length + 1)) + 1 := by omega
      rw [this, pow_succ]
      ring
    rw [← hsw] at hstep
    omega

theorem lead_decreases (impl : NthElement α) (net : Network α D)
    (expandBeam blankId t L : Nat) (st : BeamState α D) (i : Nat) (x : Sequence α D)
    (hlt : i < st.CurSequences.length) (hx : x = st.CurSequences.get ⟨i, hlt⟩)
    (he1 : 1 ≤ expandBeam) (he2 : expandBeam ≤ net.vocabSize) (hb : blankId < net.vocabSize)
    (hblank : ∀ h : List Nat, L ≤ h.length → ∀ r, r < net.vocabSize → r ≠ blankId →
      net.joint t (net.decoder h) r < net.joint t (net.decoder h) blankId)
    (hadd : ∀ a b : α, a ≤ net.LogAdd a b ∧ b ≤ net.LogAdd a b)
    (hdom : dominates st.nextSequences x = true) :
    leadMeasure expandBeam L (passBy impl net expandBeam blankId t st i x)
      < leadMeasure expandBeam L st := by
  obtain ⟨hclen, _, _, _⟩ := candidatesBy_spec impl net expandBeam t x he2
  obtain ⟨_, _, hmono, hblk⟩ := passBy_next_cases impl net expandBeam blankId t st i x he2 hadd
  have herase := sum_map_eraseIdx (fun y : Sequence α D =>
    if dominates st.nextSequences y then shortWeight expandBeam L y else 0)
    st.CurSequences i hlt
  rw [← hx] at herase
  simp only [hdom, if_true] at herase
  have hold : ((st.CurSequences.eraseIdx i).map (fun y : Sequence α D =>
        if dominates (passBy impl net expandBeam blankId t st i x).nextSequences y
        then shortWeight expandBeam L y else 0)).sum
      ≤ ((st.CurSequences.eraseIdx i).map (fun y : Sequence α D =>
        if dominates st.nextSequences y then shortWeight expandBeam L y else 0)).sum := by
    apply sum_map_le_sum_map
    intro y _
    by_cases h1 : dominates (passBy impl net expandBeam blankId t st i x).nextSequences y = true
    · rw [if_pos h1, if_pos (dominates_mono _ _ y hmono h1)]
    · rw [if_neg h1]
      exact Nat.zero_le _
  have hfl : ((candidatesBy impl net expandBeam t x).filter (fun c => c.1 ≠ blankId)).length
      ≤ expandBeam := by
    have h := List.length_filter_le (fun c : Nat × α => decide (c.1 ≠ blankId))
      (candidatesBy impl net expandBeam t x)
    omega
  have hA1 : 1 ≤ (expandBeam + 1) ^ (L - (x.labelseq.length + 1)) :=
    Nat.one_le_pow _ _ (by omega)
  have hnew : ((((candidatesBy impl net expandBeam t x).filter (fun c => c.1 ≠ blankId)).map
        (fun c => extendSeq { newSeqCopy (refresh net x) with
                              logP := c.2 + (refresh net x).logP } c.1
                    (c.2 + (refresh net x).logP))).map
        (fun y : Sequence α D =>
          if dominates (passBy impl net expandBeam blankId t st i x).nextSequences y
          then shortWeight expandBeam L y else 0)).sum
      < shortWeight expandBeam L x := by
    rw [List.map_map]
    by_cases hL : L ≤ x.labelseq.length
    · obtain ⟨cb, hcb, hcb1, hlow⟩ :=
        blank_among_candidates impl net expandBeam blankId t L x he1 he2 hb hblank hL
      obtain ⟨e, he, hle⟩ := hblk cb hcb hcb1
      have hzero : ((candidatesBy impl net expandBeam t x).filter (fun c => c.1 ≠ blankId)).map
          ((fun y : Sequence α D =>
            if dominates (passBy impl net expandBeam blankId t st i x).nextSequences y
            then shortWeight expandBeam L y else 0) ∘
           (fun c => extendSeq { newSeqCopy (refresh net x) with
                              logP := c.2 + (refresh net x).logP } c.1
                    (c.2 + (refresh net x).logP)))
          = ((candidatesBy impl net expandBeam t x).filter (fun c => c.1 ≠ blankId)).map
              (fun _ => 0) := by
        apply List.map_congr_left
        intro c hc
        obtain ⟨hc1, hc2⟩ := List.mem_filter.mp hc
        have hcne : c.1 ≠ blankId := by simpa using hc2
        have hlt2 : c.2 + x.logP < e.logP :=
          lt_of_lt_of_le (add_lt_add_right (hlow c hc1 hcne) _) hle
        have hnd : ¬ dominates (passBy impl net expandBeam blankId t st i x).nextSequences
            (extendSeq { newSeqCopy (refresh net x) with
                          logP := c.2 + (refresh net x).logP } c.1
              (c.2 + (refresh net x).logP)) = true := by
          intro hd
          unfold dominates at hd
          rw [List.all_eq_true] at hd
          have := hd e he
          simp only [decide_eq_true_eq] at this
          exact absurd hlt2 (not_lt.mpr this)
        simp only [Function.comp, if_neg hnd]
      rw [hzero, sum_map_const_nat]
      have := shortWeight_pos expandBeam L x
      omega
    · have hle : (((candidatesBy impl net expandBeam t x).filter (fun c => c.1 ≠ blankId)).map
          ((fun y : Sequence α D =>
            if dominates (passBy impl net expandBeam blankId t st i x).nextSequences y
            then shortWeight expandBeam L y else 0) ∘
           (fun c => extendSeq { newSeqCopy (refresh net x) with
                              logP := c.2 + (refresh net x).logP } c.1
                    (c.2 + (refresh net x).logP)))).sum
          ≤ (((candidatesBy impl net expandBeam t x).filter (fun c => c.1 ≠ blankId)).map
              (fun _ => (expandBeam + 1) ^ (L - (x.labelseq.length + 1)))).sum := by
        apply sum_map_le_sum_map
        intro c _
        simp only [Function.comp]
        split
        · simp [shortWeight, extendSeq, newSeqCopy, refresh]
        · exact Nat.zero_le _
      rw [sum_map_const_nat] at hle
      have hmul := Nat.mul_le_mul_right ((expandBeam + 1) ^ (L - (x.labelseq.length + 1))) hfl
      have hsw : shortWeight expandBeam L x
          = (expandBeam + 1) * (expandBeam + 1) ^ (L - (x.labelseq.length + 1)) := by
        unfold shortWeight
        have : L - x.labelseq.length = (L - (x.labelseq.length + 1)) + 1 := by omega
        rw [this, pow_succ]
        ring
      have hexp : (expandBeam + 1) * (expandBeam + 1) ^ (L - (x.labelseq.length + 1))
          = expandBeam * (expandBeam + 1) ^ (L - (x.labelseq.length + 1))
            + (expandBeam + 1) ^ (L - (x.labelseq.length + 1)) := by ring
      rw [hsw, hexp]
      omega
  unfold leadMeasure
  rw [passBy_cur, List.map_append, List.sum_append]
  omega

theorem stopTest_false_dominates (beamSize : Nat) (st : BeamState α D) (i : Nat)
    (x : Sequence α D) (h : stopTest beamSize st = some false)
    (hB : beamSize < st.nextSequences.length)
    (hi : max_element st.CurSequences = some i) (hget : st.CurSequences.get? i = some x) :
    dominates st.nextSequences x = true := by
  have hlt := max_element_lt _ _ hi
  have hl : st.CurSequences.length ≠ 0 := by omega
  unfold stopTest at h
  rw [if_neg hl, if_pos hB] at h
  simp only [Option.bind_eq_some, Option.map_eq_some', Option.some.injEq,
    decide_eq_false_iff_not, not_lt] at h
  obtain ⟨ya, hya, yb, hyb, hle⟩ := h
  have hxa : ya = x.logP := by
    unfold maxLogP at hya
    rw [hi, Option.some_bind, hget] at hya
    simp only [Option.map_some', Option.some.injEq] at hya
    exact hya.symm
  unfold maxLogP at hyb
  simp only [Option.bind_eq_some, Option.map_eq_some'] at hyb
  obtain ⟨j, hj, s, hs, hsb⟩ := hyb
  have hg := (max_element_greatest st.nextSequences s (by rw [hj, Option.some_bind, hs])).2
  unfold dominates
  rw [List.all_eq_true]
  intro y hy
  simp only [decide_eq_true_eq]
  have h1 := hg y hy
  rw [hsb] at h1
  rw [← hxa]
  exact le_trans h1 hle

theorem pass_facts (impl : NthElement α) (net : Network α D)
    (beamSize expandBeam blankId t L : Nat) (st : BeamState α D)
    (he1 : 1 ≤ expandBeam) (he2 : expandBeam ≤ net.vocabSize) (hb : blankId < net.vocabSize)
    (hblank : ∀ h : List Nat, L ≤ h.length → ∀ r, r < net.vocabSize → r ≠ blankId →
      net.joint t (net.decoder h) r < net.joint t (net.decoder h) blankId)
    (hadd : ∀ a b : α, a ≤ net.LogAdd a b ∧ b ≤ net.LogAdd a b)
    (hall : AllSeq (Coherent net) st) (hne : st.CurSequences ≠ []) :
    ∃ st1 stop,
      expandBodyBy impl net beamSize expandBeam blankId t st = some (st1, stop) ∧
      stopTest beamSize st1 = some stop ∧
      AllSeq (Coherent net) st1 ∧
      (st1.CurSequences ≠ [] ∨ st1.nextSequences ≠ []) ∧
      st.nextSequences.length ≤ st1.nextSequences.length ∧
      (st1.nextSequences.length = st.nextSequences.length →
        fillMeasure expandBeam L st1 < fillMeasure expandBeam L st) ∧
      (beamSize < st.nextSequences.length → stopTest beamSize st = some false →
        leadMeasure expandBeam L st1 < leadMeasure expandBeam L st) := by
  obtain ⟨i, x, stop, hi, hlt, hget, _, hstop, hbody⟩ :=
    expandBodyBy_coherent impl net beamSize expandBeam blankId t st he2 hall hne
  have hx : x = st.CurSequences.get ⟨i, hlt⟩ := by
    rw [List.get?_eq_get hlt] at hget
    injection hget with hget
    exact hget.symm
  obtain ⟨c1, c2, c3⟩ := Coherent_closed net
  have hall1 := expandBodyBy_preserves impl net (Coherent net) c1 c2 c3 beamSize expandBeam
    blankId t st _ stop hall hbody
  obtain ⟨hclen, _, _, _⟩ := candidatesBy_spec impl net expandBeam t x he2
  have hcne : candidatesBy impl net expandBeam t x ≠ [] := by
    intro h
    rw [h] at hclen
    simp at hclen
    omega
  obtain ⟨_, hmono, _, _⟩ := passBy_next_cases impl net expandBeam blankId t st i x he2 hadd
  refine ⟨_, stop, hbody, hstop, hall1, ?_, hmono, ?_, ?_⟩
  · unfold passBy
    exact foldl_expandCandidate_nonempty net blankId _ _ _ hcne
  · intro hlen
    exact fill_decreases impl net expandBeam blankId t L st i x hlt hx he1 he2 hb hblank hadd
      hlen
  · intro hB hfalse
    exact lead_decreases impl net expandBeam blankId t L st i x hlt hx he1 he2 hb hblank hadd
      (stopTest_false_dominates beamSize st i x hfalse hB hi hget)

theorem stopTest_false_cur (beamSize : Nat) (st : BeamState α D)
    (h : stopTest beamSize st = some false) : st.CurSequences ≠ [] := by
  obtain ⟨b, hb, hfalse, _⟩ := stopTest_isSome beamSize st
  rw [h] at hb
  injection hb with hb
  exact hfalse hb.symm

theorem stopTest_true_next (beamSize : Nat) (st : BeamState α D)
    (h : stopTest beamSize st = some true)
    (hne : st.CurSequences ≠ [] ∨ st.nextSequences ≠ []) : st.nextSequences ≠ [] := by
  obtain ⟨b, hb, _, htrue⟩ := stopTest_isSome beamSize st
  rw [h] at hb
  injection hb with hb
  rcases htrue hb.symm with h1 | h1
  · rcases hne with h2 | h2
    · exact absurd h1 h2
    · exact h2
  · intro h2
    rw [h2] at h1
    simp at h1

theorem expandLoopBy_lead_terminates (impl : NthElement α) (net : Network α D)
    (beamSize expandBeam blankId t L : Nat)
    (he1 : 1 ≤ expandBeam) (he2 : expandBeam ≤ net.vocabSize) (hb : blankId < net.vocabSize)
    (hblank : ∀ h : List Nat, L ≤ h.length → ∀ r, r < net.vocabSize → r ≠ blankId →
      net.joint t (net.decoder h) r < net.joint t (net.decoder h) blankId)
    (hadd : ∀ a b : α, a ≤ net.LogAdd a b ∧ b ≤ net.LogAdd a b) :
    ∀ (n : Nat) (st : BeamState α D), AllSeq (Coherent net) st →
      beamSize < st.nextSequences.length → stopTest beamSize st = some false →
      leadMeasure expandBeam L st < n →
      ∃ fuel st1, expandLoopBy impl net beamSize expandBeam blankId t fuel st = Run.done st1 ∧
        AllSeq (Coherent net) st1 ∧ st1.nextSequences ≠ [] := by
  intro n
  induction n with
  | zero => intro st _ _ _ h; omega
  | succ n ih =>
    intro st hall hB hfalse hm
    obtain ⟨st1, stop, hbody, hstop, hall1, hne1, hlen, _, hlead⟩ :=
      pass_facts impl net beamSize expandBeam blankId t L st he1 he2 hb hblank hadd hall
        (stopTest_false_cur beamSize st hfalse)
    cases stop with
    | true =>
      refine ⟨1, st1, ?_, hall1, stopTest_true_next beamSize st1 hstop hne1⟩
      unfold expandLoopBy
      rw [hbody]
    | false =>
      have hdec := hlead hB hfalse
      obtain ⟨fuel, st2, hrun, hall2, hne2⟩ :=
        ih st1 hall1 (by omega) hstop (by omega)
      refine ⟨fuel + 1, st2, ?_, hall2, hne2⟩
      unfold expandLoopBy
      rw [hbody]
      exact hrun

theorem expandLoopBy_fill_terminates (impl : NthElement α) (net : Network α D)
    (beamSize expandBeam blankId t L : Nat)
    (he1 : 1 ≤ expandBeam) (he2 : expandBeam ≤ net.vocabSize) (hb : blankId < net.vocabSize)
    (hblank : ∀ h : List Nat, L ≤ h.length → ∀ r, r < net.vocabSize → r ≠ blankId →
      net.joint t (net.decoder h) r < net.joint t (net.decoder h) blankId)
    (hadd : ∀ a b : α, a ≤ net.LogAdd a b ∧ b ≤ net.LogAdd a b) :
    ∀ (a n : Nat) (st : BeamState α D), AllSeq (Coherent net) st →
      st.CurSequences ≠ [] → st.nextSequences.length ≤ beamSize →
      beamSize + 1 - st.nextSequences.length < a → fillMeasure expandBeam L st < n →
      ∃ fuel st1, expandLoopBy impl net beamSize expandBeam blankId t fuel st = Run.done st1 ∧
        AllSeq (Coherent net) st1 ∧ st1.nextSequences ≠ [] := by
  intro a
  induction a with
  | zero => intro n st _ _ _ h _; omega
  | succ a iha =>
    intro n
    induction n with
    | zero => intro st _ _ _ _ h; omega
    | succ n ihn =>
      intro st hall hne hB ha hm
      obtain ⟨st1, stop, hbody, hstop, hall1, hne1, hlen, hfill, _⟩ :=
        pass_facts impl net beamSize expandBeam blankId t L st he1 he2 hb hblank hadd hall hne
      cases stop with
      | true =>
        refine ⟨1, st1, ?_, hall1, stopTest_true_next beamSize st1 hstop hne1⟩
        unfold expandLoopBy
        rw [hbody]
      | false =>
        have hcur1 := stopTest_false_cur beamSize st1 hstop
        have hrest : ∃ fuel st2,
            expandLoopBy impl net beamSize expandBeam blankId t fuel st1 = Run.done st2 ∧
              AllSeq (Coherent net) st2 ∧ st2.nextSequences ≠ [] := by
          by_cases heq : st1.nextSequences.length = st.nextSequences.length
          · have hdec := hfill heq
            exact ihn st1 hall1 hcur1 (by omega) (by omega) (by omega)
          · by_cases hB1 : st1.nextSequences.length ≤ beamSize
            · exact iha (fillMeasure expandBeam L st1 + 1) st1 hall1 hcur1 hB1 (by omega)
                (by omega)
            · exact expandLoopBy_lead_terminates impl net beamSize expandBeam blankId t L
                he1 he2 hb hblank hadd (leadMeasure expandBeam L st1 + 1) st1 hall1
                (by omega) hstop (by omega)
        obtain ⟨fuel, st2, hrun, hall2, hne2⟩ := hrest
        refine ⟨fuel + 1, st2, ?_, hall2, hne2⟩
        unfold expandLoopBy
        rw [hbody]
        exact hrun

theorem beamFrameBy_terminates (impl : NthElement α) (net : Network α D)
    (beamSize expandBeam blankId t L : Nat)
    (he1 : 1 ≤ expandBeam) (he2 : expandBeam ≤ net.vocabSize) (hb : blankId < net.vocabSize)
    (hblank : ∀ h : List Nat, L ≤ h.length → ∀ r, r < net.vocabSize → r ≠ blankId →
      net.joint t (net.decoder h) r < net.joint t (net.decoder h) blankId)
    (hadd : ∀ a b : α, a ≤ net.LogAdd a b ∧ b ≤ net.LogAdd a b)
    (carried : List (Sequence α D)) (hc : ∀ s ∈ carried, Coherent net s)
    (hne : carried ≠ []) :
    ∃ fuel next1, beamFrameBy impl net beamSize expandBeam blankId fuel carried t
        = Run.done next1 ∧
      (∀ s ∈ next1, Coherent net s) ∧ (1 ≤ beamSize → next1 ≠ []) := by
  have hall : AllSeq (Coherent net)
      ({ CurSequences := carried, nextSequences := [] } : BeamState α D) := ⟨hc, by simp⟩
  obtain ⟨fuel, st1, hrun, hall1, hnn⟩ :=
    expandLoopBy_fill_terminates impl net beamSize expandBeam blankId t L he1 he2 hb hblank hadd
      (beamSize + 2)
      (fillMeasure expandBeam L
        ({ CurSequences := carried, nextSequences := [] } : BeamState α D) + 1)
      { CurSequences := carried, nextSequences := [] } hall hne (by simp) (by simp) (by omega)
  refine ⟨fuel, prune st1.nextSequences beamSize, ?_, ?_, ?_⟩
  · unfold beamFrameBy
    rw [hrun]
  · intro s hs
    exact hall1.2 s (mem_prune _ _ s hs)
  · intro hbeam h
    have := prune_length st1.nextSequences beamSize
    rw [h] at this
    have hpos : 0 < st1.nextSequences.length := List.length_pos.mpr hnn
    simp only [List.length_nil] at this
    omega

theorem beamFramesBy_terminates (impl : NthElement α) (net : Network α D)
    (beamSize expandBeam blankId L : Nat) (hbeam : 1 ≤ beamSize)
    (he1 : 1 ≤ expandBeam) (he2 : expandBeam ≤ net.vocabSize) (hb : blankId < net.vocabSize)
    (hblank : ∀ (t : Nat) (h : List Nat), L ≤ h.length → ∀ r, r < net.vocabSize →
      r ≠ blankId → net.joint t (net.decoder h) r < net.joint t (net.decoder h) blankId)
    (hadd : ∀ a b : α, a ≤ net.LogAdd a b ∧ b ≤ net.LogAdd a b) :
    ∀ (ts : List Nat) (carried : List (Sequence α D)), (∀ s ∈ carried, Coherent net s) →
      carried ≠ [] →
      ∃ fuel final, beamFramesBy impl net beamSize expandBeam blankId fuel ts carried
          = Run.done final ∧
        (∀ s ∈ final, Coherent net s) ∧ final ≠ [] := by
  intro ts
  induction ts with
  | nil => intro carried hc hne; exact ⟨0, carried, rfl, hc, hne⟩
  | cons t ts ih =>
    intro carried hc hne
    obtain ⟨f1, next1, hf, hc1, hne1⟩ :=
      beamFrameBy_terminates impl net beamSize expandBeam blankId t L he1 he2 hb (hblank t) hadd
        carried hc hne
    obtain ⟨f2, final, hfin, hcf, hnf⟩ := ih next1 hc1 (hne1 hbeam)
    refine ⟨f1 + f2, final, ?_, hcf, hnf⟩
    have h1 : beamFrameBy impl net beamSize expandBeam blankId (f1 + f2) carried t
        = Run.done next1 := by
      rw [beamFrameBy_mono impl net beamSize expandBeam blankId f1 f2 carried t
        (by rw [hf]; simp), hf]
    have h2 : beamFramesBy impl net beamSize expandBeam blankId (f1 + f2) ts next1
        = Run.done final := by
      rw [Nat.add_comm, beamFramesBy_mono impl net beamSize expandBeam blankId f2 f1 ts next1
        (by rw [hfin]; simp), hfin]
    unfold beamFramesBy
    rw [h1]
    exact h2

theorem WriteOutput_beamBy_mono (impl : NthElement α) (net : Network α D)
    (beamSize expandBeam fuel k : Nat)
    (h : WriteOutput_beamBy impl net beamSize expandBeam fuel ≠ Run.timeout) :
    WriteOutput_beamBy impl net beamSize expandBeam (fuel + k)
      = WriteOutput_beamBy impl net beamSize expandBeam fuel := by
  unfold WriteOutput_beamBy at h ⊢
  have hf : beamFramesBy impl net beamSize expandBeam (net.vocabSize - 1) fuel
      (List.range net.numFrames) (beamInit net (net.vocabSize - 1)) ≠ Run.timeout := by
    intro h2
    simp only [h2] at h
    exact h rfl
  simp only [beamFramesBy_mono impl net beamSize expandBeam _ fuel k _ _ hf]

theorem twoLabelNet_blank_from_three : ∀ (t : Nat) (h : List Nat), 3 ≤ h.length →
    ∀ r, r < twoLabelNet.vocabSize → r ≠ twoLabelNet.vocabSize - 1 →
      twoLabelNet.joint t (twoLabelNet.decoder h) r
        < twoLabelNet.joint t (twoLabelNet.decoder h) (twoLabelNet.vocabSize - 1) := by
  intro t h hh r hr hne
  have hr2 : r < 2 := hr
  have hne1 : r ≠ 1 := hne
  have hr0 : r = 0 := by omega
  subst hr0
  have h2 : ¬ h.length ≤ 2 := by omega
  simp only [twoLabelNet, h2, if_false]
  decide!

/-- C10, as the code has it: the expansion loop has no pass limit of its
own, and on some scorers it never ends.  Let the blank be the single
greatest entry of the joint score vector for every label history of `L` or
more labels, and let `LogAdd a b` be at least `a` and at least `b` (as
`log(exp a + exp b)` is).  Then for every `beamSize`, every `expandBeam`
from 1 to `vocabSize` and every arrangement `std::nth_element` leaves, the
expansion loop of every frame ends; with `beamSize >= 1` the frames end
with a non-empty list of hypotheses, each of which the output step can
write, and `WriteOutput_beam` writes an output, also with more fuel. -/
theorem beam_terminates_blank_preferring (impl : NthElement α) (net : Network α D)
    (expandBeam L : Nat)
    (h0 : 0 < net.vocabSize) (he1 : 1 ≤ expandBeam) (he2 : expandBeam ≤ net.vocabSize)
    (hblank : ∀ (t : Nat) (h : List Nat), L ≤ h.length → ∀ r, r < net.vocabSize →
      r ≠ net.vocabSize - 1 →
      net.joint t (net.decoder h) r < net.joint t (net.decoder h) (net.vocabSize - 1))
    (hadd : ∀ a b : α, a ≤ net.LogAdd a b ∧ b ≤ net.LogAdd a b) :
    (∀ (beamSize t : Nat) (carried : List (Sequence α D)), (∀ s ∈ carried, Coherent net s) →
      carried ≠ [] →
      ∃ fuel next1,
        beamFrameBy impl net beamSize expandBeam (net.vocabSize - 1) fuel carried t
          = Run.done next1) ∧
    (∀ beamSize, 1 ≤ beamSize →
      ∃ fuel final out,
        beamFramesBy impl net beamSize expandBeam (net.vocabSize - 1) fuel
            (List.range net.numFrames) (beamInit net (net.vocabSize - 1)) = Run.done final ∧
        final ≠ [] ∧
        (∀ s ∈ final, ∀ x : α,
          ∃ o, writeBest net.vocabSize (net.vocabSize - 1) { s with logP := x } = some o) ∧
        ∀ k, WriteOutput_beamBy impl net beamSize expandBeam (fuel + k) = Run.done out) := by
  have hb : net.vocabSize - 1 < net.vocabSize := by omega
  refine ⟨?_, ?_⟩
  · intro beamSize t carried hc hne
    obtain ⟨fuel, next1, hf, _⟩ :=
      beamFrameBy_terminates impl net beamSize expandBeam _ t L he1 he2 hb (hblank t) hadd
        carried hc hne
    exact ⟨fuel, next1, hf⟩
  · intro beamSize hbeam
    obtain ⟨fuel, final, hrun, hcf, hnf⟩ :=
      beamFramesBy_terminates impl net beamSize expandBeam _ L hbeam he1 he2 hb hblank hadd
        (List.range net.numFrames) (beamInit net (net.vocabSize - 1))
        (beamInit_coherent net h0) (by simp [beamInit])
    obtain ⟨out, hout⟩ := WriteOutput_beamBy_of_frames impl net beamSize expandBeam fuel final
      h0 hrun (fun s hs => (hcf s hs).1) hnf
    refine ⟨fuel, final, out, hrun, hnf, ?_, ?_⟩
    · intro s hs x
      obtain ⟨o, ho, _⟩ := writeBest_spec net.vocabSize (net.vocabSize - 1)
        { s with logP := x } hb (InRange_logP _ s x (hcf s hs).1)
      exact ⟨o, ho⟩
    · intro k
      rw [WriteOutput_beamBy_mono impl net beamSize expandBeam fuel k (by rw [hout]; simp),
        hout]

/-- C10 on `twoLabelNet`, whose joiner prefers the blank from three labels
on, with `beamSize = 2` and `expandBeam = 2`: the expansion loop of the one
frame ends after three passes and leaves `[1]` and `[1, 0, 0]`. -/
theorem beam_terminates_blank_preferring_witness :
    beamFramesBy sortedNth twoLabelNet 2 2 (twoLabelNet.vocabSize - 1) 3
        (List.range twoLabelNet.numFrames) (beamInit twoLabelNet (twoLabelNet.vocabSize - 1))
      = Run.done [⟨[1], -2, 1, 1, 1, [1]⟩, ⟨[1, 0, 0], -3, 3, 3, 3, [1, 0, 0]⟩] ∧
    ((∀ (beamSize t : Nat) (carried : List (Sequence ℚ (List Nat))),
      (∀ s ∈ carried, Coherent twoLabelNet s) → carried ≠ [] →
      ∃ fuel next1,
        beamFrameBy sortedNth twoLabelNet beamSize 2 (twoLabelNet.vocabSize - 1) fuel carried t
          = Run.done next1) ∧
    (∀ beamSize, 1 ≤ beamSize →
      ∃ fuel final out,
        beamFramesBy sortedNth twoLabelNet beamSize 2 (twoLabelNet.vocabSize - 1) fuel
            (List.range twoLabelNet.numFrames)
            (beamInit twoLabelNet (twoLabelNet.vocabSize - 1)) = Run.done final ∧
        final ≠ [] ∧
        (∀ s ∈ final, ∀ x : ℚ,
          ∃ o, writeBest twoLabelNet.vocabSize (twoLabelNet.vocabSize - 1)
            { s with logP := x } = some o) ∧
        ∀ k, WriteOutput_beamBy sortedNth twoLabelNet beamSize 2 (fuel + k) = Run.done out)) :=
  ⟨by decide!,
   beam_terminates_blank_preferring sortedNth twoLabelNet 2 3 (by decide) (by decide)
     (by decide) twoLabelNet_blank_from_three
     (fun a b => ⟨le_max_left a b, le_max_right a b⟩)⟩

end Termination

end SimpleOutputWriter
